import Mathlib

/-!
# flagfile: tokenizer and flag assembler

A shallow embedding of `parse.go` (package `flagfile`): the tokenizer (`lexer.Next`,
`lexer.NextWord`, `lexer.NextQuotedWord`) and the assembler (`Parse`).

Modelling conventions.

* The reader `l.R` is the list of runes that successive `ReadRune` calls deliver
  before `io.EOF`; the underlying reader never fails otherwise.  For an input that
  is valid UTF-8 this list is the text itself, character by character (for a byte
  that is not valid UTF-8, `ReadRune` delivers `U+FFFD`).  `ReadRune` at the end
  of input returns the rune `0` with an error, and an `UnreadRune` that follows a
  failed `ReadRune` does nothing.  Every `UnreadRune` of the source directly
  follows a `ReadRune`, so it restores exactly the rune just read.
* A Go `string` is a list of bytes (`GoString`).  A `bytes.Buffer` that is only
  written with `WriteRune` is kept as the list of runes written; `String()` is
  its UTF-8 encoding `goStr`.
* `Line` and `Column` are Go `int`s, modelled as `Int` (no overflow: they are
  bounded by the input length).
* `unicode.IsSpace`, `utf8.AppendRune` and `strconv.Unquote` belong to the Go
  standard library and are modelled from its sources.
* `strconv.Itoa` and the texts of `io.ErrUnexpectedEOF` and `strconv.ErrSyntax`
  are modelled from the standard library as well; the `bytes.Buffer` of the method
  `Error` is written with `WriteString` and is kept as the list of bytes written.
* A loop whose termination is not structural is cut by an iteration bound
  (`parseLoop`, `unquoteLoop`, `tokenStream`, `digitsLoop`); `run_ne_outOfFuel`,
  `unquote_fuel`, `tokenStream_total` and `digitsLoop_spec` show that the bound is
  never reached.
-/

namespace flagfile

/-- A Go string: a sequence of bytes. -/
abbrev GoString := List Nat

/-- The function `utf8.AppendRune` on one rune, given as its code point. -/
def encodeRune (r : Nat) : List Nat :=
  if r ≤ 0x7F then [r]
  else if r ≤ 0x7FF then [0xC0 + r / 64, 0x80 + r % 64]
  else if 0x10FFFF < r ∨ (0xD800 ≤ r ∧ r ≤ 0xDFFF) then [0xEF, 0xBF, 0xBD]
  else if r ≤ 0xFFFF then [0xE0 + r / 4096, 0x80 + r / 64 % 64, 0x80 + r % 64]
  else [0xF0 + r / 262144, 0x80 + r / 4096 % 64, 0x80 + r / 64 % 64, 0x80 + r % 64]

/-- The Go string holding the UTF-8 encoding of a sequence of runes. -/
def goStr : List Char → GoString
  | [] => []
  | c :: s => encodeRune c.toNat ++ goStr s

/-- The predicate `unicode.IsSpace`: the Latin-1 switch, then the `White_Space` table. -/
def unicodeIsSpace (r : Char) : Bool :=
  let n := r.toNat
  if n ≤ 0xFF then
    n == 0x09 || n == 0x0A || n == 0x0B || n == 0x0C || n == 0x0D || n == 0x20
      || n == 0x85 || n == 0xA0
  else
    n == 0x1680 || (0x2000 ≤ n && n ≤ 0x200A) || n == 0x2028 || n == 0x2029
      || n == 0x202F || n == 0x205F || n == 0x3000

/-- The underlying error of `InvalidTokenError`. -/
structure InvalidTokenError where
  Token : GoString
deriving DecidableEq, Repr

/-- The `error` values that can occur as the cause of a parse failure. -/
inductive GoError where
  /-- The value `io.ErrUnexpectedEOF`. -/
  | unexpectedEOF
  /-- The value `strconv.ErrSyntax`. -/
  | syntaxErr
  /-- A `*InvalidTokenError`. -/
  | invalidToken (e : InvalidTokenError)
deriving DecidableEq, Repr

/-- The type `Error`: a parsing error. -/
structure Error where
  File : GoString
  Line : Int
  Column : Int
  Err : Option GoError
deriving DecidableEq, Repr

/-! ## strconv.Unquote -/

/-- The helper `unhex` of package strconv. -/
def unhex (b : Char) : Option Nat :=
  let c := b.toNat
  if 0x30 ≤ c ∧ c ≤ 0x39 then some (c - 0x30)
  else if 0x61 ≤ c ∧ c ≤ 0x66 then some (c - 0x61 + 10)
  else if 0x41 ≤ c ∧ c ≤ 0x46 then some (c - 0x41 + 10)
  else none

/-- The loop `for j := 0; j < n; j++ { x, ok := unhex(s[j]); ...; v = v<<4 | x }` of
`UnquoteChar`, together with the preceding `len(s) < n` test and the final `s = s[n:]`.
A rune that is not ASCII is not a hex digit, so counting runes or bytes gives the
same outcome. -/
def hexDigits : Nat → List Char → Nat → Option (Nat × List Char)
  | 0, s, v => some (v, s)
  | _ + 1, [], _ => none
  | n + 1, c :: s, v =>
    match unhex c with
    | none => none
    | some x => hexDigits n s (v * 16 + x)

/-- The loop over the two further octal digits in `UnquoteChar`. -/
def octDigits : Nat → List Char → Nat → Option (Nat × List Char)
  | 0, s, v => some (v, s)
  | _ + 1, [], _ => none
  | n + 1, c :: s, v =>
    if 0x30 ≤ c.toNat ∧ c.toNat ≤ 0x37 then octDigits n s (v * 8 + (c.toNat - 0x30))
    else none

/-- The predicate `utf8.ValidRune`. -/
def validRune (v : Nat) : Bool :=
  v < 0xD800 || (0xDFFF < v && v ≤ 0x10FFFF)

/-- The function `strconv.UnquoteChar`: decodes the first character or escape
sequence of `s`; returns `(value, multibyte, tail)`. -/
def UnquoteChar (s : List Char) (quote : Char) : Except GoError (Nat × Bool × List Char) :=
  match s with
  | [] => .error .syntaxErr
  | c :: s1 =>
    if c = quote ∧ (quote = '\x27' ∨ quote = '"') then .error .syntaxErr
    else if 0x80 ≤ c.toNat then .ok (c.toNat, true, s1)
    else if c ≠ '\\' then .ok (c.toNat, false, s1)
    else
      match s1 with
      | [] => .error .syntaxErr
      | c2 :: s2 =>
        if c2 = 'a' then .ok (0x07, false, s2)
        else if c2 = 'b' then .ok (0x08, false, s2)
        else if c2 = 'f' then .ok (0x0C, false, s2)
        else if c2 = 'n' then .ok (0x0A, false, s2)
        else if c2 = 'r' then .ok (0x0D, false, s2)
        else if c2 = 't' then .ok (0x09, false, s2)
        else if c2 = 'v' then .ok (0x0B, false, s2)
        else if c2 = 'x' ∨ c2 = 'u' ∨ c2 = 'U' then
          let n := if c2 = 'x' then 2 else if c2 = 'u' then 4 else 8
          match hexDigits n s2 0 with
          | none => .error .syntaxErr
          | some (v, s3) =>
            if c2 = 'x' then .ok (v, false, s3)
            else if validRune v then .ok (v, true, s3)
            else .error .syntaxErr
        else if 0x30 ≤ c2.toNat ∧ c2.toNat ≤ 0x37 then
          match octDigits 2 s2 (c2.toNat - 0x30) with
          | none => .error .syntaxErr
          | some (v, s3) => if 255 < v then .error .syntaxErr else .ok (v, false, s3)
        else if c2 = '\\' then .ok (0x5C, false, s2)
        else if c2 = '\x27' ∨ c2 = '"' then
          if c2 ≠ quote then .error .syntaxErr else .ok (c2.toNat, false, s2)
        else .error .syntaxErr

/-- The loop `for len(in) > 0 && in[0] != quote` of `strconv.unquote` for a
double-quoted literal; `none` when the iteration bound is reached. -/
def unquoteLoop : Nat → List Char → GoString → Option (Except GoError (GoString × List Char))
  | 0, _, _ => none
  | fuel + 1, s, buf =>
    match s with
    | [] => some (.ok (buf, s))
    | c :: _ =>
      if c = '"' then some (.ok (buf, s))
      else
        match UnquoteChar s '"' with
        | .error _ => some (.error .syntaxErr)
        | .ok (r, multibyte, rem) =>
          if c = '\n' then some (.error .syntaxErr)
          else
            unquoteLoop fuel rem
              (buf ++ (if r < 0x80 ∨ multibyte = false then [r % 256] else encodeRune r))

/-- The function `strconv.unquote(in, true)` for the literals that `NextQuotedWord`
builds: they begin with `"` and are valid UTF-8, given here as their rune sequence
(so `utf8.ValidString` holds on the fast path).  Returns `(out, rem)`.  The branches
for back-quoted and single-quoted literals are not part of the model: a literal
that does not begin with `"` is answered `ErrSyntax`.  The outcome `none` of
`unquoteLoop` does not occur (`unquote_fuel`). -/
def unquote (s : List Char) : Except GoError (GoString × List Char) :=
  match s with
  | [] => .error .syntaxErr
  | [_] => .error .syntaxErr
  | quote :: s1 =>
    if quote ≠ '"' then .error .syntaxErr
    else
      -- end := index(in[1:], quote) + 2
      if s1.contains '"' = false then .error .syntaxErr
      else
        let body := s1.takeWhile (fun c => c != '"')
        if body.contains '\\' = false ∧ body.contains '\n' = false then
          .ok (goStr body, (s1.dropWhile (fun c => c != '"')).drop 1)
        else
          match unquoteLoop (s1.length + 1) s1 [] with
          | none => .error .syntaxErr
          | some (.error e) => .error e
          | some (.ok (buf, s2)) =>
            match s2 with
            | [] => .error .syntaxErr
            | _ :: s3 => .ok (buf, s3)

/-- The function `strconv.Unquote`. -/
def Unquote (s : List Char) : Except GoError GoString :=
  match unquote s with
  | .error _ => .error .syntaxErr
  | .ok (out, rem) => if rem.length > 0 then .error .syntaxErr else .ok out

/-! ## The tokenizer -/

/-- The type `token`. -/
inductive token where
  | tokenEOF
  | tokenComment
  | tokenWhitespace
  | tokenNewLine
  | tokenWord
deriving DecidableEq, Repr

/-- The type `lexer`: the runes still to be read, and the position. -/
structure lexer where
  R : List Char
  Line : Int
  Column : Int
deriving DecidableEq, Repr

/-- The statements `r2, _, _ := l.R.ReadRune(); if r2 != '\n' { l.R.UnreadRune() }`
that follow a carriage return: the input left after them.  At the end of input
`ReadRune` fails and there is nothing to unread. -/
def skipLF : List Char → List Char
  | [] => []
  | r2 :: rest => if r2 ≠ '\n' then r2 :: rest else rest

/-- The comment loop of `Next` (after `#` was read at column 0): returns the
lexer state at its `return tokenComment`. -/
def commentLoop : List Char → Int → Int → lexer
  | [], line, col => ⟨[], line, col⟩
  | r :: rest, line, col =>
    if r = '\r' then ⟨skipLF rest, line + 1, 0⟩
    else if r = '\n' then ⟨rest, line + 1, 0⟩
    else commentLoop rest line (col + 1)

/-- The whitespace loop of `Next` (after a first whitespace rune was read). -/
def whitespaceLoop : List Char → Int → Int → lexer
  | [], line, col => ⟨[], line, col⟩
  | r :: rest, line, col =>
    if !unicodeIsSpace r || r = '\r' || r = '\n' then ⟨r :: rest, line, col⟩
    else whitespaceLoop rest line (col + 1)

/-- The loop of `NextWord`; `value` is the buffer. -/
def wordLoop : List Char → List Char → Int → Int → (token × GoString) × lexer
  | [], value, line, col => ((.tokenWord, goStr value), ⟨[], line, col⟩)
  | r :: rest, value, line, col =>
    if unicodeIsSpace r || r = '"' then ((.tokenWord, goStr value), ⟨r :: rest, line, col⟩)
    else wordLoop rest (value ++ [r]) line (col + 1)

/-- The method `NextWord`. -/
def lexer.NextWord (l : lexer) : Except GoError (token × GoString) × lexer :=
  let out := wordLoop l.R [] l.Line l.Column
  (.ok out.1, out.2)

/-- The loop of `NextQuotedWord`; `value` is the buffer. -/
def quotedLoop : List Char → List Char → Int → Int → Except GoError (token × GoString) × lexer
  | [], _, line, col => (.error .unexpectedEOF, ⟨[], line, col⟩)
  | r :: rest, value, line, col =>
    let line1 := if r = '\n' then line + 1 else line
    let col1 := if r = '\n' then 0 else col + 1
    if r = '"' then
      match Unquote (value ++ ['"']) with
      | .error err => (.error err, ⟨rest, line1, col1⟩)
      | .ok final => (.ok (.tokenWord, final), ⟨rest, line1, col1⟩)
    else if r = '\\' then
      match rest with
      | [] => quotedLoop [] (value ++ [r]) line1 col1
      | r2 :: rest2 =>
        if r2 = '"' then quotedLoop rest2 (value ++ ['"']) line1 (col1 + 1)
        else quotedLoop (r2 :: rest2) (value ++ [r]) line1 col1
    else quotedLoop rest (value ++ [r]) line1 col1

/-- The method `NextQuotedWord`. -/
def lexer.NextQuotedWord (l : lexer) : Except GoError (token × GoString) × lexer :=
  match l.R with
  | [] => quotedLoop [] ['\x00'] l.Line (l.Column + 1)
  | r :: rest => quotedLoop rest [r] l.Line (l.Column + 1)

/-- The method `Next`. -/
def lexer.Next (l : lexer) : Except GoError (token × GoString) × lexer :=
  match l.R with
  | [] => (.ok (.tokenEOF, []), l)
  | r :: rest =>
    if l.Column = 0 ∧ r = '#' then
      (.ok (.tokenComment, []), commentLoop rest l.Line l.Column)
    else if r = '\r' then (.ok (.tokenNewLine, []), ⟨skipLF rest, l.Line + 1, 0⟩)
    else if r = '\n' then (.ok (.tokenNewLine, []), ⟨rest, l.Line + 1, 0⟩)
    else if r = '"' then l.NextQuotedWord
    else if !unicodeIsSpace r then l.NextWord
    else (.ok (.tokenWhitespace, []), whitespaceLoop rest l.Line l.Column)

/-! ## The assembler -/

/-- The outcome of `Parse`. -/
inductive ParseResult where
  /-- The return `args, nil`. -/
  | ok (args : List GoString)
  /-- The return `nil, e`. -/
  | fail (e : Error)
  /-- The run-time panic of `args[len(args)-1]` on an empty slice. -/
  | indexOutOfRange
  /-- The iteration bound of the model was reached. -/
  | outOfFuel
deriving DecidableEq, Repr

/-- The local variables of `Parse`. -/
structure Locals where
  args : List GoString
  newLine : Bool
  firstOp : Bool
  addWhitespace : Bool
deriving DecidableEq, Repr

/-- The effect of one iteration of the `for` loop of `Parse`: a `return`, or the
lexer and locals with which the next iteration starts. -/
inductive Step where
  | ret (r : ParseResult)
  | next (l : lexer) (v : Locals)
deriving DecidableEq, Repr

/-- The statement `args[len(args)-1] += s`; `none` is the index-out-of-range panic. -/
def addToLast : List GoString → GoString → Option (List GoString)
  | [], _ => none
  | [a], s => some [a ++ s]
  | a :: b :: t, s => (addToLast (b :: t) s).map (fun r => a :: r)

/-- The field `e.File`: the name of the file when the reader is an `*os.File`. -/
def fileName (file : Option GoString) : GoString := file.getD []

/-- The body of the `for` loop of `Parse` after `tkn, val, err := l.Next()`, where
`res` is the result of that call and `l1` the lexer after it. -/
def assemble (file : Option GoString) (res : Except GoError (token × GoString)) (l1 : lexer)
    (v : Locals) : Step :=
  match res with
  | .error err => .ret (.fail ⟨fileName file, l1.Line + 1, l1.Column + 1, some err⟩)
  | .ok (tkn, val) =>
    match tkn with
    | .tokenEOF => .ret (.ok v.args)
    | .tokenComment => .next l1 v
    | .tokenWhitespace => .next l1 ⟨v.args, v.newLine, v.firstOp, true⟩
    | .tokenNewLine => .next l1 ⟨v.args, true, v.firstOp, v.addWhitespace⟩
    | .tokenWord =>
      if val = [0x2D] then
        .ret (.fail ⟨fileName file, l1.Line + 1, l1.Column + 1 - (val.length : Int),
          some (.invalidToken ⟨val⟩)⟩)
      else if v.newLine then
        .next l1 ⟨v.args ++ [0x2D :: val], false, true, false⟩
      else
        let sep : GoString :=
          if v.firstOp then [0x3D] else if v.addWhitespace then [0x20] else []
        match addToLast v.args sep with
        | none => .ret .indexOutOfRange
        | some args1 =>
          match addToLast args1 val with
          | none => .ret .indexOutOfRange
          | some args2 => .next l1 ⟨args2, false, false, false⟩

/-- One iteration of the `for` loop of `Parse`. -/
def loopBody (file : Option GoString) (l : lexer) (v : Locals) : Step :=
  assemble file l.Next.1 l.Next.2 v

/-- The `for` loop of `Parse`, cut after `fuel` iterations. -/
def parseLoop (file : Option GoString) : Nat → lexer → Locals → ParseResult
  | 0, _, _ => .outOfFuel
  | fuel + 1, l, v =>
    match loopBody file l v with
    | .ret r => r
    | .next l1 v1 => parseLoop file fuel l1 v1

/-- The function `Parse` on a reader delivering the runes `input`; `file` is the
file name when the reader is an `*os.File`.  Every iteration but the last
consumes a rune, so `input.length + 1` iterations suffice. -/
def Parse (file : Option GoString) (input : List Char) : ParseResult :=
  parseLoop file (input.length + 1) ⟨input, 0, 0⟩ ⟨[], true, true, false⟩

/-! ## Vocabulary of the input format -/

/-- A rune that continues a bare word: neither whitespace nor a double quote. -/
def wordRune (c : Char) : Bool := !unicodeIsSpace c && c != '"'

/-- A bare word: non-empty, without whitespace or double quote, and not `-`. -/
def bareWord (w : List Char) : Bool := !w.isEmpty && w.all wordRune && w != ['-']

/-- A bare flag name: a bare word that does not begin with `#`. -/
def flagName (w : List Char) : Bool := bareWord w && w.head? != some '#'

/-- A whitespace rune other than CR and LF. -/
def blankRune (c : Char) : Bool := unicodeIsSpace c && c != '\r' && c != '\n'

/-- A non-empty run of whitespace runes other than CR and LF. -/
def blankRun (s : List Char) : Bool := !s.isEmpty && s.all blankRune

/-- What the loop of `NextWord` stops at: the end of input, whitespace or a quote. -/
def wordStop : List Char → Bool
  | [] => true
  | c :: _ => unicodeIsSpace c || c == '"'

/-- What the whitespace loop of `Next` stops at: the end of input, or a rune that
is not whitespace or is CR or LF. -/
def blankStop : List Char → Bool
  | [] => true
  | c :: _ => !blankRune c

/-- Words joined by exactly one space. -/
def spaceJoin : List (List Char) → List Char
  | [] => []
  | [w] => w
  | w :: v :: vs => w ++ ' ' :: spaceJoin (v :: vs)

/-- Value words written one after the other, each preceded by its separator. -/
def joinSep : List (List Char × List Char) → List Char
  | [] => []
  | p :: ps => p.1 ++ p.2 ++ joinSep ps

/-- What the assembler appends to the current flag for a list of value words that
were each preceded by whitespace: `=` (when `firstOp` holds) or a space before the
first one, a space before every other one. -/
def appendValues (firstOp : Bool) : List (List Char) → List Char
  | [] => []
  | w :: ws => (if firstOp then '=' else ' ') :: w ++ appendValues false ws

/-- The separator that `Parse` inserts before a value word. -/
def sepOf (firstOp addWhitespace : Bool) : GoString :=
  if firstOp then [0x3D] else if addWhitespace then [0x20] else []

/-- A flag line: a bare flag name followed by bare value words. -/
def flagLine : List (List Char) → Bool
  | [] => false
  | w0 :: vs => flagName w0 && vs.all bareWord

/-- A line written as its words joined by one space and terminated by a line feed. -/
def renderLine (ln : List (List Char)) : List Char := spaceJoin ln ++ ['\n']

/-- The text of a list of lines. -/
def renderLines : List (List (List Char)) → List Char
  | [] => []
  | ln :: lns => renderLine ln ++ renderLines lns

/-- The flag argument expected for a line of words: `-w0` or `-w0=w1 .. wk`. -/
def entry : List (List Char) → GoString
  | [] => []
  | [w0] => goStr ('-' :: w0)
  | w0 :: v :: vs => goStr ('-' :: w0 ++ '=' :: spaceJoin (v :: vs))

/-- A rune that stands for itself inside a quoted word: not a double quote, not a
backslash and not a line feed. -/
def plainRune (c : Char) : Bool := c != '"' && c != '\\' && c != '\n'


/-- A rune other than CR and LF. -/
def inlineRune (c : Char) : Bool := c != '\r' && c != '\n'

/-- The content of a line that holds no flag: a comment (`#` followed by runes other
than CR and LF) or a blank line (whitespace other than CR and LF, possibly none). -/
def idleLine (s : List Char) : Bool :=
  (s.head? == some '#' && s.tail.all inlineRune) || s.all blankRune

/-- A line terminator: LF, CR LF or CR. -/
def lineBreak (t : List Char) : Bool := t == ['\n'] || t == ['\r', '\n'] || t == ['\r']

/-- The text of lines given with their terminators, followed by a last line that
has no terminator. -/
def linesText : List (List Char × List Char) → List Char → List Char
  | [], last => last
  | p :: ps, last => p.1 ++ p.2 ++ linesText ps last

/-- The input left once the tokenizer has read the line terminator `t` in front of
`rest`: after a lone CR it also takes a LF that follows. -/
def afterBreak (t rest : List Char) : List Char :=
  if t = ['\r'] then skipLF rest else rest

/-- The text ends with a line feed. -/
def endsLF : List Char → Bool
  | [] => false
  | [c] => c == '\n'
  | _ :: c :: t => endsLF (c :: t)

/-- The invariant of the loop of `Parse` that makes `args[len(args)-1]` safe: a flag
has been started on the current line only where the column is positive, and then
`args` is not empty. -/
def Started (col : Int) (v : Locals) : Prop :=
  v.newLine = true ∨ (0 < col ∧ v.args ≠ [])

/-- A space or a tab. -/
def spaceTab (c : Char) : Bool := c == ' ' || c == '\t'

/-- The text is empty or begins with a line break (CR or LF). -/
def startsWithBreak : List Char → Bool
  | [] => true
  | c :: _ => c == '\r' || c == '\n'

/-- The flag list of a successful outcome. -/
def ParseResult.args? : ParseResult → Option (List GoString)
  | .ok args => some args
  | _ => none

/-- The `for` loop of `Parse` from the lexer `l` and the locals `v`, with the
iteration bound that `Parse` gives it for the input still to be read. -/
def run (file : Option GoString) (l : lexer) (v : Locals) : ParseResult :=
  parseLoop file (l.R.length + 1) l v

/-! ## Further vocabulary: escapes, loop states, token streams -/

/-- Every double quote of the text is immediately preceded by a backslash; `prev` is
the rune before the text, if there is one. -/
def quotesEscaped : Option Char → List Char → Bool
  | _, [] => true
  | prev, x :: t => (x != '"' || prev == some '\\') && quotesEscaped (some x) t

/-- A rune that may follow a backslash in a double-quoted Go string literal: one of
`a b f n r t v \ " x u U` or an octal digit. -/
def escapeRune (x : Char) : Bool :=
  x == 'a' || x == 'b' || x == 'f' || x == 'n' || x == 'r' || x == 't' || x == 'v'
    || x == '\\' || x == '"' || x == 'x' || x == 'u' || x == 'U'
    || (0x30 ≤ x.toNat && x.toNat ≤ 0x37)

/-- The lexer and the locals with which iteration `k` (counted from 0) of the loop of
`Parse` starts, when the loop gets that far. -/
def stateAt (file : Option GoString) (input : List Char) : Nat → Option (lexer × Locals)
  | 0 => some (⟨input, 0, 0⟩, ⟨[], true, true, false⟩)
  | k + 1 =>
    match stateAt file input k with
    | none => none
    | some (l, v) =>
      match loopBody file l v with
      | .ret _ => none
      | .next l1 v1 => some (l1, v1)

/-- The tokens that repeated calls of `Next` return, up to and including the first
end-of-input token, or up to the first error, which is then returned beside them;
`none` when the iteration bound is reached first. -/
def tokenStream : Nat → lexer → Option (List token × Option GoError)
  | 0, _ => none
  | fuel + 1, l =>
    match l.Next with
    | (.error e, _) => some ([], some e)
    | (.ok (tk, _), l1) =>
      if tk = .tokenEOF then some ([tk], none)
      else
        match tokenStream fuel l1 with
        | none => none
        | some (toks, err) => some (tk :: toks, err)

/-! ## Rendering of errors -/

/-- The digit loop of `strconv.Itoa` for a non-negative number: the decimal digits
of `n` are put in front of `acc`, the least significant first; `fuel` bounds the
number of digits. -/
def digitsLoop : Nat → Nat → GoString → GoString
  | 0, _, acc => acc
  | fuel + 1, n, acc =>
    if n < 10 then (0x30 + n) :: acc
    else digitsLoop fuel (n / 10) ((0x30 + n % 10) :: acc)

/-- The function `strconv.Itoa`: the decimal representation, with a leading `-` for
a negative number. -/
def Itoa (i : Int) : GoString :=
  if i < 0 then 0x2D :: digitsLoop (i.natAbs + 1) i.natAbs []
  else digitsLoop (i.natAbs + 1) i.natAbs []

/-- The number that a string of decimal digits denotes. -/
def decimalValue (s : GoString) : Nat := s.foldl (fun a d => a * 10 + (d - 0x30)) 0

/-- The method `WriteString` of `bytes.Buffer`: the content after the write. -/
def WriteString (b s : GoString) : GoString := b ++ s

/-- The method `Error` of `*InvalidTokenError`. -/
def InvalidTokenError.Error (e : InvalidTokenError) : GoString :=
  goStr "invalid token \"".toList ++ e.Token ++ goStr "\"".toList

/-- The method `Error` of the causes: the texts of `io.ErrUnexpectedEOF` and
`strconv.ErrSyntax`, and the method of `*InvalidTokenError`. -/
def GoError.Error : GoError → GoString
  | .unexpectedEOF => goStr "unexpected EOF".toList
  | .syntaxErr => goStr "invalid syntax".toList
  | .invalidToken e => e.Error

/-- The method `Error` of `*Error`; `b` is the buffer. -/
def Error.Error (e : Error) : GoString :=
  let b : GoString := []
  let b := WriteString b (goStr "flagfile: parsing error".toList)
  let b := if e.File ≠ [] then WriteString (WriteString b (goStr " in ".toList)) e.File else b
  let b := WriteString b (goStr " (line ".toList)
  let b := WriteString b (Itoa e.Line)
  let b := WriteString b (goStr ", column ".toList)
  let b := WriteString b (Itoa e.Column)
  let b := WriteString b (goStr ")".toList)
  let b :=
    match e.Err with
    | some err => WriteString (WriteString b (goStr ": ".toList)) err.Error
    | none => b
  b

/-! ## Rendering of a flag list -/

/-- The content of a value as it is written between double quotes: every `"` and
every `\` is preceded by a backslash. -/
def escapeValue : List Char → List Char
  | [] => []
  | c :: t => if c = '"' ∨ c = '\\' then '\\' :: c :: escapeValue t else c :: escapeValue t

/-- A value that is written between double quotes: it contains whitespace or a
double quote. -/
def needsQuotes (v : List Char) : Bool := v.any (fun c => unicodeIsSpace c || c == '"')

/-- A value as it is written: bare, or between double quotes with its content
escaped. -/
def renderValue (v : List Char) : List Char :=
  if needsQuotes v then '"' :: escapeValue v ++ ['"'] else v

/-- The values of a flag as they are written, each after one space. -/
def renderValues : List (List Char) → List Char
  | [] => []
  | v :: vs => ' ' :: renderValue v ++ renderValues vs

/-- The line of a flag: its name, its values, a line feed. -/
def renderFlag (f : List Char × List (List Char)) : List Char :=
  f.1 ++ renderValues f.2 ++ ['\n']

/-- The text of a flag list: one flag per line. -/
def renderFlags : List (List Char × List (List Char)) → List Char
  | [] => []
  | f :: fs => renderFlag f ++ renderFlags fs

/-- A flag with a bare name and values that are not empty and not `-`. -/
def namedFlag (f : List Char × List (List Char)) : Bool :=
  flagName f.1 && f.2.all (fun v => !v.isEmpty && v != ['-'])

/-- A value that comes back from its written form: not empty, not `-`, without
double quote and without line feed, and not ending in a backslash when it is
written between quotes. -/
def plainValue (v : List Char) : Bool :=
  !v.isEmpty && v != ['-'] && !v.contains '"' && !v.contains '\n'
    && !(needsQuotes v && v.getLast? == some '\\')

/-! ## Strings and runes -/

theorem char_eq_of_toNat {c d : Char} (h : c.toNat = d.toNat) : c = d :=
  Char.ext (UInt32.ext h)

theorem encodeRune_ne_nil (r : Nat) : encodeRune r ≠ [] := by
  unfold encodeRune
  split_ifs <;> simp

theorem goStr_append (a b : List Char) : goStr (a ++ b) = goStr a ++ goStr b := by
  induction a with
  | nil => simp [goStr]
  | cons c t ih => simp [goStr, ih]

theorem goStr_eq_nil {w : List Char} (h : goStr w = []) : w = [] := by
  cases w with
  | nil => rfl
  | cons c t =>
    simp only [goStr, List.append_eq_nil] at h
    exact absurd h.1 (encodeRune_ne_nil _)

theorem goStr_eq_dash (w : List Char) : goStr w = [0x2D] ↔ w = ['-'] := by
  constructor
  · intro h
    cases w with
    | nil => simp [goStr] at h
    | cons c t =>
      simp only [goStr] at h
      unfold encodeRune at h
      split_ifs at h with h1 h2 h3 h4
      · simp only [List.singleton_append, List.cons.injEq] at h
        have hc : c = '-' := char_eq_of_toNat (by rw [h.1]; rfl)
        rw [hc, goStr_eq_nil h.2]
      all_goals
        simp only [List.cons_append, List.cons.injEq] at h
        omega
  · intro h
    subst h
    rfl

/-! ## Single steps of the tokenizer -/

theorem wordLoop_run (w rest value : List Char) (line col : Int)
    (hw : w.all wordRune = true) (hr : wordStop rest = true) :
    wordLoop (w ++ rest) value line col
      = ((.tokenWord, goStr (value ++ w)), ⟨rest, line, col + w.length⟩) := by
  induction w generalizing value col with
  | nil =>
    cases rest with
    | nil => simp [wordLoop]
    | cons c t =>
      simp only [wordStop, Bool.or_eq_true, beq_iff_eq] at hr
      simp [wordLoop, hr]
  | cons c t ih =>
    simp only [List.all_cons, Bool.and_eq_true, wordRune, Bool.not_eq_true', bne_iff_ne] at hw
    obtain ⟨⟨h1, h2⟩, h3⟩ := hw
    simp only [List.cons_append, wordLoop, h1, h2, Bool.false_or, decide_False,
      Bool.false_eq_true, if_false, List.append_eq]
    rw [ih _ _ h3]
    simp only [List.append_assoc, List.singleton_append, List.length_cons, Nat.cast_add,
      Nat.cast_one]
    congr 2
    omega

theorem whitespaceLoop_run (ws rest : List Char) (line col : Int)
    (hw : ws.all blankRune = true) (hr : blankStop rest = true) :
    whitespaceLoop (ws ++ rest) line col = ⟨rest, line, col + ws.length⟩ := by
  induction ws generalizing col with
  | nil =>
    cases rest with
    | nil => simp [whitespaceLoop]
    | cons c t =>
      simp only [blankStop, blankRune, Bool.not_eq_true', Bool.and_eq_false_iff,
        bne_eq_false_iff_eq] at hr
      have : (!unicodeIsSpace c || decide (c = '\r') || decide (c = '\n')) = true := by
        rcases hr with (h | h) | h <;> simp [h]
      simp [whitespaceLoop, this]
  | cons c t ih =>
    simp only [List.all_cons, Bool.and_eq_true, blankRune, bne_iff_ne] at hw
    obtain ⟨⟨⟨h1, h2⟩, h3⟩, h4⟩ := hw
    simp only [List.cons_append, whitespaceLoop, h1, h2, h3, Bool.not_true, decide_False,
      Bool.or_self, Bool.false_eq_true, if_false, List.append_eq]
    rw [ih _ h4]
    simp only [List.length_cons, Nat.cast_add, Nat.cast_one]
    congr 1
    omega

theorem not_space_ne_cr {c : Char} (h : unicodeIsSpace c = false) : c ≠ '\r' := by
  rintro rfl
  revert h
  decide

theorem not_space_ne_lf {c : Char} (h : unicodeIsSpace c = false) : c ≠ '\n' := by
  rintro rfl
  revert h
  decide

theorem space_ne_hash {c : Char} (h : unicodeIsSpace c = true) : c ≠ '#' := by
  rintro rfl
  revert h
  decide

theorem space_ne_quote {c : Char} (h : unicodeIsSpace c = true) : c ≠ '"' := by
  rintro rfl
  revert h
  decide

/-- The tokenizer on a bare word: the whole word is one `tokenWord`. -/
theorem Next_word (w rest : List Char) (line col : Int) (hne : w ≠ [])
    (hw : w.all wordRune = true) (hc : col ≠ 0 ∨ w.head? ≠ some '#')
    (hr : wordStop rest = true) :
    (lexer.Next ⟨w ++ rest, line, col⟩)
      = (.ok (.tokenWord, goStr w), ⟨rest, line, col + w.length⟩) := by
  cases w with
  | nil => exact absurd rfl hne
  | cons c t =>
    have hw0 := hw
    simp only [List.all_cons, Bool.and_eq_true, wordRune, Bool.not_eq_true', bne_iff_ne] at hw
    obtain ⟨⟨h1, h2⟩, -⟩ := hw
    have h3 : ¬(col = 0 ∧ c = '#') := by
      rintro ⟨rfl, rfl⟩
      simp at hc
    have h4 := not_space_ne_cr h1
    have h5 := not_space_ne_lf h1
    simp only [lexer.Next, List.cons_append, h3, h4, h5, h2, h1, if_false, Bool.not_false,
      if_true, lexer.NextWord]
    have := wordLoop_run (c :: t) rest [] line col hw0 hr
    simp only [List.cons_append, List.nil_append] at this
    rw [this]

/-- The tokenizer on a run of blanks: one `tokenWhitespace`; the column advances
by one less than the length of the run. -/
theorem Next_blank (ws rest : List Char) (line col : Int) (hne : ws ≠ [])
    (hw : ws.all blankRune = true) (hr : blankStop rest = true) :
    (lexer.Next ⟨ws ++ rest, line, col⟩)
      = (.ok (.tokenWhitespace, []), ⟨rest, line, col + ws.length - 1⟩) := by
  cases ws with
  | nil => exact absurd rfl hne
  | cons c t =>
    simp only [List.all_cons, Bool.and_eq_true, blankRune, bne_iff_ne] at hw
    obtain ⟨⟨⟨h1, h2⟩, h3⟩, h4⟩ := hw
    have h5 : ¬(col = 0 ∧ c = '#') := fun h => space_ne_hash h1 h.2
    have h6 := space_ne_quote h1
    simp only [lexer.Next, List.cons_append, h5, h2, h3, h6, h1, if_false, Bool.not_true,
      Bool.false_eq_true]
    rw [whitespaceLoop_run t rest line col h4 hr]
    simp only [List.length_cons, Nat.cast_add, Nat.cast_one]
    congr 2
    omega

/-! ## The loop of `Parse` needs no more iterations than runes, plus one -/

theorem skipLF_length (s : List Char) : (skipLF s).length ≤ s.length := by
  cases s with
  | nil => simp [skipLF]
  | cons c t =>
    simp only [skipLF]
    split_ifs <;> simp

theorem commentLoop_length (s : List Char) (line col : Int) :
    (commentLoop s line col).R.length ≤ s.length := by
  induction s generalizing col with
  | nil => simp [commentLoop]
  | cons c t ih =>
    unfold commentLoop
    split_ifs with h1 h2
    · exact Nat.le_succ_of_le (skipLF_length _)
    · simp
    · exact Nat.le_succ_of_le (ih _)

theorem whitespaceLoop_length (s : List Char) (line col : Int) :
    (whitespaceLoop s line col).R.length ≤ s.length := by
  induction s generalizing col with
  | nil => simp [whitespaceLoop]
  | cons c t ih =>
    unfold whitespaceLoop
    split_ifs with h1
    · simp
    · exact Nat.le_succ_of_le (ih _)

theorem wordLoop_length (s value : List Char) (line col : Int) :
    (wordLoop s value line col).2.R.length ≤ s.length := by
  induction s generalizing value col with
  | nil => simp [wordLoop]
  | cons c t ih =>
    unfold wordLoop
    split_ifs with h1
    · simp
    · exact Nat.le_succ_of_le (ih _ _)

theorem quotedLoop_nil (value : List Char) (line col : Int) :
    quotedLoop [] value line col = (.error .unexpectedEOF, ⟨[], line, col⟩) := by
  rw [quotedLoop]

theorem quotedLoop_cons (r : Char) (rest value : List Char) (line col : Int) :
    quotedLoop (r :: rest) value line col =
      (if r = '"' then
        match Unquote (value ++ ['"']) with
        | .error err =>
          (.error err, ⟨rest, if r = '\n' then line + 1 else line,
            if r = '\n' then 0 else col + 1⟩)
        | .ok final =>
          (.ok (.tokenWord, final), ⟨rest, if r = '\n' then line + 1 else line,
            if r = '\n' then 0 else col + 1⟩)
      else if r = '\\' then
        match rest with
        | [] =>
          quotedLoop [] (value ++ [r]) (if r = '\n' then line + 1 else line)
            (if r = '\n' then 0 else col + 1)
        | r2 :: rest2 =>
          if r2 = '"' then
            quotedLoop rest2 (value ++ ['"']) (if r = '\n' then line + 1 else line)
              ((if r = '\n' then 0 else col + 1) + 1)
          else
            quotedLoop (r2 :: rest2) (value ++ [r]) (if r = '\n' then line + 1 else line)
              (if r = '\n' then 0 else col + 1)
      else
        quotedLoop rest (value ++ [r]) (if r = '\n' then line + 1 else line)
          (if r = '\n' then 0 else col + 1)) := by
  cases rest <;> rfl

theorem quotedLoop_length (s value : List Char) (line col : Int) :
    (quotedLoop s value line col).2.R.length ≤ s.length := by
  generalize hn : s.length = n
  induction n using Nat.strong_induction_on generalizing s value line col with
  | _ n ih =>
    subst hn
    cases s with
    | nil => simp [quotedLoop_nil]
    | cons r rest =>
      rw [quotedLoop_cons]
      generalize (if r = '\n' then line + 1 else line) = line1
      generalize (if r = '\n' then 0 else col + 1) = col1
      by_cases h1 : r = '"'
      · rw [if_pos h1]
        split <;> simp
      · rw [if_neg h1]
        by_cases h2 : r = '\\'
        · rw [if_pos h2]
          cases rest with
          | nil => simp [quotedLoop_nil]
          | cons r2 rest2 =>
            simp only
            by_cases h3 : r2 = '"'
            · rw [if_pos h3]
              have := ih rest2.length (by simp only [List.length_cons]; omega) rest2
                (value ++ ['"']) line1 (col1 + 1) rfl
              simp only [List.length_cons]
              omega
            · rw [if_neg h3]
              have := ih (r2 :: rest2).length (by simp only [List.length_cons]; omega)
                (r2 :: rest2) (value ++ [r]) line1 col1 rfl
              simp only [List.length_cons] at this ⊢
              omega
        · rw [if_neg h2]
          have := ih rest.length (by simp only [List.length_cons]; omega) rest (value ++ [r])
            line1 col1 rfl
          simp only [List.length_cons]
          omega

/-- Every call of `Next` on a non-empty input consumes at least one rune. -/
theorem Next_lt (l : lexer) (h : l.R ≠ []) : l.Next.2.R.length < l.R.length := by
  obtain ⟨R, line, col⟩ := l
  cases R with
  | nil => exact absurd rfl h
  | cons r rest =>
    simp only [lexer.Next, List.length_cons]
    split_ifs with h1 h2 h3 h4 h5
    · exact Nat.lt_succ_of_le (commentLoop_length _ _ _)
    · exact Nat.lt_succ_of_le (skipLF_length _)
    · simp
    · simp only [lexer.NextQuotedWord]
      exact Nat.lt_succ_of_le (quotedLoop_length _ _ _ _)
    · simp only [lexer.NextWord, wordLoop]
      simp only [Bool.not_eq_true'] at h5
      simp only [h5, h4, Bool.false_or, decide_False, Bool.false_eq_true, if_false]
      exact Nat.lt_succ_of_le (wordLoop_length _ _ _ _)
    · exact Nat.lt_succ_of_le (whitespaceLoop_length _ _ _)

theorem assemble_next {file : Option GoString} {res : Except GoError (token × GoString)}
    {l1 l2 : lexer} {v v2 : Locals} (h : assemble file res l1 v = .next l2 v2) : l2 = l1 := by
  unfold assemble at h
  simp only at h
  repeat' split at h
  all_goals first | (cases h; rfl) | cases h

theorem loopBody_length {file : Option GoString} {l l1 : lexer} {v v1 : Locals}
    (h : loopBody file l v = .next l1 v1) : l1.R.length < l.R.length := by
  by_cases hl : l.R = []
  · exfalso
    obtain ⟨R, line, col⟩ := l
    simp only at hl
    subst hl
    simp [loopBody, lexer.Next, assemble] at h
  · rw [assemble_next h]
    exact Next_lt l hl

theorem parseLoop_fuel (file : Option GoString) (f1 f2 : Nat) (l : lexer) (v : Locals)
    (h1 : l.R.length < f1) (h2 : l.R.length < f2) :
    parseLoop file f1 l v = parseLoop file f2 l v := by
  induction f1 generalizing f2 l v with
  | zero => omega
  | succ n ih =>
    cases f2 with
    | zero => omega
    | succ m =>
      simp only [parseLoop]
      cases hb : loopBody file l v with
      | ret r => rfl
      | next l1 v1 =>
        have := loopBody_length hb
        exact ih m l1 v1 (by omega) (by omega)

/-- The loop unfolds one iteration at a time, whatever input is left. -/
theorem run_eq (file : Option GoString) (l : lexer) (v : Locals) :
    run file l v =
      match loopBody file l v with
      | .ret r => r
      | .next l1 v1 => run file l1 v1 := by
  unfold run
  rw [parseLoop]
  cases hb : loopBody file l v with
  | ret r => rfl
  | next l1 v1 =>
    have := loopBody_length hb
    exact parseLoop_fuel file _ _ l1 v1 (by omega) (by omega)

theorem assemble_ret {file : Option GoString} {res : Except GoError (token × GoString)}
    {l1 : lexer} {v : Locals} {r : ParseResult} (h : assemble file res l1 v = .ret r) :
    r ≠ .outOfFuel := by
  unfold assemble at h
  simp only at h
  repeat' split at h
  all_goals first | (cases h; simp) | cases h

/-- The loop of `Parse` always ends within the bound that the model gives it. -/
theorem run_ne_outOfFuel (file : Option GoString) (l : lexer) (v : Locals) :
    run file l v ≠ .outOfFuel := by
  generalize hn : l.R.length = n
  induction n using Nat.strong_induction_on generalizing l v with
  | _ n ih =>
    subst hn
    rw [run_eq]
    cases hb : loopBody file l v with
    | ret r => exact assemble_ret hb
    | next l1 v1 => exact ih _ (loopBody_length hb) l1 v1 rfl

theorem Parse_eq_run (file : Option GoString) (input : List Char) :
    Parse file input = run file ⟨input, 0, 0⟩ ⟨[], true, true, false⟩ := rfl

/-! ## Single steps of the assembler -/

theorem run_step (file : Option GoString) (l l1 : lexer) (v : Locals)
    (res : Except GoError (token × GoString)) (h : l.Next = (res, l1)) :
    run file l v =
      match assemble file res l1 v with
      | .ret r => r
      | .next l2 v2 => run file l2 v2 := by
  rw [run_eq, loopBody, h]

theorem run_nil (file : Option GoString) (line col : Int) (v : Locals) :
    run file ⟨[], line, col⟩ v = .ok v.args := by
  rw [run_eq]
  rfl

theorem addToLast_append (xs : List GoString) (a s : GoString) :
    addToLast (xs ++ [a]) s = some (xs ++ [a ++ s]) := by
  induction xs with
  | nil => rfl
  | cons x t ih =>
    cases t with
    | nil => rfl
    | cons y t2 =>
      simp only [List.cons_append] at ih ⊢
      simp only [addToLast, ih, Option.map_some']

theorem assemble_word_first (file : Option GoString) (val : GoString) (l1 : lexer)
    (args : List GoString) (fo aw : Bool) (hv : val ≠ [0x2D]) :
    assemble file (.ok (.tokenWord, val)) l1 ⟨args, true, fo, aw⟩
      = .next l1 ⟨args ++ [0x2D :: val], false, true, false⟩ := by
  simp [assemble, hv]

theorem assemble_word_value (file : Option GoString) (val : GoString) (l1 : lexer)
    (xs : List GoString) (a : GoString) (fo aw : Bool) (hv : val ≠ [0x2D]) :
    assemble file (.ok (.tokenWord, val)) l1 ⟨xs ++ [a], false, fo, aw⟩
      = .next l1 ⟨xs ++ [a ++ sepOf fo aw ++ val], false, false, false⟩ := by
  simp only [assemble, hv, if_false, Bool.false_eq_true]
  rw [addToLast_append]
  simp only
  rw [addToLast_append]
  simp [sepOf]

theorem assemble_dash (file : Option GoString) (l1 : lexer) (v : Locals) :
    assemble file (.ok (.tokenWord, [0x2D])) l1 v
      = .ret (.fail ⟨fileName file, l1.Line + 1, l1.Column,
          some (.invalidToken ⟨[0x2D]⟩)⟩) := by
  simp [assemble]

theorem bareWord_iff (w : List Char) :
    bareWord w = true ↔ w ≠ [] ∧ w.all wordRune = true ∧ w ≠ ['-'] := by
  cases w <;> simp [bareWord, and_assoc]

theorem bareWord_goStr {w : List Char} (h : bareWord w = true) : goStr w ≠ [0x2D] := by
  rw [bareWord_iff] at h
  intro hd
  exact h.2.2 ((goStr_eq_dash w).1 hd)

theorem blankRun_iff (s : List Char) :
    blankRun s = true ↔ s ≠ [] ∧ s.all blankRune = true := by
  cases s <;> simp [blankRun]

theorem wordStop_blank {s rest : List Char} (h : blankRun s = true) :
    wordStop (s ++ rest) = true := by
  cases s with
  | nil => simp [blankRun] at h
  | cons c t =>
    simp only [blankRun, List.isEmpty_cons, Bool.not_false, List.all_cons, Bool.true_and,
      Bool.and_eq_true, blankRune, bne_iff_ne] at h
    simp [wordStop, h.1.1.1]

theorem blankStop_word {w rest : List Char} (h : bareWord w = true) :
    blankStop (w ++ rest) = true := by
  cases w with
  | nil => simp [bareWord] at h
  | cons c t =>
    simp only [bareWord, List.isEmpty_cons, Bool.not_false, List.all_cons, Bool.true_and,
      Bool.and_eq_true, wordRune, Bool.not_eq_true', bne_iff_ne] at h
    simp [blankStop, blankRune, h.1.1.1]

/-- A first word on a line starts a new flag. -/
theorem run_word_first (file : Option GoString) (w rest : List Char) (line col : Int)
    (args : List GoString) (fo aw : Bool) (hw : bareWord w = true)
    (hc : col ≠ 0 ∨ w.head? ≠ some '#') (hr : wordStop rest = true) :
    run file ⟨w ++ rest, line, col⟩ ⟨args, true, fo, aw⟩
      = run file ⟨rest, line, col + w.length⟩
          ⟨args ++ [0x2D :: goStr w], false, true, false⟩ := by
  have hb := (bareWord_iff w).1 hw
  rw [run_step file _ _ _ _ (Next_word w rest line col hb.1 hb.2.1 hc hr),
    assemble_word_first file _ _ _ _ _ (bareWord_goStr hw)]

/-- A further word on a line is appended to the current flag. -/
theorem run_word_value (file : Option GoString) (w rest : List Char) (line col : Int)
    (xs : List GoString) (a : GoString) (fo aw : Bool) (hw : bareWord w = true)
    (hc : col ≠ 0) (hr : wordStop rest = true) :
    run file ⟨w ++ rest, line, col⟩ ⟨xs ++ [a], false, fo, aw⟩
      = run file ⟨rest, line, col + w.length⟩
          ⟨xs ++ [a ++ sepOf fo aw ++ goStr w], false, false, false⟩ := by
  have hb := (bareWord_iff w).1 hw
  rw [run_step file _ _ _ _ (Next_word w rest line col hb.1 hb.2.1 (Or.inl hc) hr),
    assemble_word_value file _ _ _ _ _ _ (bareWord_goStr hw)]

/-- A run of blanks only sets `addWhitespace`. -/
theorem run_blank (file : Option GoString) (ws rest : List Char) (line col : Int)
    (v : Locals) (hw : blankRun ws = true) (hr : blankStop rest = true) :
    run file ⟨ws ++ rest, line, col⟩ v
      = run file ⟨rest, line, col + ws.length - 1⟩
          ⟨v.args, v.newLine, v.firstOp, true⟩ := by
  have hb := (blankRun_iff ws).1 hw
  rw [run_step file _ _ _ _ (Next_blank ws rest line col hb.1 hb.2 hr)]
  rfl

theorem run_lf (file : Option GoString) (rest : List Char) (line col : Int) (v : Locals) :
    run file ⟨'\n' :: rest, line, col⟩ v
      = run file ⟨rest, line + 1, 0⟩ ⟨v.args, true, v.firstOp, v.addWhitespace⟩ := by
  rw [run_step file _ ⟨rest, line + 1, 0⟩ _ (.ok (.tokenNewLine, []))]
  · rfl
  · simp [lexer.Next]

/-! ## Flag lines -/

theorem spaceJoin_cons (v : List Char) (vs : List (List Char)) :
    spaceJoin (v :: vs) = v ++ appendValues false vs := by
  induction vs generalizing v with
  | nil => simp [spaceJoin, appendValues]
  | cons w ws ih => simp [spaceJoin, appendValues, ih]

theorem goStr_appendValues (fo : Bool) (w : List Char) (ws : List (List Char)) :
    goStr (appendValues fo (w :: ws))
      = sepOf fo true ++ goStr w ++ goStr (appendValues false ws) := by
  cases fo <;> simp [appendValues, goStr, goStr_append, sepOf, encodeRune]

/-- Value words, each preceded by a run of blanks, extend the current flag; each
run of blanks contributes exactly one separator. -/
theorem run_values (file : Option GoString) (ps : List (List Char × List Char))
    (rest : List Char) (line col : Int) (xs : List GoString) (a : GoString) (fo aw : Bool)
    (hp : ∀ p ∈ ps, blankRun p.1 = true ∧ bareWord p.2 = true) (hcol : 0 < col)
    (hr : wordStop rest = true) :
    ∃ col1 fo1 aw1, 0 < col1 ∧
      run file ⟨joinSep ps ++ rest, line, col⟩ ⟨xs ++ [a], false, fo, aw⟩
        = run file ⟨rest, line, col1⟩
            ⟨xs ++ [a ++ goStr (appendValues fo (ps.map Prod.snd))], false, fo1, aw1⟩ := by
  induction ps generalizing col a fo aw with
  | nil => exact ⟨col, fo, aw, hcol, by simp [joinSep, appendValues, goStr]⟩
  | cons p ps ih =>
    have hp1 := hp p (List.mem_cons_self _ _)
    have hb := (blankRun_iff p.1).1 hp1.1
    have hlen : 0 < p.1.length := List.length_pos.2 hb.1
    have hstop : wordStop (joinSep ps ++ rest) = true := by
      cases ps with
      | nil => simpa [joinSep] using hr
      | cons q qs =>
        have hq := hp q (List.mem_cons_of_mem _ (List.mem_cons_self _ _))
        simp only [joinSep, List.append_assoc]
        exact wordStop_blank hq.1
    obtain ⟨col1, fo1, aw1, hc1, h1⟩ :=
      ih (col + p.1.length - 1 + p.2.length) (a ++ sepOf fo true ++ goStr p.2) false false
        (fun q hq => hp q (List.mem_cons_of_mem _ hq)) (by omega)
    refine ⟨col1, fo1, aw1, hc1, ?_⟩
    simp only [joinSep, List.append_assoc]
    rw [run_blank file p.1 _ line col _ hp1.1 (blankStop_word hp1.2)]
    rw [run_word_value file p.2 _ line _ xs a fo true hp1.2 (by omega) hstop]
    rw [h1, List.map_cons, goStr_appendValues]
    simp only [List.append_assoc]

theorem appendValues_false (vs : List (List Char)) :
    appendValues false vs = joinSep (vs.map (fun v => ([' '], v))) := by
  induction vs with
  | nil => rfl
  | cons v vs ih => simp [appendValues, joinSep, ih]

theorem goStr_cons_ascii (c : Char) (s : List Char) (h : c.toNat ≤ 0x7F) :
    goStr (c :: s) = c.toNat :: goStr s := by
  simp [goStr, encodeRune, h]

theorem map_snd_pairs (vs : List (List Char)) :
    (vs.map (fun v => ([' '], v))).map Prod.snd = vs := by
  induction vs with
  | nil => rfl
  | cons v vs ih => simp

theorem dash_goStr (w x : List Char) :
    (0x2D :: goStr w) ++ goStr x = goStr ('-' :: w ++ x) := by
  rw [List.cons_append, ← goStr_append]
  exact (goStr_cons_ascii '-' _ (by decide)).symm

theorem appendValues_true_cons (v : List Char) (vs : List (List Char)) :
    appendValues true (v :: vs) = '=' :: spaceJoin (v :: vs) := by
  simp [appendValues, spaceJoin_cons]

theorem entry_eq (w0 : List Char) (vs : List (List Char)) :
    (0x2D :: goStr w0) ++ goStr (appendValues true vs) = entry (w0 :: vs) := by
  cases vs with
  | nil => simp [entry, appendValues, goStr, encodeRune]
  | cons v vs => rw [appendValues_true_cons, dash_goStr, entry]

/-- A flag line and its line feed give one entry and leave the assembler at the
start of the next line. -/
theorem run_flagLine (file : Option GoString) (ln : List (List Char)) (rest : List Char)
    (line : Int) (args : List GoString) (fo aw : Bool) (h : flagLine ln = true) :
    ∃ fo1 aw1,
      run file ⟨renderLine ln ++ rest, line, 0⟩ ⟨args, true, fo, aw⟩
        = run file ⟨rest, line + 1, 0⟩ ⟨args ++ [entry ln], true, fo1, aw1⟩ := by
  cases ln with
  | nil => simp [flagLine] at h
  | cons w0 vs =>
    simp only [flagLine, flagName, Bool.and_eq_true, bne_iff_ne, List.all_eq_true] at h
    obtain ⟨⟨hw0, hh⟩, hvs⟩ := h
    have hlen : 0 < w0.length := List.length_pos.2 ((bareWord_iff w0).1 hw0).1
    have hjoin : renderLine (w0 :: vs) ++ rest
        = w0 ++ (joinSep (vs.map (fun v => ([' '], v))) ++ '\n' :: rest) := by
      simp [renderLine, spaceJoin_cons, appendValues_false]
    have hps : ∀ p ∈ vs.map (fun v => ([' '], v)),
        blankRun p.1 = true ∧ bareWord p.2 = true := by
      intro p hp
      simp only [List.mem_map] at hp
      obtain ⟨v, hv, rfl⟩ := hp
      exact ⟨(by decide : blankRun [' '] = true), hvs v hv⟩
    have hstop : wordStop (joinSep (vs.map (fun v => ([' '], v))) ++ '\n' :: rest) = true := by
      cases vs with
      | nil => simp [joinSep, wordStop]; decide
      | cons v vs => simp [joinSep, wordStop]; decide
    obtain ⟨col1, fo1, aw1, -, h1⟩ :=
      run_values file (vs.map (fun v => ([' '], v))) ('\n' :: rest) line (0 + w0.length) args
        (0x2D :: goStr w0) true false hps (by omega) (by simp [wordStop]; decide)
    refine ⟨fo1, aw1, ?_⟩
    rw [hjoin, run_word_first file w0 _ line 0 args fo aw hw0 (Or.inr hh) hstop, h1, run_lf,
      map_snd_pairs, entry_eq]

theorem run_renderLines (file : Option GoString) (lns : List (List (List Char)))
    (line : Int) (args : List GoString) (fo aw : Bool)
    (h : ∀ ln ∈ lns, flagLine ln = true) :
    run file ⟨renderLines lns, line, 0⟩ ⟨args, true, fo, aw⟩ = .ok (args ++ lns.map entry) := by
  induction lns generalizing line args fo aw with
  | nil => simp [renderLines, run_nil]
  | cons ln lns ih =>
    obtain ⟨fo1, aw1, h1⟩ :=
      run_flagLine file ln (renderLines lns) line args fo aw (h ln (List.mem_cons_self _ _))
    rw [renderLines, h1, ih _ _ _ _ (fun l hl => h l (List.mem_cons_of_mem _ hl))]
    simp

/-! ## Quoted words -/

theorem Next_quote (rest : List Char) (line col : Int) :
    lexer.Next ⟨'"' :: rest, line, col⟩ = quotedLoop rest ['"'] line (col + 1) := by
  simp [lexer.Next, lexer.NextQuotedWord]

theorem quotedLoop_plain (c rest value : List Char) (line col : Int)
    (hc : c.all plainRune = true) :
    quotedLoop (c ++ '"' :: rest) value line col =
      match Unquote (value ++ c ++ ['"']) with
      | .error err => (.error err, ⟨rest, line, col + c.length + 1⟩)
      | .ok final => (.ok (.tokenWord, final), ⟨rest, line, col + c.length + 1⟩) := by
  induction c generalizing value col with
  | nil =>
    rw [List.nil_append, quotedLoop_cons]
    simp
  | cons x t ih =>
    simp only [List.all_cons, Bool.and_eq_true, plainRune, bne_iff_ne] at hc
    obtain ⟨⟨⟨h1, h2⟩, h3⟩, h4⟩ := hc
    rw [List.cons_append, quotedLoop_cons, if_neg h1, if_neg h2, if_neg h3, if_neg h3,
      ih _ _ h4]
    simp only [List.append_assoc, List.singleton_append, List.length_cons, Nat.cast_add,
      Nat.cast_one]
    have : col + 1 + (t.length : Int) + 1 = col + ((t.length : Int) + 1) + 1 := by omega
    rw [this]

theorem takeWhile_plain (c rest : List Char) (hc : c.all plainRune = true) :
    (c ++ '"' :: rest).takeWhile (fun x => x != '"') = c := by
  induction c with
  | nil => simp
  | cons x t ih =>
    simp only [List.all_cons, Bool.and_eq_true, plainRune, bne_iff_ne] at hc
    have hx : (x != '"') = true := by simp [hc.1.1.1]
    simp [List.takeWhile_cons, hx, ih hc.2]

theorem dropWhile_plain (c rest : List Char) (hc : c.all plainRune = true) :
    (c ++ '"' :: rest).dropWhile (fun x => x != '"') = '"' :: rest := by
  induction c with
  | nil => simp
  | cons x t ih =>
    simp only [List.all_cons, Bool.and_eq_true, plainRune, bne_iff_ne] at hc
    have hx : (x != '"') = true := by simp [hc.1.1.1]
    simp [List.dropWhile_cons, hx, ih hc.2]

theorem contains_plain (c : List Char) (hc : c.all plainRune = true) :
    c.contains '\\' = false ∧ c.contains '\n' = false := by
  induction c with
  | nil => simp
  | cons x t ih =>
    simp only [List.all_cons, Bool.and_eq_true, plainRune, bne_iff_ne] at hc
    obtain ⟨⟨⟨h1, h2⟩, h3⟩, h4⟩ := hc
    have := ih h4
    simp only [List.contains_cons, this.1, this.2, Bool.or_false, beq_eq_false_iff_ne, ne_eq]
    exact ⟨fun h => h2 h.symm, fun h => h3 h.symm⟩

/-- The fast path of `strconv.Unquote`: a literal without escapes decodes to its
content; what follows the closing quote is returned as the remainder. -/
theorem unquote_plain (c rest : List Char) (hc : c.all plainRune = true) :
    unquote ('"' :: c ++ '"' :: rest) = .ok (goStr c, rest) := by
  have h0 : ∃ x t, c ++ '"' :: rest = x :: t := by
    cases c with
    | nil => exact ⟨_, _, rfl⟩
    | cons x t => exact ⟨_, _, rfl⟩
  obtain ⟨x, t, hxt⟩ := h0
  have h1 := takeWhile_plain c rest hc
  have h2 := dropWhile_plain c rest hc
  have h3 := contains_plain c hc
  have h4 : (c ++ '"' :: rest).contains '"' = true := by simp
  rw [List.cons_append, hxt] at *
  simp only [unquote, ne_eq, not_true_eq_false, if_false, h4, Bool.true_eq_false, h1, h2, h3,
    and_self, if_true, List.drop_succ_cons, List.drop_zero]

theorem Unquote_plain (c : List Char) (hc : c.all plainRune = true) :
    Unquote ('"' :: c ++ ['"']) = .ok (goStr c) := by
  have h := unquote_plain c [] hc
  simp only [List.cons_append] at h ⊢
  simp [Unquote, h]

/-- The tokenizer on a quoted word without escapes. -/
theorem Next_quoted_plain (c rest : List Char) (line col : Int)
    (hc : c.all plainRune = true) :
    lexer.Next ⟨'"' :: c ++ '"' :: rest, line, col⟩
      = (.ok (.tokenWord, goStr c), ⟨rest, line, col + 1 + c.length + 1⟩) := by
  rw [List.cons_append, Next_quote, quotedLoop_plain c rest _ line _ hc]
  have := Unquote_plain c hc
  simp only [List.cons_append, List.singleton_append, List.nil_append] at this ⊢
  rw [this]

/-- A quoted word that the tokenizer reads completely is read in the same way, with
the same value, when more input follows it and wherever it stands; the column after
it is positive. -/
theorem quotedLoop_append (q value : List Char) (line col : Int)
    (r : token × GoString) (l1 : lexer)
    (h : quotedLoop q value line col = (.ok r, l1)) (hR : l1.R = [])
    (b : List Char) (line2 col2 : Int) (hcol : 0 ≤ col2) :
    ∃ line3 col3, 0 < col3 ∧
      quotedLoop (q ++ b) value line2 col2 = (.ok r, ⟨b, line3, col3⟩) := by
  generalize hn : q.length = n
  induction n using Nat.strong_induction_on generalizing q value line col line2 col2 with
  | _ n ih =>
    subst hn
    cases q with
    | nil => simp [quotedLoop_nil] at h
    | cons x rest =>
      rw [quotedLoop_cons] at h
      rw [List.cons_append, quotedLoop_cons]
      have hc1 : 0 ≤ (if x = '\n' then 0 else col2 + 1) := by split_ifs <;> omega
      by_cases h1 : x = '"'
      · rw [if_pos h1] at h ⊢
        have hx : x ≠ '\n' := by rw [h1]; decide
        rw [if_neg hx, if_neg hx] at h ⊢
        cases hu : Unquote (value ++ ['"']) with
        | error e => simp [hu] at h
        | ok final =>
          simp only [hu, Prod.mk.injEq, Except.ok.injEq] at h ⊢
          obtain ⟨h2, h3⟩ := h
          subst h3
          simp only at hR
          subst hR
          exact ⟨line2, col2 + 1, by omega, h2, rfl⟩
      · rw [if_neg h1] at h ⊢
        by_cases h2 : x = '\\'
        · rw [if_pos h2] at h ⊢
          cases rest with
          | nil => simp [quotedLoop_nil] at h
          | cons r2 rest2 =>
            simp only [List.cons_append] at h ⊢
            by_cases h3 : r2 = '"'
            · rw [if_pos h3] at h ⊢
              exact ih rest2.length (by simp only [List.length_cons]; omega) rest2 _ _ _ h _ _
                (by omega) rfl
            · rw [if_neg h3] at h ⊢
              exact ih (r2 :: rest2).length (by simp only [List.length_cons]; omega)
                (r2 :: rest2) _ _ _ h _ _ hc1 rfl
        · rw [if_neg h2] at h ⊢
          exact ih rest.length (by simp only [List.length_cons]; omega) rest _ _ _ h _ _ hc1 rfl

/-- A word token that is not the first on its line is appended to the current flag. -/
theorem run_value_tok (file : Option GoString) (l l1 : lexer) (val : GoString)
    (xs : List GoString) (a : GoString) (fo aw : Bool)
    (h : l.Next = (.ok (.tokenWord, val), l1)) (hv : val ≠ [0x2D]) :
    run file l ⟨xs ++ [a], false, fo, aw⟩
      = run file l1 ⟨xs ++ [a ++ sepOf fo aw ++ val], false, false, false⟩ := by
  rw [run_step file _ _ _ _ h, assemble_word_value file _ _ _ _ _ _ hv]

/-! ## Comments and line breaks -/

theorem commentLoop_eof (c : List Char) (line col : Int) (hc : c.all inlineRune = true) :
    commentLoop c line col = ⟨[], line, col + c.length⟩ := by
  induction c generalizing col with
  | nil => simp [commentLoop]
  | cons x t ih =>
    simp only [List.all_cons, Bool.and_eq_true, inlineRune, bne_iff_ne] at hc
    simp only [commentLoop, hc.1.1, hc.1.2, if_false, ih _ hc.2, List.length_cons,
      Nat.cast_add, Nat.cast_one]
    congr 1
    omega

theorem commentLoop_break (c t rest : List Char) (line col : Int)
    (hc : c.all inlineRune = true) (ht : lineBreak t = true) :
    commentLoop (c ++ t ++ rest) line col = ⟨afterBreak t rest, line + 1, 0⟩ := by
  induction c generalizing col with
  | nil =>
    simp only [lineBreak, Bool.or_eq_true, beq_iff_eq] at ht
    rcases ht with (rfl | rfl) | rfl
    · simp [commentLoop, afterBreak]
    · simp [commentLoop, afterBreak, skipLF]
    · simp [commentLoop, afterBreak]
  | cons x t ih =>
    simp only [List.all_cons, Bool.and_eq_true, inlineRune, bne_iff_ne] at hc
    simp only [List.cons_append, commentLoop, hc.1.1, hc.1.2, if_false]
    exact ih _ hc.2

theorem Next_comment (rest : List Char) (line : Int) :
    lexer.Next ⟨'#' :: rest, line, 0⟩ = (.ok (.tokenComment, []), commentLoop rest line 0) := by
  simp [lexer.Next]

/-- A comment line with its terminator changes nothing but the position. -/
theorem run_comment (file : Option GoString) (c t rest : List Char) (line : Int) (v : Locals)
    (hc : c.all inlineRune = true) (ht : lineBreak t = true) :
    run file ⟨'#' :: c ++ t ++ rest, line, 0⟩ v
      = run file ⟨afterBreak t rest, line + 1, 0⟩ v := by
  rw [List.cons_append, List.cons_append, run_step file _ _ _ _ (Next_comment _ line),
    commentLoop_break c t rest line 0 hc ht]
  rfl

/-- A line terminator sets `newLine`; each of LF, CR LF and CR counts one line. -/
theorem run_break (file : Option GoString) (t rest : List Char) (line col : Int) (v : Locals)
    (ht : lineBreak t = true) :
    run file ⟨t ++ rest, line, col⟩ v
      = run file ⟨afterBreak t rest, line + 1, 0⟩
          ⟨v.args, true, v.firstOp, v.addWhitespace⟩ := by
  simp only [lineBreak, Bool.or_eq_true, beq_iff_eq] at ht
  rcases ht with (rfl | rfl) | rfl
  · rw [run_step file _ ⟨rest, line + 1, 0⟩ _ (.ok (.tokenNewLine, []))]
    · rfl
    · simp [lexer.Next]
  · rw [run_step file _ ⟨rest, line + 1, 0⟩ _ (.ok (.tokenNewLine, []))]
    · rfl
    · simp [lexer.Next, skipLF]
  · rw [run_step file _ ⟨skipLF rest, line + 1, 0⟩ _ (.ok (.tokenNewLine, []))]
    · rfl
    · simp [lexer.Next]

theorem skipLF_of_ne (c : Char) (t : List Char) (h : c ≠ '\n') : skipLF (c :: t) = c :: t := by
  simp [skipLF, h]

theorem wordStop_break {t rest : List Char} (ht : lineBreak t = true) :
    wordStop (t ++ rest) = true := by
  simp only [lineBreak, Bool.or_eq_true, beq_iff_eq] at ht
  rcases ht with (rfl | rfl) | rfl <;> rfl

theorem blankStop_break {t rest : List Char} (ht : lineBreak t = true) :
    blankStop (t ++ rest) = true := by
  simp only [lineBreak, Bool.or_eq_true, beq_iff_eq] at ht
  rcases ht with (rfl | rfl) | rfl <;> rfl

theorem wordRune_inline {w : List Char} (h : w.all wordRune = true) :
    w.all inlineRune = true := by
  simp only [List.all_eq_true] at h ⊢
  intro x hx
  have := h x hx
  simp only [wordRune, Bool.and_eq_true, Bool.not_eq_true', bne_iff_ne] at this
  simp only [inlineRune, Bool.and_eq_true, bne_iff_ne]
  exact ⟨not_space_ne_cr this.1, not_space_ne_lf this.1⟩

theorem afterBreak_word {t w rest : List Char} (hw : w ≠ []) (hw2 : w.all wordRune = true) :
    afterBreak t (w ++ rest) = w ++ rest := by
  cases w with
  | nil => exact absurd rfl hw
  | cons c w2 =>
    simp only [List.all_cons, Bool.and_eq_true, wordRune, Bool.not_eq_true', bne_iff_ne] at hw2
    unfold afterBreak
    split_ifs
    · exact skipLF_of_ne _ _ (not_space_ne_lf hw2.1.1)
    · rfl

/-- The start of the text of bare-word lines that end with a lone `-`: a bare word. -/
theorem linesText_dash_start (ls : List (List Char × List Char))
    (h : ∀ p ∈ ls, bareWord p.1 = true ∧ lineBreak p.2 = true) :
    ∃ w rest, w ≠ [] ∧ w.all wordRune = true ∧ linesText ls ['-'] = w ++ rest := by
  cases ls with
  | nil => exact ⟨['-'], [], by simp, by decide, rfl⟩
  | cons p ps =>
    have hp := (bareWord_iff p.1).1 (h p (List.mem_cons_self _ _)).1
    exact ⟨p.1, p.2 ++ linesText ps ['-'], hp.1, hp.2.1, by simp [linesText]⟩

/-- Lines of one bare word each, then a lone `-`: the error is reported on the line
after the last terminator. -/
theorem run_wordLines (file : Option GoString) (ls : List (List Char × List Char))
    (h : ∀ p ∈ ls, bareWord p.1 = true ∧ lineBreak p.2 = true)
    (line : Int) (args : List GoString) (fo aw : Bool) :
    run file ⟨linesText ls ['-'], line, 0⟩ ⟨args, true, fo, aw⟩
      = .fail ⟨fileName file, line + ls.length + 1, 1, some (.invalidToken ⟨[0x2D]⟩)⟩ := by
  induction ls generalizing line args fo aw with
  | nil =>
    have hN := Next_word ['-'] [] line 0 (by simp) (by decide) (Or.inr (by decide)) rfl
    rw [List.append_nil] at hN
    rw [linesText, run_step file _ _ _ _ hN]
    simp [assemble, goStr, encodeRune, fileName]
  | cons p ps ih =>
    have hp := h p (List.mem_cons_self _ _)
    have hb := (bareWord_iff p.1).1 hp.1
    have hps : ∀ q ∈ ps, bareWord q.1 = true ∧ lineBreak q.2 = true :=
      fun q hq => h q (List.mem_cons_of_mem _ hq)
    obtain ⟨w, rest, hw1, hw2, hw3⟩ := linesText_dash_start ps hps
    have hafter : afterBreak p.2 (linesText ps ['-']) = linesText ps ['-'] := by
      rw [hw3]
      exact afterBreak_word hw1 hw2
    have hcast : line + 1 + (ps.length : Int) + 1 = line + ((p :: ps).length : Int) + 1 := by
      simp only [List.length_cons, Nat.cast_add, Nat.cast_one]
      omega
    rw [linesText]
    by_cases hh : p.1.head? = some '#'
    · obtain ⟨c, hc⟩ : ∃ c, p.1 = '#' :: c := by
        cases hp1 : p.1 with
        | nil => exact absurd hp1 hb.1
        | cons x c =>
          rw [hp1] at hh
          simp only [List.head?_cons, Option.some.injEq] at hh
          exact ⟨c, by rw [hh]⟩
      have hc2 : c.all inlineRune = true := by
        have := wordRune_inline hb.2.1
        rw [hc] at this
        simp only [List.all_cons, Bool.and_eq_true] at this
        exact this.2
      rw [hc, run_comment file c p.2 _ line _ hc2 hp.2, hafter, ih hps, hcast]
    · rw [List.append_assoc,
        run_word_first file p.1 _ line 0 args fo aw hp.1 (Or.inr hh) (wordStop_break hp.2),
        run_break file p.2 _ line _ _ hp.2, hafter, ih hps, hcast]

/-- The last line of a text without flags, when it has no terminator. -/
theorem run_idle_last (file : Option GoString) (last : List Char) (line : Int) (v : Locals)
    (h : idleLine last = true) :
    run file ⟨last, line, 0⟩ v = .ok v.args := by
  cases last with
  | nil => exact run_nil file line 0 v
  | cons x t =>
    simp only [idleLine, List.head?_cons, List.tail_cons, Bool.or_eq_true, Bool.and_eq_true,
      beq_iff_eq, Option.some.injEq] at h
    rcases h with ⟨rfl, h2⟩ | h
    · rw [run_step file _ _ _ _ (Next_comment _ line), commentLoop_eof t line 0 h2]
      exact run_nil file _ _ v
    · have e : x :: t = (x :: t) ++ [] := by simp
      rw [e, run_blank file (x :: t) [] line 0 v (by simp [blankRun]; simpa using h) rfl]
      exact run_nil file _ _ _

/-- What follows a line terminator in a text without flags is again such a text. -/
theorem afterBreak_idle (t last : List Char) (ls : List (List Char × List Char))
    (h : ∀ p ∈ ls, idleLine p.1 = true ∧ lineBreak p.2 = true) (hl : idleLine last = true) :
    ∃ ls2, ls2.length ≤ ls.length ∧ (∀ p ∈ ls2, idleLine p.1 = true ∧ lineBreak p.2 = true) ∧
      afterBreak t (linesText ls last) = linesText ls2 last := by
  unfold afterBreak
  split_ifs with ht
  · have key : ∀ c : Char, ∀ s : List Char, idleLine (c :: s) = true → c ≠ '\n' := by
      intro c s hc
      simp only [idleLine, List.head?_cons, List.tail_cons, Bool.or_eq_true,
        Bool.and_eq_true, beq_iff_eq, Option.some.injEq, List.all_cons, blankRune,
        bne_iff_ne] at hc
      rcases hc with ⟨rfl, -⟩ | hc
      · decide
      · exact hc.1.2
    cases ls with
    | nil =>
      refine ⟨[], le_refl _, h, ?_⟩
      cases last with
      | nil => rfl
      | cons c s => simp only [linesText]; exact skipLF_of_ne _ _ (key c s hl)
    | cons p ps =>
      have hp := h p (List.mem_cons_self _ _)
      cases hc : p.1 with
      | nil =>
        have hb := hp.2
        simp only [lineBreak, Bool.or_eq_true, beq_iff_eq] at hb
        rcases hb with (hb | hb) | hb
        · refine ⟨ps, by simp, fun q hq => h q (List.mem_cons_of_mem _ hq), ?_⟩
          simp [linesText, hc, hb, skipLF]
        · refine ⟨p :: ps, le_refl _, h, ?_⟩
          simp [linesText, hc, hb, skipLF]
        · refine ⟨p :: ps, le_refl _, h, ?_⟩
          simp [linesText, hc, hb, skipLF]
      | cons c s =>
        refine ⟨p :: ps, le_refl _, h, ?_⟩
        simp only [linesText, hc, List.cons_append]
        exact skipLF_of_ne _ _ (key c s (hc ▸ hp.1))
  · exact ⟨ls, le_refl _, h, rfl⟩

/-- A text of comment lines and blank lines leaves the flag list as it is. -/
theorem run_idle (file : Option GoString) (last : List Char) (hl : idleLine last = true)
    (n : Nat) (ls : List (List Char × List Char)) (hn : ls.length ≤ n)
    (h : ∀ p ∈ ls, idleLine p.1 = true ∧ lineBreak p.2 = true) (line : Int) (v : Locals) :
    run file ⟨linesText ls last, line, 0⟩ v = .ok v.args := by
  induction n generalizing ls line v with
  | zero =>
    have : ls = [] := List.length_eq_zero.1 (Nat.le_zero.1 hn)
    subst this
    exact run_idle_last file last line v hl
  | succ n ih =>
    cases ls with
    | nil => exact run_idle_last file last line v hl
    | cons p ps =>
      have hp := h p (List.mem_cons_self _ _)
      have hps : ∀ q ∈ ps, idleLine q.1 = true ∧ lineBreak q.2 = true :=
        fun q hq => h q (List.mem_cons_of_mem _ hq)
      obtain ⟨ls2, hlen, hv2, he⟩ := afterBreak_idle p.2 last ps hps hl
      have hn2 : ls2.length ≤ n := by
        simp only [List.length_cons] at hn
        omega
      rw [linesText]
      cases hc : p.1 with
      | nil =>
        rw [List.nil_append, run_break file p.2 _ line 0 v hp.2, he]
        exact ih ls2 hn2 hv2 _ _
      | cons x t =>
        have h1 := hp.1
        rw [hc] at h1
        simp only [idleLine, List.head?_cons, List.tail_cons, Bool.or_eq_true,
          Bool.and_eq_true, beq_iff_eq, Option.some.injEq] at h1
        rcases h1 with ⟨rfl, h2⟩ | h1
        · rw [run_comment file t p.2 _ line v h2 hp.2, he]
          exact ih ls2 hn2 hv2 _ _
        · rw [List.append_assoc,
            run_blank file (x :: t) _ line 0 v (by simp [blankRun]; simpa using h1)
              (blankStop_break hp.2),
            run_break file p.2 _ line _ _ hp.2, he]
          exact ih ls2 hn2 hv2 _ _

/-! ## A raw line feed inside a quoted word -/

theorem mem_of_mem_cons_ne {c x : Char} {t : List Char} (h : x ∈ c :: t) (hne : c ≠ x) :
    x ∈ t := by
  rcases List.mem_cons.1 h with h | h
  · exact absurd h.symm hne
  · exact h

theorem hexDigits_mem (n : Nat) (s : List Char) (v v1 : Nat) (s1 : List Char)
    (h : hexDigits n s v = some (v1, s1)) (hm : '\n' ∈ s) : '\n' ∈ s1 := by
  induction n generalizing s v with
  | zero =>
    simp only [hexDigits, Option.some.injEq, Prod.mk.injEq] at h
    exact h.2 ▸ hm
  | succ n ih =>
    cases s with
    | nil => simp [hexDigits] at h
    | cons c t =>
      simp only [hexDigits] at h
      cases hx : unhex c with
      | none => simp [hx] at h
      | some x =>
        simp only [hx] at h
        have hc : c ≠ '\n' := by
          rintro rfl
          have h0 : unhex '\n' = none := by decide
          rw [h0] at hx
          cases hx
        exact ih t _ h (mem_of_mem_cons_ne hm hc)

theorem octDigits_mem (n : Nat) (s : List Char) (v v1 : Nat) (s1 : List Char)
    (h : octDigits n s v = some (v1, s1)) (hm : '\n' ∈ s) : '\n' ∈ s1 := by
  induction n generalizing s v with
  | zero =>
    simp only [octDigits, Option.some.injEq, Prod.mk.injEq] at h
    exact h.2 ▸ hm
  | succ n ih =>
    cases s with
    | nil => simp [octDigits] at h
    | cons c t =>
      simp only [octDigits] at h
      split_ifs at h with hx
      have hc : c ≠ '\n' := by
        rintro rfl
        revert hx
        decide
      exact ih t _ h (mem_of_mem_cons_ne hm hc)


theorem UnquoteChar_escape (c2 : Char) (s2 : List Char) :
    UnquoteChar ('\\' :: c2 :: s2) '"' =
        if c2 = 'a' then .ok (0x07, false, s2)
        else if c2 = 'b' then .ok (0x08, false, s2)
        else if c2 = 'f' then .ok (0x0C, false, s2)
        else if c2 = 'n' then .ok (0x0A, false, s2)
        else if c2 = 'r' then .ok (0x0D, false, s2)
        else if c2 = 't' then .ok (0x09, false, s2)
        else if c2 = 'v' then .ok (0x0B, false, s2)
        else if c2 = 'x' ∨ c2 = 'u' ∨ c2 = 'U' then
          match hexDigits (if c2 = 'x' then 2 else if c2 = 'u' then 4 else 8) s2 0 with
          | none => .error .syntaxErr
          | some (v, s3) =>
            if c2 = 'x' then .ok (v, false, s3)
            else if validRune v then .ok (v, true, s3)
            else .error .syntaxErr
        else if 0x30 ≤ c2.toNat ∧ c2.toNat ≤ 0x37 then
          match octDigits 2 s2 (c2.toNat - 0x30) with
          | none => .error .syntaxErr
          | some (v, s3) => if 255 < v then .error .syntaxErr else .ok (v, false, s3)
        else if c2 = '\\' then .ok (0x5C, false, s2)
        else if c2 = '\x27' ∨ c2 = '"' then
          if c2 ≠ '"' then .error .syntaxErr else .ok (c2.toNat, false, s2)
        else .error .syntaxErr := rfl

theorem ok_mem {x r : Nat} {y mb : Bool} {s rem : List Char}
    (h : (Except.ok (x, y, s) : Except GoError (Nat × Bool × List Char)) = .ok (r, mb, rem))
    (hm : '\n' ∈ s) : '\n' ∈ rem := by
  simp only [Except.ok.injEq, Prod.mk.injEq] at h
  exact h.2.2 ▸ hm

/-- No escape sequence of `UnquoteChar` consumes a line feed that follows its first rune. -/
theorem UnquoteChar_mem (c : Char) (s : List Char) (r : Nat) (mb : Bool) (rem : List Char)
    (h : UnquoteChar (c :: s) '"' = .ok (r, mb, rem)) (hm : '\n' ∈ s) : '\n' ∈ rem := by
  cases s with
  | nil => simp at hm
  | cons c2 s2 =>
    by_cases hb : c = '\\'
    · subst hb
      by_cases h2 : c2 = '\n'
      · subst h2
        have : UnquoteChar ('\\' :: '\n' :: s2) '"' = .error .syntaxErr := rfl
        rw [this] at h
        cases h
      · have hm2 : '\n' ∈ s2 := mem_of_mem_cons_ne hm h2
        rw [UnquoteChar_escape] at h
        by_cases g0 : c2 = 'a'
        · rw [if_pos g0] at h
          exact ok_mem h hm2
        rw [if_neg g0] at h
        by_cases g1 : c2 = 'b'
        · rw [if_pos g1] at h
          exact ok_mem h hm2
        rw [if_neg g1] at h
        by_cases g2 : c2 = 'f'
        · rw [if_pos g2] at h
          exact ok_mem h hm2
        rw [if_neg g2] at h
        by_cases g3 : c2 = 'n'
        · rw [if_pos g3] at h
          exact ok_mem h hm2
        rw [if_neg g3] at h
        by_cases g4 : c2 = 'r'
        · rw [if_pos g4] at h
          exact ok_mem h hm2
        rw [if_neg g4] at h
        by_cases g5 : c2 = 't'
        · rw [if_pos g5] at h
          exact ok_mem h hm2
        rw [if_neg g5] at h
        by_cases g6 : c2 = 'v'
        · rw [if_pos g6] at h
          exact ok_mem h hm2
        rw [if_neg g6] at h
        by_cases g7 : c2 = 'x' ∨ c2 = 'u' ∨ c2 = 'U'
        · rw [if_pos g7] at h
          cases hx : hexDigits (if c2 = 'x' then 2 else if c2 = 'u' then 4 else 8) s2 0 with
          | none =>
            rw [hx] at h
            cases h
          | some pr =>
            obtain ⟨v, s3⟩ := pr
            rw [hx] at h
            dsimp only at h
            have hm3 := hexDigits_mem _ _ _ _ _ hx hm2
            by_cases k1 : c2 = 'x'
            · rw [if_pos k1] at h
              exact ok_mem h hm3
            · rw [if_neg k1] at h
              by_cases k2 : validRune v = true
              · rw [if_pos k2] at h
                exact ok_mem h hm3
              · rw [if_neg k2] at h
                cases h
        rw [if_neg g7] at h
        by_cases g8 : 0x30 ≤ c2.toNat ∧ c2.toNat ≤ 0x37
        · rw [if_pos g8] at h
          cases hx : octDigits 2 s2 (c2.toNat - 0x30) with
          | none =>
            rw [hx] at h
            cases h
          | some pr =>
            obtain ⟨v, s3⟩ := pr
            rw [hx] at h
            dsimp only at h
            have hm3 := octDigits_mem _ _ _ _ _ hx hm2
            by_cases k1 : 255 < v
            · rw [if_pos k1] at h
              cases h
            · rw [if_neg k1] at h
              exact ok_mem h hm3
        rw [if_neg g8] at h
        by_cases g9 : c2 = '\\'
        · rw [if_pos g9] at h
          exact ok_mem h hm2
        rw [if_neg g9] at h
        by_cases g10 : c2 = '\x27' ∨ c2 = '"'
        · rw [if_pos g10] at h
          by_cases k1 : c2 ≠ '"'
          · rw [if_pos k1] at h
            cases h
          · rw [if_neg k1] at h
            exact ok_mem h hm2
        rw [if_neg g10] at h
        cases h
    · rw [UnquoteChar] at h
      by_cases q1 : c = '"' ∧ ('"' = '\x27' ∨ '"' = '"')
      · rw [if_pos q1] at h
        cases h
      · rw [if_neg q1] at h
        by_cases q2 : 128 ≤ c.toNat
        · rw [if_pos q2] at h
          exact ok_mem h hm
        · rw [if_neg q2, if_pos hb] at h
          exact ok_mem h hm

/-- The loop of `strconv.unquote` stops in front of a double quote or at the end, and
never steps over a line feed. -/
theorem unquoteLoop_mem (fuel : Nat) (s : List Char) (buf buf1 : GoString) (s1 : List Char)
    (h : unquoteLoop fuel s buf = some (.ok (buf1, s1))) :
    (s1 = [] ∨ s1.head? = some '"') ∧ ('\n' ∈ s → '\n' ∈ s1) := by
  induction fuel generalizing s buf with
  | zero => simp [unquoteLoop] at h
  | succ n ih =>
    cases s with
    | nil =>
      simp only [unquoteLoop, Option.some.injEq, Except.ok.injEq, Prod.mk.injEq] at h
      exact ⟨Or.inl h.2.symm, fun hm => h.2 ▸ hm⟩
    | cons c t =>
      rw [unquoteLoop] at h
      by_cases h1 : c = '"'
      · rw [if_pos h1] at h
        simp only [Option.some.injEq, Except.ok.injEq, Prod.mk.injEq] at h
        obtain ⟨-, rfl⟩ := h
        exact ⟨Or.inr (by simp [h1]), fun hm => hm⟩
      · rw [if_neg h1] at h
        cases hu : UnquoteChar (c :: t) '"' with
        | error e =>
          rw [hu] at h
          cases h
        | ok res =>
          obtain ⟨r, mb, rem⟩ := res
          rw [hu] at h
          dsimp only at h
          by_cases h2 : c = '\n'
          · rw [if_pos h2] at h
            cases h
          · rw [if_neg h2] at h
            obtain ⟨hA, hB⟩ := ih rem _ h
            exact ⟨hA, fun hm =>
              hB (UnquoteChar_mem c t r mb rem hu (mem_of_mem_cons_ne hm h2))⟩

theorem unquote_mem (s : List Char) (out : GoString) (rem : List Char)
    (h : unquote s = .ok (out, rem)) (hm : '\n' ∈ s) : '\n' ∈ rem := by
  cases s with
  | nil => simp [unquote] at h
  | cons q s1 =>
    cases s1 with
    | nil => simp [unquote] at h
    | cons x t =>
      simp only [unquote] at h
      split_ifs at h with h1 h2 h3
      · -- the fast path
        simp only [Except.ok.injEq, Prod.mk.injEq] at h
        obtain ⟨-, rfl⟩ := h
        have hq : q = '"' := by simpa using h1
        have hm1 : '\n' ∈ x :: t := mem_of_mem_cons_ne hm (by rw [hq]; decide)
        have hsplit := List.takeWhile_append_dropWhile (fun c => c != '"') (x :: t)
        have hbody : '\n' ∉ (x :: t).takeWhile (fun c => c != '"') := by
          intro hc
          have := h3.2
          simp only [List.contains_eq_any_beq, List.any_eq_false, beq_iff_eq] at this
          exact this _ hc rfl
        rw [← hsplit] at hm1
        rcases List.mem_append.1 hm1 with hc | hc
        · exact absurd hc hbody
        · cases hd : (x :: t).dropWhile (fun c => c != '"') with
          | nil => rw [hd] at hc; simp at hc
          | cons y ys =>
            rw [hd] at hc
            have hy : y = '"' := by
              have := List.head_dropWhile_not (fun c => c != '"') (x :: t)
                (by rw [hd]; simp)
              simpa [hd] using this
            simp only [List.drop_succ_cons, List.drop_zero]
            exact mem_of_mem_cons_ne hc (by rw [hy]; decide)
      · -- the loop
        have hq : q = '"' := by simpa using h1
        have hm1 : '\n' ∈ x :: t := mem_of_mem_cons_ne hm (by rw [hq]; decide)
        cases hl : unquoteLoop ((x :: t).length + 1) (x :: t) [] with
        | none =>
          rw [hl] at h
          cases h
        | some res =>
          cases res with
          | error e =>
            rw [hl] at h
            cases h
          | ok pr =>
            obtain ⟨buf, s2⟩ := pr
            rw [hl] at h
            dsimp only at h
            obtain ⟨hA, hB⟩ := unquoteLoop_mem _ _ _ _ _ hl
            cases s2 with
            | nil => cases h
            | cons y s3 =>
              simp only [Except.ok.injEq, Prod.mk.injEq] at h
              obtain ⟨-, rfl⟩ := h
              have hy : y = '"' := by simpa using hA
              exact mem_of_mem_cons_ne (hB hm1) (by rw [hy]; decide)

/-- A literal that contains a raw line feed is rejected by `strconv.Unquote`. -/
theorem Unquote_lf (s : List Char) (hm : '\n' ∈ s) : Unquote s = .error .syntaxErr := by
  unfold Unquote
  cases hu : unquote s with
  | error e => rfl
  | ok pr =>
    obtain ⟨out, rem⟩ := pr
    have := unquote_mem s out rem hu hm
    cases rem with
    | nil => simp at this
    | cons y ys => simp

/-! ## The iteration bound of the model of `strconv.Unquote` is never reached -/

theorem hexDigits_length (n : Nat) (s : List Char) (v v1 : Nat) (s1 : List Char)
    (h : hexDigits n s v = some (v1, s1)) : s1.length ≤ s.length := by
  induction n generalizing s v with
  | zero =>
    simp only [hexDigits, Option.some.injEq, Prod.mk.injEq] at h
    rw [h.2]
  | succ n ih =>
    cases s with
    | nil => simp [hexDigits] at h
    | cons c t =>
      simp only [hexDigits] at h
      cases hx : unhex c with
      | none => simp [hx] at h
      | some x =>
        simp only [hx] at h
        exact Nat.le_succ_of_le (ih t _ h)

theorem octDigits_length (n : Nat) (s : List Char) (v v1 : Nat) (s1 : List Char)
    (h : octDigits n s v = some (v1, s1)) : s1.length ≤ s.length := by
  induction n generalizing s v with
  | zero =>
    simp only [octDigits, Option.some.injEq, Prod.mk.injEq] at h
    rw [h.2]
  | succ n ih =>
    cases s with
    | nil => simp [octDigits] at h
    | cons c t =>
      simp only [octDigits] at h
      split_ifs at h with hx
      exact Nat.le_succ_of_le (ih t _ h)

theorem ok_len {x r n : Nat} {y mb : Bool} {s rem : List Char}
    (h : (Except.ok (x, y, s) : Except GoError (Nat × Bool × List Char)) = .ok (r, mb, rem))
    (hm : s.length ≤ n) : rem.length ≤ n := by
  simp only [Except.ok.injEq, Prod.mk.injEq] at h
  exact h.2.2 ▸ hm

/-- A successful `UnquoteChar` consumes at least the first rune. -/
theorem UnquoteChar_length (c : Char) (s : List Char) (r : Nat) (mb : Bool) (rem : List Char)
    (h : UnquoteChar (c :: s) '"' = .ok (r, mb, rem)) : rem.length ≤ s.length := by
  by_cases hb : c = '\\'
  · subst hb
    cases s with
    | nil =>
      have : UnquoteChar ['\\'] '"' = .error .syntaxErr := rfl
      rw [this] at h
      cases h
    | cons c2 s2 =>
      rw [UnquoteChar_escape] at h
      simp only [List.length_cons]
      by_cases g0 : c2 = 'a'
      · rw [if_pos g0] at h
        exact ok_len h (Nat.le_succ _)
      rw [if_neg g0] at h
      by_cases g1 : c2 = 'b'
      · rw [if_pos g1] at h
        exact ok_len h (Nat.le_succ _)
      rw [if_neg g1] at h
      by_cases g2 : c2 = 'f'
      · rw [if_pos g2] at h
        exact ok_len h (Nat.le_succ _)
      rw [if_neg g2] at h
      by_cases g3 : c2 = 'n'
      · rw [if_pos g3] at h
        exact ok_len h (Nat.le_succ _)
      rw [if_neg g3] at h
      by_cases g4 : c2 = 'r'
      · rw [if_pos g4] at h
        exact ok_len h (Nat.le_succ _)
      rw [if_neg g4] at h
      by_cases g5 : c2 = 't'
      · rw [if_pos g5] at h
        exact ok_len h (Nat.le_succ _)
      rw [if_neg g5] at h
      by_cases g6 : c2 = 'v'
      · rw [if_pos g6] at h
        exact ok_len h (Nat.le_succ _)
      rw [if_neg g6] at h
      by_cases g7 : c2 = 'x' ∨ c2 = 'u' ∨ c2 = 'U'
      · rw [if_pos g7] at h
        cases hx : hexDigits (if c2 = 'x' then 2 else if c2 = 'u' then 4 else 8) s2 0 with
        | none =>
          rw [hx] at h
          cases h
        | some pr =>
          obtain ⟨v, s3⟩ := pr
          rw [hx] at h
          dsimp only at h
          have hm3 := Nat.le_succ_of_le (hexDigits_length _ _ _ _ _ hx)
          by_cases k1 : c2 = 'x'
          · rw [if_pos k1] at h
            exact ok_len h hm3
          · rw [if_neg k1] at h
            by_cases k2 : validRune v = true
            · rw [if_pos k2] at h
              exact ok_len h hm3
            · rw [if_neg k2] at h
              cases h
      rw [if_neg g7] at h
      by_cases g8 : 0x30 ≤ c2.toNat ∧ c2.toNat ≤ 0x37
      · rw [if_pos g8] at h
        cases hx : octDigits 2 s2 (c2.toNat - 0x30) with
        | none =>
          rw [hx] at h
          cases h
        | some pr =>
          obtain ⟨v, s3⟩ := pr
          rw [hx] at h
          dsimp only at h
          have hm3 := Nat.le_succ_of_le (octDigits_length _ _ _ _ _ hx)
          by_cases k1 : 255 < v
          · rw [if_pos k1] at h
            cases h
          · rw [if_neg k1] at h
            exact ok_len h hm3
      rw [if_neg g8] at h
      by_cases g9 : c2 = '\\'
      · rw [if_pos g9] at h
        exact ok_len h (Nat.le_succ _)
      rw [if_neg g9] at h
      by_cases g10 : c2 = '\x27' ∨ c2 = '"'
      · rw [if_pos g10] at h
        by_cases k1 : c2 ≠ '"'
        · rw [if_pos k1] at h
          cases h
        · rw [if_neg k1] at h
          exact ok_len h (Nat.le_succ _)
      rw [if_neg g10] at h
      cases h
  · have key : UnquoteChar (c :: s) '"' =
        if c = '"' ∧ ('"' = '\x27' ∨ '"' = '"') then .error .syntaxErr
        else if 128 ≤ c.toNat then .ok (c.toNat, true, s)
        else .ok (c.toNat, false, s) := by
      cases s <;> rw [UnquoteChar] <;> simp only [ne_eq, hb, not_false_eq_true, if_true]
    rw [key] at h
    by_cases q1 : c = '"' ∧ ('"' = '\x27' ∨ '"' = '"')
    · rw [if_pos q1] at h
      cases h
    · rw [if_neg q1] at h
      by_cases q2 : 128 ≤ c.toNat
      · rw [if_pos q2] at h
        exact ok_len h (le_refl _)
      · rw [if_neg q2] at h
        exact ok_len h (le_refl _)

theorem unquoteLoop_fuel (fuel : Nat) (s : List Char) (buf : GoString)
    (h : s.length < fuel) : unquoteLoop fuel s buf ≠ none := by
  induction fuel generalizing s buf with
  | zero => omega
  | succ n ih =>
    cases s with
    | nil => simp [unquoteLoop]
    | cons c t =>
      rw [unquoteLoop]
      by_cases h1 : c = '"'
      · rw [if_pos h1]
        simp
      · rw [if_neg h1]
        cases hu : UnquoteChar (c :: t) '"' with
        | error e => simp
        | ok res =>
          obtain ⟨r, mb, rem⟩ := res
          dsimp only
          by_cases h2 : c = '\n'
          · rw [if_pos h2]
            simp
          · rw [if_neg h2]
            have := UnquoteChar_length c t r mb rem hu
            simp only [List.length_cons] at h
            exact ih _ _ (by omega)

/-- The loop of `strconv.unquote` always ends within the bound that the model gives
it: the outcome `none` of `unquoteLoop` is never met by `unquote`. -/
theorem unquote_fuel (s1 : List Char) : unquoteLoop (s1.length + 1) s1 [] ≠ none :=
  unquoteLoop_fuel _ _ _ (Nat.lt_succ_self _)

/-! ## Reading a text that is followed by more input

`P` is a text that ends with a line feed.  Each loop of the tokenizer, started on
`P ++ X`, stops inside `P` in a way that does not depend on `X`, except for a quoted
word that is still open at the end of `P`: that one contains a raw line feed and is
rejected whatever follows. -/

theorem endsLF_cons {a : Char} {t : List Char} (h : endsLF (a :: t) = true) :
    (t = [] ∧ a = '\n') ∨ (t ≠ [] ∧ endsLF t = true) := by
  cases t with
  | nil =>
    left
    simpa [endsLF] using h
  | cons b t2 =>
    right
    exact ⟨by simp, h⟩

theorem endsLF_ne_nil {P : List Char} (h : endsLF P = true) : P ≠ [] := by
  rintro rfl
  simp [endsLF] at h

theorem endsLF_tail {a : Char} {t : List Char} (h : endsLF (a :: t) = true) (ha : a ≠ '\n') :
    endsLF t = true := by
  rcases endsLF_cons h with ⟨-, h2⟩ | ⟨-, h2⟩
  · exact absurd h2 ha
  · exact h2

theorem skipLF_prefix (t : List Char) (ht : endsLF t = true) :
    ∃ P1, (P1 = [] ∨ endsLF P1 = true) ∧ P1.length ≤ t.length ∧
      ∀ X, skipLF (t ++ X) = P1 ++ X := by
  cases t with
  | nil => simp [endsLF] at ht
  | cons r2 t2 =>
    by_cases h : r2 = '\n'
    · refine ⟨t2, ?_, by simp, fun X => by simp [skipLF, h]⟩
      rcases endsLF_cons ht with ⟨h1, -⟩ | ⟨-, h2⟩
      · exact Or.inl h1
      · exact Or.inr h2
    · exact ⟨r2 :: t2, Or.inr ht, le_refl _, fun X => by simp [skipLF, h]⟩

theorem commentLoop_cons (r : Char) (rest : List Char) (line col : Int) :
    commentLoop (r :: rest) line col =
      if r = '\r' then ⟨skipLF rest, line + 1, 0⟩
      else if r = '\n' then ⟨rest, line + 1, 0⟩
      else commentLoop rest line (col + 1) := rfl

theorem whitespaceLoop_cons (r : Char) (rest : List Char) (line col : Int) :
    whitespaceLoop (r :: rest) line col =
      if (!unicodeIsSpace r || decide (r = '\r') || decide (r = '\n')) = true
      then ⟨r :: rest, line, col⟩
      else whitespaceLoop rest line (col + 1) := rfl

theorem wordLoop_cons (r : Char) (rest value : List Char) (line col : Int) :
    wordLoop (r :: rest) value line col =
      if (unicodeIsSpace r || decide (r = '"')) = true
      then ((.tokenWord, goStr value), ⟨r :: rest, line, col⟩)
      else wordLoop rest (value ++ [r]) line (col + 1) := rfl

theorem commentLoop_prefix (P : List Char) (hP : endsLF P = true) :
    ∃ P1, (P1 = [] ∨ endsLF P1 = true) ∧ P1.length < P.length ∧
      ∀ X line col, commentLoop (P ++ X) line col = ⟨P1 ++ X, line + 1, 0⟩ := by
  induction P with
  | nil => simp [endsLF] at hP
  | cons x t ih =>
    by_cases h1 : x = '\r'
    · have ht : endsLF t = true := endsLF_tail hP (by rw [h1]; decide)
      obtain ⟨P1, hP1, hlen, hX⟩ := skipLF_prefix t ht
      refine ⟨P1, hP1, by simp only [List.length_cons]; omega, fun X line col => ?_⟩
      rw [List.cons_append, commentLoop_cons, if_pos h1, hX]
    · by_cases h2 : x = '\n'
      · refine ⟨t, ?_, by simp, fun X line col => ?_⟩
        · rcases endsLF_cons hP with ⟨h3, -⟩ | ⟨-, h3⟩
          · exact Or.inl h3
          · exact Or.inr h3
        · rw [List.cons_append, commentLoop_cons, if_neg h1, if_pos h2]
      · obtain ⟨P1, hP1, hlen, hX⟩ := ih (endsLF_tail hP h2)
        refine ⟨P1, hP1, by simp only [List.length_cons]; omega, fun X line col => ?_⟩
        rw [List.cons_append, commentLoop_cons, if_neg h1, if_neg h2, hX]

theorem whitespaceLoop_prefix (P : List Char) (hP : endsLF P = true) :
    ∃ P1, ∃ k : Nat, endsLF P1 = true ∧ P1.length ≤ P.length ∧
      ∀ X line col, whitespaceLoop (P ++ X) line col = ⟨P1 ++ X, line, col + k⟩ := by
  induction P with
  | nil => simp [endsLF] at hP
  | cons x t ih =>
    by_cases h : (!unicodeIsSpace x || decide (x = '\r') || decide (x = '\n')) = true
    · refine ⟨x :: t, 0, hP, le_refl _, fun X line col => ?_⟩
      rw [List.cons_append, whitespaceLoop_cons, if_pos h]
      simp
    · have hx : x ≠ '\n' := by
        intro hx
        apply h
        simp [hx]
      obtain ⟨P1, k, hP1, hlen, hX⟩ := ih (endsLF_tail hP hx)
      refine ⟨P1, k + 1, hP1, by simp only [List.length_cons]; omega, fun X line col => ?_⟩
      rw [List.cons_append, whitespaceLoop_cons, if_neg h, hX]
      simp only [lexer.mk.injEq, true_and, Nat.cast_add, Nat.cast_one]
      omega

theorem wordLoop_prefix (P : List Char) (hP : endsLF P = true) (value : List Char) :
    ∃ P1, ∃ k : Nat, ∃ value1, endsLF P1 = true ∧ P1.length ≤ P.length ∧
      ∀ X line col, wordLoop (P ++ X) value line col
        = ((.tokenWord, goStr value1), ⟨P1 ++ X, line, col + k⟩) := by
  induction P generalizing value with
  | nil => simp [endsLF] at hP
  | cons x t ih =>
    by_cases h : (unicodeIsSpace x || decide (x = '"')) = true
    · refine ⟨x :: t, 0, value, hP, le_refl _, fun X line col => ?_⟩
      rw [List.cons_append, wordLoop_cons, if_pos h]
      simp
    · have hx : x ≠ '\n' := by
        rintro rfl
        exact h (by decide)
      obtain ⟨P1, k, value1, hP1, hlen, hX⟩ := ih (endsLF_tail hP hx) (value ++ [x])
      refine ⟨P1, k + 1, value1, hP1, by simp only [List.length_cons]; omega,
        fun X line col => ?_⟩
      rw [List.cons_append, wordLoop_cons, if_neg h, hX]
      simp only [Prod.mk.injEq, lexer.mk.injEq, true_and, Nat.cast_add, Nat.cast_one]
      omega

/-- Once its buffer holds a raw line feed, a quoted word cannot be read successfully. -/
theorem quotedLoop_lf_fail (s value : List Char) (line col : Int) (hv : '\n' ∈ value) :
    ∃ e l1, quotedLoop s value line col = (.error e, l1) := by
  generalize hn : s.length = n
  induction n using Nat.strong_induction_on generalizing s value line col with
  | _ n ih =>
    subst hn
    cases s with
    | nil => exact ⟨_, _, quotedLoop_nil _ _ _⟩
    | cons r rest =>
      rw [quotedLoop_cons]
      generalize (if r = '\n' then line + 1 else line) = line1
      generalize (if r = '\n' then 0 else col + 1) = col1
      by_cases h1 : r = '"'
      · rw [if_pos h1, Unquote_lf _ (List.mem_append_left _ hv)]
        exact ⟨_, _, rfl⟩
      · rw [if_neg h1]
        by_cases h2 : r = '\\'
        · rw [if_pos h2]
          cases rest with
          | nil => exact ⟨_, _, quotedLoop_nil _ _ _⟩
          | cons r2 rest2 =>
            dsimp only
            by_cases h3 : r2 = '"'
            · rw [if_pos h3]
              exact ih rest2.length (by simp only [List.length_cons]; omega) rest2 _ _ _
                (List.mem_append_left _ hv) rfl
            · rw [if_neg h3]
              exact ih (r2 :: rest2).length (by simp only [List.length_cons]; omega)
                (r2 :: rest2) _ _ _ (List.mem_append_left _ hv) rfl
        · rw [if_neg h2]
          exact ih rest.length (by simp only [List.length_cons]; omega) rest _ _ _
            (List.mem_append_left _ hv) rfl

theorem quotedLoop_prefix (P value : List Char) (line col : Int)
    (hP : '\n' ∈ value ∨ endsLF P = true) (hcol : 0 ≤ col) :
    (∃ val P1 line1 col1, endsLF P1 = true ∧ P1.length < P.length ∧ 0 < col1 ∧
        ∀ X, quotedLoop (P ++ X) value line col
          = (.ok (.tokenWord, val), ⟨P1 ++ X, line1, col1⟩))
      ∨ (∀ X, ∃ e l1, quotedLoop (P ++ X) value line col = (.error e, l1)) := by
  generalize hn : P.length = n
  induction n using Nat.strong_induction_on generalizing P value line col with
  | _ n ih =>
    subst hn
    rcases hP with hv | hP
    · exact Or.inr (fun X => quotedLoop_lf_fail _ _ _ _ hv)
    cases P with
    | nil => simp [endsLF] at hP
    | cons x rest =>
      by_cases h1 : x = '"'
      · have hx : x ≠ '\n' := by rw [h1]; decide
        cases hu : Unquote (value ++ ['"']) with
        | error err =>
          right
          intro X
          rw [List.cons_append, quotedLoop_cons, if_pos h1, if_neg hx, if_neg hx, hu]
          exact ⟨_, _, rfl⟩
        | ok final =>
          left
          refine ⟨final, rest, line, col + 1, endsLF_tail hP hx, by simp, by omega,
            fun X => ?_⟩
          rw [List.cons_append, quotedLoop_cons, if_pos h1, if_neg hx, if_neg hx, hu]
      · by_cases h2 : x = '\\'
        · have hx : x ≠ '\n' := by rw [h2]; decide
          have hrest := endsLF_tail hP hx
          cases rest with
          | nil => simp [endsLF] at hrest
          | cons r2 rest2 =>
            by_cases h3 : r2 = '"'
            · have hr2 : r2 ≠ '\n' := by rw [h3]; decide
              rcases ih rest2.length (by simp only [List.length_cons]; omega) rest2
                  (value ++ ['"']) line (col + 1 + 1) (Or.inr (endsLF_tail hrest hr2))
                  (by omega) rfl with
                ⟨res, P1, line1, col1, hP1, hlen, hc1, hX⟩ | hB
              · left
                refine ⟨res, P1, line1, col1, hP1, by simp only [List.length_cons]; omega,
                  hc1, fun X => ?_⟩
                rw [List.cons_append, List.cons_append, quotedLoop_cons, if_neg h1, if_pos h2,
                  if_neg hx, if_neg hx]
                dsimp only
                rw [if_pos h3, hX]
              · right
                intro X
                rw [List.cons_append, List.cons_append, quotedLoop_cons, if_neg h1, if_pos h2,
                  if_neg hx, if_neg hx]
                dsimp only
                rw [if_pos h3]
                exact hB X
            · rcases ih (r2 :: rest2).length (by simp only [List.length_cons]; omega)
                  (r2 :: rest2) (value ++ [x]) line (col + 1) (Or.inr hrest) (by omega) rfl with
                ⟨res, P1, line1, col1, hP1, hlen, hc1, hX⟩ | hB
              · left
                refine ⟨res, P1, line1, col1, hP1,
                  by simp only [List.length_cons] at hlen ⊢; omega, hc1, fun X => ?_⟩
                rw [List.cons_append, List.cons_append, quotedLoop_cons, if_neg h1, if_pos h2,
                  if_neg hx, if_neg hx]
                dsimp only
                rw [if_neg h3]
                exact hX X
              · right
                intro X
                rw [List.cons_append, List.cons_append, quotedLoop_cons, if_neg h1, if_pos h2,
                  if_neg hx, if_neg hx]
                dsimp only
                rw [if_neg h3]
                exact hB X
        · by_cases hx : x = '\n'
          · right
            intro X
            rw [List.cons_append, quotedLoop_cons, if_neg h1, if_neg h2]
            exact quotedLoop_lf_fail _ _ _ _ (by simp [hx])
          · rcases ih rest.length (by simp only [List.length_cons]; omega) rest
                (value ++ [x]) line (col + 1) (Or.inr (endsLF_tail hP hx)) (by omega) rfl with
              ⟨res, P1, line1, col1, hP1, hlen, hc1, hX⟩ | hB
            · left
              refine ⟨res, P1, line1, col1, hP1, by simp only [List.length_cons]; omega,
                hc1, fun X => ?_⟩
              rw [List.cons_append, quotedLoop_cons, if_neg h1, if_neg h2, if_neg hx,
                if_neg hx, hX]
            · right
              intro X
              rw [List.cons_append, quotedLoop_cons, if_neg h1, if_neg h2, if_neg hx,
                if_neg hx]
              exact hB X

theorem Next_cons (r : Char) (rest : List Char) (line col : Int) :
    lexer.Next ⟨r :: rest, line, col⟩ =
      if col = 0 ∧ r = '#' then (.ok (.tokenComment, []), commentLoop rest line col)
      else if r = '\r' then (.ok (.tokenNewLine, []), ⟨skipLF rest, line + 1, 0⟩)
      else if r = '\n' then (.ok (.tokenNewLine, []), ⟨rest, line + 1, 0⟩)
      else if r = '"' then quotedLoop rest [r] line (col + 1)
      else if (!unicodeIsSpace r) = true then
        (.ok (wordLoop (r :: rest) [] line col).1, (wordLoop (r :: rest) [] line col).2)
      else (.ok (.tokenWhitespace, []), whitespaceLoop rest line col) := rfl

/-- The first token of a text that ends with a line feed and is followed by more
input `X`: either the same token for every `X`, ending inside the text, or an error
for every `X`. -/
theorem Next_prefix (P : List Char) (line col : Int) (hP : endsLF P = true) (hcol : 0 ≤ col) :
    (∃ tk val P1 line1 col1, (P1 = [] ∨ endsLF P1 = true) ∧ P1.length < P.length ∧
        0 ≤ col1 ∧ (P1 = [] → col1 = 0) ∧ tk ≠ .tokenEOF ∧ (tk = .tokenWord → 0 < col1) ∧
        (tk = .tokenWhitespace → col ≤ col1) ∧ (tk = .tokenComment → col = 0) ∧
        ∀ X, lexer.Next ⟨P ++ X, line, col⟩ = (.ok (tk, val), ⟨P1 ++ X, line1, col1⟩))
      ∨ (∀ X, ∃ e l1, lexer.Next ⟨P ++ X, line, col⟩ = (.error e, l1)) := by
  cases P with
  | nil => simp [endsLF] at hP
  | cons r rest =>
    by_cases h1 : col = 0 ∧ r = '#'
    · left
      have hr : r ≠ '\n' := by rw [h1.2]; decide
      obtain ⟨P1, hP1, hlen, hX⟩ := commentLoop_prefix rest (endsLF_tail hP hr)
      refine ⟨.tokenComment, [], P1, line + 1, 0, hP1, by simp only [List.length_cons]; omega,
        le_refl _, fun _ => rfl, by simp, by simp, by simp, fun _ => h1.1, fun X => ?_⟩
      rw [List.cons_append, Next_cons, if_pos h1, hX]
    by_cases h2 : r = '\r'
    · left
      have hr : r ≠ '\n' := by rw [h2]; decide
      obtain ⟨P1, hP1, hlen, hX⟩ := skipLF_prefix rest (endsLF_tail hP hr)
      refine ⟨.tokenNewLine, [], P1, line + 1, 0, hP1, by simp only [List.length_cons]; omega,
        le_refl _, fun _ => rfl, by simp, by simp, by simp, by simp, fun X => ?_⟩
      rw [List.cons_append, Next_cons, if_neg h1, if_pos h2, hX]
    by_cases h3 : r = '\n'
    · left
      refine ⟨.tokenNewLine, [], rest, line + 1, 0, ?_, by simp, le_refl _, fun _ => rfl,
        by simp, by simp, by simp, by simp, fun X => ?_⟩
      · rcases endsLF_cons hP with ⟨h, -⟩ | ⟨-, h⟩
        · exact Or.inl h
        · exact Or.inr h
      · rw [List.cons_append, Next_cons, if_neg h1, if_neg h2, if_pos h3]
    by_cases h4 : r = '"'
    · rcases quotedLoop_prefix rest [r] line (col + 1) (Or.inr (endsLF_tail hP h3))
          (by omega) with ⟨val, P1, line1, col1, hP1, hlen, hc1, hX⟩ | hB
      · left
        refine ⟨.tokenWord, val, P1, line1, col1, Or.inr hP1,
          by simp only [List.length_cons]; omega, by omega,
          fun h => absurd h (endsLF_ne_nil hP1), by simp, fun _ => hc1, by simp, by simp,
          fun X => ?_⟩
        rw [List.cons_append, Next_cons, if_neg h1, if_neg h2, if_neg h3, if_pos h4, hX]
      · right
        intro X
        rw [List.cons_append, Next_cons, if_neg h1, if_neg h2, if_neg h3, if_pos h4]
        exact hB X
    by_cases h5 : (!unicodeIsSpace r) = true
    · left
      have h6 : ¬ (unicodeIsSpace r || decide (r = '"')) = true := by
        simp only [Bool.not_eq_true'] at h5
        simp [h5, h4]
      obtain ⟨P1, k, value1, hP1, hlen, hX⟩ := wordLoop_prefix rest (endsLF_tail hP h3) ([] ++ [r])
      refine ⟨.tokenWord, goStr value1, P1, line, col + 1 + k, Or.inr hP1,
        by simp only [List.length_cons]; omega, by omega,
        fun h => absurd h (endsLF_ne_nil hP1), by simp, fun _ => by omega, by simp, by simp,
        fun X => ?_⟩
      rw [List.cons_append, Next_cons, if_neg h1, if_neg h2, if_neg h3, if_neg h4, if_pos h5,
        wordLoop_cons, if_neg h6, hX]
    · left
      obtain ⟨P1, k, hP1, hlen, hX⟩ := whitespaceLoop_prefix rest (endsLF_tail hP h3)
      refine ⟨.tokenWhitespace, [], P1, line, col + k, Or.inr hP1,
        by simp only [List.length_cons]; omega, by omega,
        fun h => absurd h (endsLF_ne_nil hP1), by simp, by simp, fun _ => by omega, by simp,
        fun X => ?_⟩
      rw [List.cons_append, Next_cons, if_neg h1, if_neg h2, if_neg h3, if_neg h4, if_neg h5,
        hX]

theorem addToLast_ne_nil {a b : List GoString} {s : GoString} (h : addToLast a s = some b) :
    b ≠ [] := by
  induction a generalizing b with
  | nil => simp [addToLast] at h
  | cons x t ih =>
    cases t with
    | nil =>
      simp only [addToLast, Option.some.injEq] at h
      subst h
      simp
    | cons y t2 =>
      simp only [addToLast, Option.map_eq_some'] at h
      obtain ⟨r, -, rfl⟩ := h
      simp

/-- The assembler on a token other than the end of input: either it continues with
locals that depend on the token and the old locals only, or it returns a failure. -/
theorem assemble_ok_cases (file : Option GoString) (tk : token) (val : GoString) (v : Locals)
    (htk : tk ≠ .tokenEOF) :
    (∃ v2, (∀ l1, assemble file (.ok (tk, val)) l1 v = .next l1 v2) ∧
        ∀ col col1 : Int, Started col v → (tk = .tokenWord → 0 < col1) →
          (tk = .tokenWhitespace → col ≤ col1) → (tk = .tokenComment → col = 0) →
          Started col1 v2)
      ∨ (∀ l1, ∃ r, assemble file (.ok (tk, val)) l1 v = .ret r ∧ r.args? = none) := by
  cases tk with
  | tokenEOF => exact absurd rfl htk
  | tokenComment =>
    left
    refine ⟨v, fun _ => rfl, fun col col1 hs _ _ hc => ?_⟩
    rcases hs with h | h
    · exact Or.inl h
    · have := hc rfl
      omega
  | tokenWhitespace =>
    left
    refine ⟨⟨v.args, v.newLine, v.firstOp, true⟩, fun _ => rfl, fun col col1 hs _ hw _ => ?_⟩
    rcases hs with h | h
    · exact Or.inl h
    · exact Or.inr ⟨lt_of_lt_of_le h.1 (hw rfl), h.2⟩
  | tokenNewLine =>
    left
    exact ⟨⟨v.args, true, v.firstOp, v.addWhitespace⟩, fun _ => rfl,
      fun _ _ _ _ _ _ => Or.inl rfl⟩
  | tokenWord =>
    by_cases hd : val = [0x2D]
    · right
      intro l1
      subst hd
      exact ⟨_, assemble_dash file l1 v, rfl⟩
    by_cases hn : v.newLine = true
    · left
      refine ⟨⟨v.args ++ [0x2D :: val], false, true, false⟩, fun l1 => by simp [assemble, hd, hn],
        fun col col1 _ hw _ _ => Or.inr ⟨hw rfl, by simp⟩⟩
    cases h1 : addToLast v.args (sepOf v.firstOp v.addWhitespace) with
    | none =>
      right
      intro l1
      refine ⟨.indexOutOfRange, ?_, rfl⟩
      simp only [assemble, hd, hn, if_false]
      rw [sepOf] at h1
      rw [h1]
      simp
    | some args1 =>
      cases h2 : addToLast args1 val with
      | none =>
        right
        intro l1
        refine ⟨.indexOutOfRange, ?_, rfl⟩
        simp only [assemble, hd, hn, if_false]
        rw [sepOf] at h1
        rw [h1]
        dsimp only
        rw [h2]
        simp
      | some args2 =>
        left
        refine ⟨⟨args2, false, false, false⟩, fun l1 => ?_,
          fun col col1 _ hw _ _ => Or.inr ⟨hw rfl, addToLast_ne_nil h2⟩⟩
        simp only [assemble, hd, hn, if_false]
        rw [sepOf] at h1
        rw [h1]
        dsimp only
        rw [h2]
        simp

theorem run_error (file : Option GoString) (l l1 : lexer) (v : Locals) (e : GoError)
    (h : l.Next = (.error e, l1)) : (run file l v).args? = none := by
  rw [run_step file _ _ _ _ h]
  rfl

/-- Reading a text `P` that is empty or ends with a line feed, with any input `X`
behind it: either the loop of `Parse` reaches the start of `X` in a state that does
not depend on `X`, at column 0 when `P` is not empty, or it fails for every `X`. -/
theorem prefix_sync (file : Option GoString) (P : List Char)
    (hP : P = [] ∨ endsLF P = true) (line col : Int) (hcol : 0 ≤ col) (v : Locals) :
    (∃ line1 col1 v1, (P = [] → col1 = col) ∧ (P ≠ [] → col1 = 0) ∧
        (Started col v → Started col1 v1) ∧
        ∀ X, run file ⟨P ++ X, line, col⟩ v = run file ⟨X, line1, col1⟩ v1)
      ∨ (∀ X, (run file ⟨P ++ X, line, col⟩ v).args? = none) := by
  generalize hn : P.length = n
  induction n using Nat.strong_induction_on generalizing P line col v with
  | _ n ih =>
    subst hn
    rcases hP with rfl | hP
    · exact Or.inl ⟨line, col, v, fun _ => rfl, fun h => absurd rfl h, id, fun X => rfl⟩
    have hne := endsLF_ne_nil hP
    rcases Next_prefix P line col hP hcol with
      ⟨tk, val, P1, line1, col1, hP1, hlen, hc1, hz, htk, hw, hs, hc, hX⟩ | hB
    · rcases assemble_ok_cases file tk val v htk with ⟨v2, hA, hS⟩ | hR
      · have hstep : ∀ X, run file ⟨P ++ X, line, col⟩ v
            = run file ⟨P1 ++ X, line1, col1⟩ v2 := by
          intro X
          rw [run_step file _ _ _ _ (hX X), hA]
        rcases ih P1.length hlen P1 hP1 line1 col1 hc1 v2 rfl with
          ⟨line2, col2, v3, hz1, hz2, hS2, hY⟩ | hB2
        · left
          refine ⟨line2, col2, v3, fun h => absurd h hne, fun _ => ?_,
            fun h => hS2 (hS col col1 h hw hs hc), fun X => by rw [hstep, hY]⟩
          by_cases hp : P1 = []
          · rw [hz1 hp, hz hp]
          · exact hz2 hp
        · right
          intro X
          rw [hstep]
          exact hB2 X
      · right
        intro X
        obtain ⟨r, hr1, hr2⟩ := hR ⟨P1 ++ X, line1, col1⟩
        rw [run_step file _ _ _ _ (hX X), hr1]
        exact hr2
    · right
      intro X
      obtain ⟨e, l1, he⟩ := hB X
      exact run_error file _ _ _ _ he

/-- A bare word that is exactly `-` is rejected, wherever it stands. -/
theorem run_dash (file : Option GoString) (S : List Char) (line col : Int) (v : Locals)
    (hS : wordStop S = true) :
    run file ⟨'-' :: S, line, col⟩ v
      = .fail ⟨fileName file, line + 1, col + 1, some (.invalidToken ⟨[0x2D]⟩)⟩ := by
  have hN := Next_word ['-'] S line col (by simp) (by decide) (Or.inr (by decide)) hS
  have hg : goStr ['-'] = [0x2D] := by decide
  rw [hg] at hN
  rw [show '-' :: S = ['-'] ++ S from rfl, run_step file _ _ _ _ hN, assemble_dash]
  simp

theorem startsWithBreak_wordStop {S : List Char} (h : startsWithBreak S = true) :
    wordStop S = true := by
  cases S with
  | nil => rfl
  | cons c t =>
    simp only [startsWithBreak, Bool.or_eq_true, beq_iff_eq] at h
    rcases h with rfl | rfl <;> rfl

theorem spaceTab_blankRun {ws : List Char} (hne : ws ≠ []) (h : ws.all spaceTab = true) :
    blankRun ws = true := by
  rw [blankRun_iff]
  refine ⟨hne, ?_⟩
  simp only [List.all_eq_true] at h ⊢
  intro x hx
  have := h x hx
  simp only [spaceTab, Bool.or_eq_true, beq_iff_eq] at this
  rcases this with rfl | rfl <;> rfl

/-! ## The line counter only affects error positions -/

theorem commentLoop_line (s : List Char) (line line2 col : Int) :
    (commentLoop s line col).R = (commentLoop s line2 col).R ∧
      (commentLoop s line col).Column = (commentLoop s line2 col).Column := by
  induction s generalizing col with
  | nil => exact ⟨rfl, rfl⟩
  | cons x t ih =>
    rw [commentLoop_cons, commentLoop_cons]
    by_cases h1 : x = '\r'
    · rw [if_pos h1, if_pos h1]
      exact ⟨rfl, rfl⟩
    · rw [if_neg h1, if_neg h1]
      by_cases h2 : x = '\n'
      · rw [if_pos h2, if_pos h2]
        exact ⟨rfl, rfl⟩
      · rw [if_neg h2, if_neg h2]
        exact ih _

theorem whitespaceLoop_line (s : List Char) (line line2 col : Int) :
    (whitespaceLoop s line col).R = (whitespaceLoop s line2 col).R ∧
      (whitespaceLoop s line col).Column = (whitespaceLoop s line2 col).Column := by
  induction s generalizing col with
  | nil => exact ⟨rfl, rfl⟩
  | cons x t ih =>
    rw [whitespaceLoop_cons, whitespaceLoop_cons]
    by_cases h1 : (!unicodeIsSpace x || decide (x = '\r') || decide (x = '\n')) = true
    · rw [if_pos h1, if_pos h1]
      exact ⟨rfl, rfl⟩
    · rw [if_neg h1, if_neg h1]
      exact ih _

theorem wordLoop_line (s value : List Char) (line line2 col : Int) :
    (wordLoop s value line col).1 = (wordLoop s value line2 col).1 ∧
      (wordLoop s value line col).2.R = (wordLoop s value line2 col).2.R ∧
      (wordLoop s value line col).2.Column = (wordLoop s value line2 col).2.Column := by
  induction s generalizing value col with
  | nil => exact ⟨rfl, rfl, rfl⟩
  | cons x t ih =>
    rw [wordLoop_cons, wordLoop_cons]
    by_cases h1 : (unicodeIsSpace x || decide (x = '"')) = true
    · rw [if_pos h1, if_pos h1]
      exact ⟨rfl, rfl, rfl⟩
    · rw [if_neg h1, if_neg h1]
      exact ih _ _

theorem quotedLoop_line (s value : List Char) (line line2 col : Int) :
    (quotedLoop s value line col).1 = (quotedLoop s value line2 col).1 ∧
      (quotedLoop s value line col).2.R = (quotedLoop s value line2 col).2.R ∧
      (quotedLoop s value line col).2.Column = (quotedLoop s value line2 col).2.Column := by
  generalize hn : s.length = n
  induction n using Nat.strong_induction_on generalizing s value line line2 col with
  | _ n ih =>
    subst hn
    cases s with
    | nil =>
      rw [quotedLoop_nil, quotedLoop_nil]
      exact ⟨rfl, rfl, rfl⟩
    | cons r rest =>
      rw [quotedLoop_cons, quotedLoop_cons]
      generalize (if r = '\n' then line + 1 else line) = lineA
      generalize (if r = '\n' then line2 + 1 else line2) = lineB
      generalize (if r = '\n' then 0 else col + 1) = col1
      by_cases h1 : r = '"'
      · rw [if_pos h1, if_pos h1]
        cases Unquote (value ++ ['"']) <;> exact ⟨rfl, rfl, rfl⟩
      · rw [if_neg h1, if_neg h1]
        by_cases h2 : r = '\\'
        · rw [if_pos h2, if_pos h2]
          cases rest with
          | nil =>
            dsimp only
            rw [quotedLoop_nil, quotedLoop_nil]
            exact ⟨rfl, rfl, rfl⟩
          | cons r2 rest2 =>
            dsimp only
            by_cases h3 : r2 = '"'
            · rw [if_pos h3, if_pos h3]
              exact ih rest2.length (by simp only [List.length_cons]; omega) rest2 _ _ _ _ rfl
            · rw [if_neg h3, if_neg h3]
              exact ih (r2 :: rest2).length (by simp only [List.length_cons]; omega)
                (r2 :: rest2) _ _ _ _ rfl
        · rw [if_neg h2, if_neg h2]
          exact ih rest.length (by simp only [List.length_cons]; omega) rest _ _ _ _ rfl

theorem Next_line (R : List Char) (line line2 col : Int) :
    (lexer.Next ⟨R, line, col⟩).1 = (lexer.Next ⟨R, line2, col⟩).1 ∧
      (lexer.Next ⟨R, line, col⟩).2.R = (lexer.Next ⟨R, line2, col⟩).2.R ∧
      (lexer.Next ⟨R, line, col⟩).2.Column = (lexer.Next ⟨R, line2, col⟩).2.Column := by
  cases R with
  | nil => exact ⟨rfl, rfl, rfl⟩
  | cons r rest =>
    rw [Next_cons, Next_cons]
    by_cases h1 : col = 0 ∧ r = '#'
    · rw [if_pos h1, if_pos h1]
      exact ⟨rfl, commentLoop_line _ _ _ _⟩
    rw [if_neg h1, if_neg h1]
    by_cases h2 : r = '\r'
    · rw [if_pos h2, if_pos h2]
      exact ⟨rfl, rfl, rfl⟩
    rw [if_neg h2, if_neg h2]
    by_cases h3 : r = '\n'
    · rw [if_pos h3, if_pos h3]
      exact ⟨rfl, rfl, rfl⟩
    rw [if_neg h3, if_neg h3]
    by_cases h4 : r = '"'
    · rw [if_pos h4, if_pos h4]
      exact quotedLoop_line _ _ _ _ _
    rw [if_neg h4, if_neg h4]
    by_cases h5 : (!unicodeIsSpace r) = true
    · rw [if_pos h5, if_pos h5]
      obtain ⟨hA, hB, hC⟩ := wordLoop_line (r :: rest) [] line line2 col
      exact ⟨by rw [hA], hB, hC⟩
    · rw [if_neg h5, if_neg h5]
      exact ⟨rfl, whitespaceLoop_line _ _ _ _⟩

/-- Whether `Parse` succeeds, and with which flags, does not depend on the line
number at which the tokenizer starts. -/
theorem run_line_indep (file : Option GoString) (R : List Char) (line line2 col : Int)
    (v : Locals) :
    (run file ⟨R, line, col⟩ v).args? = (run file ⟨R, line2, col⟩ v).args? := by
  generalize hn : R.length = n
  induction n using Nat.strong_induction_on generalizing R line line2 col v with
  | _ n ih =>
    subst hn
    obtain ⟨hA, hB, hC⟩ := Next_line R line line2 col
    cases R with
    | nil => rw [run_nil, run_nil]
    | cons r rest =>
      have hlt := Next_lt ⟨r :: rest, line, col⟩ (by simp)
      cases h1 : lexer.Next ⟨r :: rest, line, col⟩ with
      | mk res l1 =>
        cases h2 : lexer.Next ⟨r :: rest, line2, col⟩ with
        | mk res2 l2 =>
          rw [h1, h2] at hA hB hC
          rw [h1] at hlt
          simp only at hA hB hC hlt
          subst hA
          obtain ⟨R1, a, c⟩ := l1
          obtain ⟨R2, b, c2⟩ := l2
          simp only at hB hC hlt
          subst hB
          subst hC
          cases res with
          | error e => rw [run_error file _ _ _ _ h1, run_error file _ _ _ _ h2]
          | ok tv =>
            obtain ⟨tk, val⟩ := tv
            by_cases htk : tk = .tokenEOF
            · subst htk
              rw [run_step file _ _ _ _ h1, run_step file _ _ _ _ h2]
              rfl
            · rw [run_step file _ _ _ _ h1, run_step file _ _ _ _ h2]
              rcases assemble_ok_cases file tk val v htk with ⟨v2, hN, -⟩ | hR
              · rw [hN, hN]
                exact ih R1.length hlt R1 a b c v2 rfl
              · obtain ⟨r1, hr1, hr2⟩ := hR ⟨R1, a, c⟩
                obtain ⟨r3, hr3, hr4⟩ := hR ⟨R1, b, c⟩
                rw [hr1, hr3]
                dsimp only
                rw [hr2, hr4]

/-! ## The two defects met by the claims, on every input of their form -/

theorem quotedLoop_plain_prefix (c rest value : List Char) (line col : Int)
    (hc : c.all plainRune = true) :
    quotedLoop (c ++ rest) value line col
      = quotedLoop rest (value ++ c) line (col + c.length) := by
  induction c generalizing value col with
  | nil => simp
  | cons x t ih =>
    simp only [List.all_cons, Bool.and_eq_true, plainRune, bne_iff_ne] at hc
    obtain ⟨⟨⟨h1, h2⟩, h3⟩, h4⟩ := hc
    rw [List.cons_append, quotedLoop_cons, if_neg h1, if_neg h2, if_neg h3, if_neg h3,
      ih _ _ h4]
    simp only [List.append_assoc, List.singleton_append, List.length_cons, Nat.cast_add,
      Nat.cast_one]
    have : col + 1 + (t.length : Int) = col + ((t.length : Int) + 1) := by omega
    rw [this]

/-- Every quoted word of the form `"a\"b"` is rejected with `strconv.ErrSyntax`: the
buffer handed to `strconv.Unquote` is `"a"b"`. -/
theorem escaped_quote_rejected (file : Option GoString) (n a b : List Char)
    (hn : flagName n = true) (ha : a.all plainRune = true) (hb : b.all plainRune = true) :
    ∃ e, Parse file (n ++ ' ' :: '"' :: a ++ '\\' :: '"' :: b ++ ['"']) = .fail e ∧
      e.Err = some .syntaxErr := by
  simp only [flagName, Bool.and_eq_true, bne_iff_ne] at hn
  have hu : Unquote ((['"'] ++ a ++ ['"']) ++ b ++ ['"']) = .error .syntaxErr := by
    have h := unquote_plain a (b ++ ['"']) ha
    have e : (['"'] ++ a ++ ['"']) ++ b ++ ['"'] = '"' :: a ++ '"' :: (b ++ ['"']) := by simp
    rw [e]
    unfold Unquote
    rw [h]
    simp
  have hq : ∀ line col, ∃ l1, lexer.Next ⟨'"' :: (a ++ ('\\' :: '"' :: (b ++ '"' :: []))), line, col⟩
      = (.error .syntaxErr, l1) := by
    intro line col
    rw [Next_quote, quotedLoop_plain_prefix a _ _ line _ ha, quotedLoop_cons,
      if_neg (by decide), if_pos rfl]
    dsimp only
    rw [if_pos rfl, quotedLoop_plain b [] _ _ _ hb, hu]
    exact ⟨_, rfl⟩
  obtain ⟨l1, hl1⟩ := hq 0 (0 + (n.length : Int) + (([' '] : List Char).length : Int) - 1)
  have e1 : n ++ ' ' :: '"' :: a ++ '\\' :: '"' :: b ++ ['"']
      = n ++ ([' '] ++ ('"' :: (a ++ ('\\' :: '"' :: (b ++ '"' :: []))))) := by simp
  rw [Parse_eq_run, e1,
    run_word_first file n ([' '] ++ ('"' :: (a ++ ('\\' :: '"' :: (b ++ '"' :: []))))) 0 0 []
      true false hn.1 (Or.inr hn.2) rfl,
    run_blank file [' '] ('"' :: (a ++ ('\\' :: '"' :: (b ++ '"' :: [])))) 0 _ _ rfl rfl,
    run_step file _ _ _ _ hl1]
  exact ⟨_, rfl, rfl⟩

/-- After exactly one blank at the start of the input, `#` starts a comment. -/
theorem hash_after_one_blank (file : Option GoString) (c : Char) (w : List Char)
    (hc : blankRune c = true) (hw : w.all inlineRune = true) :
    Parse file (c :: '#' :: w) = .ok [] := by
  have hb : blankRun [c] = true := by simp [blankRun, hc]
  rw [Parse_eq_run, show c :: '#' :: w = [c] ++ '#' :: w from rfl,
    run_blank file [c] ('#' :: w) 0 0 _ hb rfl]
  have e : (0 : Int) + (([c] : List Char).length : Int) - 1 = 0 := by simp
  rw [e, run_step file _ _ _ _ (Next_comment w 0), commentLoop_eof w 0 0 hw]
  exact run_nil file _ _ _

/-- After two or more blanks at the start of the input, `#` starts a bare word. -/
theorem hash_after_blanks (file : Option GoString) (ws w : List Char)
    (hws : blankRun ws = true) (hlen : 2 ≤ ws.length) (hw : w.all wordRune = true) :
    Parse file (ws ++ '#' :: w) = .ok [goStr ('-' :: '#' :: w)] := by
  have hb : bareWord ('#' :: w) = true := by
    rw [bareWord_iff]
    refine ⟨by simp, ?_, ?_⟩
    · simp only [List.all_cons, hw, Bool.and_true]
      decide
    · intro h
      simp only [List.cons.injEq] at h
      exact absurd h.1 (by decide)
  have e : ws ++ '#' :: w = ws ++ (('#' :: w) ++ []) := by simp
  rw [Parse_eq_run, e, run_blank file ws _ 0 0 _ hws (blankStop_word hb),
    run_word_first file ('#' :: w) [] 0 _ [] true true hb (Or.inl (by omega)) rfl, run_nil]
  rw [goStr_cons_ascii '-' ('#' :: w) (by decide)]
  rfl

theorem flag_eq_goStr (n c : List Char) :
    0x2D :: (goStr n ++ 0x3D :: goStr c) = goStr ('-' :: (n ++ '=' :: c)) := by
  have h := dash_goStr n ('=' :: c)
  rw [goStr_cons_ascii '=' c (by decide)] at h
  exact h

/-! ## Quoted words that are never closed -/

theorem quotesEscaped_of_ne (prev : Option Char) (s : List Char) (h : prev ≠ some '\\') :
    quotesEscaped prev s = quotesEscaped none s := by
  cases s with
  | nil => rfl
  | cons x t =>
    have h1 : (prev == some '\\') = false := by simpa using h
    simp [quotesEscaped, h1]

/-- A text in which every double quote follows a backslash does not close a quoted
word: the loop of `NextQuotedWord` runs into the end of input. -/
theorem quotedLoop_open (s value : List Char) (line col : Int)
    (hs : quotesEscaped none s = true) :
    ∃ l1, quotedLoop s value line col = (.error .unexpectedEOF, l1) := by
  generalize hn : s.length = n
  induction n using Nat.strong_induction_on generalizing s value line col with
  | _ n ih =>
    subst hn
    cases s with
    | nil => exact ⟨_, quotedLoop_nil _ _ _⟩
    | cons x t =>
      simp only [quotesEscaped, Bool.and_eq_true, Bool.or_eq_true, bne_iff_ne, ne_eq,
        beq_iff_eq] at hs
      have h1 : x ≠ '"' := by
        rcases hs.1 with h | h
        · exact h
        · cases h
      rw [quotedLoop_cons, if_neg h1]
      generalize (if x = '\n' then line + 1 else line) = line1
      generalize (if x = '\n' then 0 else col + 1) = col1
      by_cases h2 : x = '\\'
      · rw [if_pos h2]
        cases t with
        | nil => exact ⟨_, quotedLoop_nil _ _ _⟩
        | cons r2 t2 =>
          dsimp only
          have ht := hs.2
          simp only [quotesEscaped, Bool.and_eq_true] at ht
          by_cases h3 : r2 = '"'
          · rw [if_pos h3]
            have h4 : quotesEscaped none t2 = true := by
              rw [← quotesEscaped_of_ne (some r2) t2 (by rw [h3]; decide)]
              exact ht.2
            exact ih t2.length (by simp only [List.length_cons]; omega) t2 _ _ _ h4 rfl
          · rw [if_neg h3]
            have h4 : quotesEscaped none (r2 :: t2) = true := by
              simp only [quotesEscaped, Bool.and_eq_true, Bool.or_eq_true, bne_iff_ne, ne_eq]
              exact ⟨Or.inl h3, ht.2⟩
            exact ih (r2 :: t2).length (by simp only [List.length_cons]; omega) (r2 :: t2)
              _ _ _ h4 rfl
      · rw [if_neg h2]
        have h4 : quotesEscaped none t = true := by
          rw [← quotesEscaped_of_ne (some x) t (by simpa using h2)]
          exact hs.2
        exact ih t.length (by simp only [List.length_cons]; omega) t _ _ _ h4 rfl

/-- After a text that is empty or ends with a line feed and parses successfully, the
loop of `Parse` is at column 0 with `newLine` set, whatever input follows. -/
theorem after_ok_prefix (file : Option GoString) (P : List Char)
    (hP : P = [] ∨ endsLF P = true) (hok : ∃ args, Parse file P = .ok args) :
    ∃ line1 args fo aw, ∀ X,
      run file ⟨P ++ X, 0, 0⟩ ⟨[], true, true, false⟩
        = run file ⟨X, line1, 0⟩ ⟨args, true, fo, aw⟩ := by
  rcases prefix_sync file P hP 0 0 (le_refl _) ⟨[], true, true, false⟩ with
    ⟨line1, col1, v1, hz1, hz2, hS1, hX⟩ | hB
  · have hcol : col1 = 0 := by
      by_cases hp : P = []
      · exact hz1 hp
      · exact hz2 hp
    subst hcol
    have hnl : v1.newLine = true := by
      rcases hS1 (Or.inl rfl) with h | h
      · exact h
      · exact absurd h.1 (lt_irrefl _)
    obtain ⟨args, nl, fo, aw⟩ := v1
    simp only at hnl
    subst hnl
    exact ⟨line1, args, fo, aw, hX⟩
  · exfalso
    obtain ⟨args, hargs⟩ := hok
    have := hB []
    rw [List.append_nil, ← Parse_eq_run, hargs] at this
    cases this

/-! ## Decoding with `strconv.Unquote`: plain runes and escapes -/

theorem UnquoteChar_plain (c : Char) (s : List Char) (h1 : c ≠ '"') (h2 : c ≠ '\\') :
    UnquoteChar (c :: s) '"' =
      if 128 ≤ c.toNat then .ok (c.toNat, true, s) else .ok (c.toNat, false, s) := by
  have hq : ¬ (c = '"' ∧ ('"' = '\x27' ∨ '"' = '"')) := fun h => h1 h.1
  cases s <;> rw [UnquoteChar, if_neg hq] <;>
    simp only [ne_eq, h2, not_false_eq_true, if_true]

theorem UnquoteChar_bad (x : Char) (s : List Char) (hx : escapeRune x = false) :
    UnquoteChar ('\\' :: x :: s) '"' = .error .syntaxErr := by
  simp only [escapeRune, Bool.or_eq_false_iff, beq_eq_false_iff_ne, ne_eq, Bool.and_eq_false_iff,
    decide_eq_false_iff_not] at hx
  obtain ⟨⟨⟨⟨⟨⟨⟨⟨⟨⟨⟨⟨ga, gb⟩, gf⟩, gn⟩, gr⟩, gt⟩, gv⟩, gbs⟩, gq⟩, gx⟩, gu⟩, gU⟩, go⟩ := hx
  have g7 : ¬ (x = 'x' ∨ x = 'u' ∨ x = 'U') := by
    rintro (h | h | h)
    · exact gx h
    · exact gu h
    · exact gU h
  have g8 : ¬ (0x30 ≤ x.toNat ∧ x.toNat ≤ 0x37) := by
    rintro ⟨h1, h2⟩
    rcases go with h | h
    · exact h h1
    · exact h h2
  rw [UnquoteChar_escape, if_neg ga, if_neg gb, if_neg gf, if_neg gn, if_neg gr, if_neg gt,
    if_neg gv, if_neg g7, if_neg g8, if_neg gbs]
  by_cases g10 : x = '\x27' ∨ x = '"'
  · rw [if_pos g10, if_pos gq]
  · rw [if_neg g10]

theorem unquoteLoop_cons (fuel : Nat) (c : Char) (s : List Char) (buf : GoString) :
    unquoteLoop (fuel + 1) (c :: s) buf =
      if c = '"' then some (.ok (buf, c :: s))
      else
        match UnquoteChar (c :: s) '"' with
        | .error _ => some (.error .syntaxErr)
        | .ok (r, multibyte, rem) =>
          if c = '\n' then some (.error .syntaxErr)
          else
            unquoteLoop fuel rem
              (buf ++ (if r < 0x80 ∨ multibyte = false then [r % 256] else encodeRune r)) := rfl

/-- One round of the loop of `strconv.unquote` on a rune that stands for itself. -/
theorem unquoteLoop_step_plain (fuel : Nat) (c : Char) (s : List Char) (buf : GoString)
    (hc : plainRune c = true) :
    unquoteLoop (fuel + 1) (c :: s) buf = unquoteLoop fuel s (buf ++ encodeRune c.toNat) := by
  simp only [plainRune, Bool.and_eq_true, bne_iff_ne] at hc
  obtain ⟨⟨h1, h2⟩, h3⟩ := hc
  rw [unquoteLoop_cons, if_neg h1, UnquoteChar_plain c s h1 h2]
  by_cases h : 128 ≤ c.toNat
  · rw [if_pos h]
    dsimp only
    rw [if_neg h3, if_neg (by simp; omega)]
  · rw [if_neg h]
    dsimp only
    rw [if_neg h3, if_pos (by simp)]
    congr 2
    unfold encodeRune
    rw [if_pos (by omega)]
    congr 1
    omega

theorem unquoteLoop_plain_prefix (a rest : List Char) (fuel : Nat) (buf : GoString)
    (ha : a.all plainRune = true) :
    unquoteLoop (fuel + a.length) (a ++ rest) buf = unquoteLoop fuel rest (buf ++ goStr a) := by
  induction a generalizing buf with
  | nil => simp [goStr]
  | cons c t ih =>
    simp only [List.all_cons, Bool.and_eq_true] at ha
    rw [List.length_cons, ← Nat.add_assoc, List.cons_append,
      unquoteLoop_step_plain _ c _ _ ha.1, ih _ ha.2]
    simp [goStr]

theorem unquote_cons_cons (q y : Char) (t : List Char) :
    unquote (q :: y :: t) =
      if q ≠ '"' then .error .syntaxErr
      else
        if (y :: t).contains '"' = false then .error .syntaxErr
        else
          if ((y :: t).takeWhile (fun c => c != '"')).contains '\\' = false ∧
              ((y :: t).takeWhile (fun c => c != '"')).contains '\n' = false then
            .ok (goStr ((y :: t).takeWhile (fun c => c != '"')),
              ((y :: t).dropWhile (fun c => c != '"')).drop 1)
          else
            match unquoteLoop ((y :: t).length + 1) (y :: t) [] with
            | none => .error .syntaxErr
            | some (.error e) => .error e
            | some (.ok (buf, s2)) =>
              match s2 with
              | [] => .error .syntaxErr
              | _ :: s3 => .ok (buf, s3) := rfl

theorem mem_takeWhile_plain (a r : List Char) (ha : a.all plainRune = true) :
    '\\' ∈ (a ++ '\\' :: r).takeWhile (fun c => c != '"') := by
  induction a with
  | nil => simp [List.takeWhile_cons]
  | cons c t ih =>
    simp only [List.all_cons, Bool.and_eq_true, plainRune, bne_iff_ne] at ha
    have hx : (c != '"') = true := by simp [ha.1.1.1]
    simp only [List.cons_append, List.takeWhile_cons, hx, if_true]
    exact List.mem_cons_of_mem _ (ih ha.2)

/-- A literal with a backslash in front of a rune that is no escape character is
rejected by `strconv.Unquote`. -/
theorem Unquote_bad_escape (a b : List Char) (x : Char) (ha : a.all plainRune = true)
    (hx : escapeRune x = false) :
    Unquote ('"' :: (a ++ '\\' :: x :: b)) = .error .syntaxErr := by
  obtain ⟨y, t, hyt⟩ : ∃ y t, a ++ '\\' :: x :: b = y :: t := by
    cases a with
    | nil => exact ⟨_, _, rfl⟩
    | cons y t => exact ⟨_, _, rfl⟩
  have hmem := mem_takeWhile_plain a (x :: b) ha
  have hloop : unquoteLoop ((a ++ '\\' :: x :: b).length + 1) (a ++ '\\' :: x :: b) []
      = some (.error .syntaxErr) := by
    have e : (a ++ '\\' :: x :: b).length + 1 = (b.length + 2) + 1 + a.length := by
      simp only [List.length_append, List.length_cons]
      omega
    rw [e, unquoteLoop_plain_prefix a _ _ _ ha, unquoteLoop_cons, if_neg (by decide),
      UnquoteChar_bad x b hx]
  rw [hyt] at hmem hloop
  unfold Unquote
  rw [hyt, unquote_cons_cons, if_neg (by simp)]
  by_cases hc : (y :: t).contains '"' = false
  · rw [if_pos hc]
  · rw [if_neg hc]
    have hb : ¬ (((y :: t).takeWhile (fun c => c != '"')).contains '\\' = false ∧
        ((y :: t).takeWhile (fun c => c != '"')).contains '\n' = false) := by
      rintro ⟨h1, -⟩
      simp only [List.contains_eq_any_beq, List.any_eq_false, beq_iff_eq] at h1
      exact h1 _ hmem rfl
    rw [if_neg hb, hloop]

/-- The tokenizer on a quoted word that holds a backslash in front of a rune that is
no escape character: the word is read up to its closing quote and then rejected. -/
theorem Next_bad_escape (a b rest : List Char) (x : Char) (line col : Int)
    (ha : a.all plainRune = true) (hb : b.all plainRune = true)
    (hx : escapeRune x = false) :
    ∃ l1, lexer.Next ⟨'"' :: (a ++ '\\' :: x :: (b ++ '"' :: rest)), line, col⟩
      = (.error .syntaxErr, l1) := by
  have hq : x ≠ '"' := by
    rintro rfl
    revert hx
    decide
  have hbs : x ≠ '\\' := by
    rintro rfl
    revert hx
    decide
  have hu : Unquote ((['"'] ++ a ++ ['\\'] ++ [x]) ++ b ++ ['"']) = .error .syntaxErr := by
    have h := Unquote_bad_escape a (b ++ ['"']) x ha hx
    have e : (['"'] ++ a ++ ['\\'] ++ [x]) ++ b ++ ['"'] = '"' :: (a ++ '\\' :: x :: (b ++ ['"'])) := by
      simp
    rw [e]
    exact h
  rw [Next_quote, quotedLoop_plain_prefix a _ _ line _ ha, quotedLoop_cons,
    if_neg (by decide), if_pos rfl]
  dsimp only
  rw [if_neg hq, quotedLoop_cons, if_neg hq, if_neg hbs]
  generalize (if x = '\n' then (if '\\' = '\n' then line + 1 else line) + 1
    else (if '\\' = '\n' then line + 1 else line)) = line1
  generalize (if x = '\n' then (0 : Int)
    else (if '\\' = '\n' then 0 else col + 1 + ↑a.length + 1) + 1) = col1
  rw [quotedLoop_plain b rest _ line1 col1 hb, hu]
  exact ⟨_, rfl⟩

/-! ## A raw line feed inside a quoted word -/

/-- The tokenizer on a quoted word with one raw line feed inside: the line feed does
not end the word and counts one line; the word is read up to its closing quote and
then rejected by `strconv.Unquote`. -/
theorem Next_quoted_lf (a b rest : List Char) (line col : Int)
    (ha : a.all plainRune = true) (hb : b.all plainRune = true) :
    lexer.Next ⟨'"' :: (a ++ '\n' :: (b ++ '"' :: rest)), line, col⟩
      = (.error .syntaxErr, ⟨rest, line + 1, (b.length : Int) + 1⟩) := by
  have hu : Unquote ((['"'] ++ a ++ ['\n']) ++ b ++ ['"']) = .error .syntaxErr :=
    Unquote_lf _ (by simp)
  rw [Next_quote, quotedLoop_plain_prefix a _ _ line _ ha, quotedLoop_cons,
    if_neg (by decide), if_neg (by decide), if_pos rfl, if_pos rfl,
    quotedLoop_plain b rest _ _ _ hb, hu]
  simp

/-! ## Invariants of the loop of `Parse` -/

theorem addToLast_some {a b : List GoString} {s : GoString} (h : addToLast a s = some b) :
    ∃ xs x, a = xs ++ [x] ∧ b = xs ++ [x ++ s] := by
  induction a generalizing b with
  | nil => simp [addToLast] at h
  | cons y t ih =>
    cases t with
    | nil =>
      simp only [addToLast, Option.some.injEq] at h
      exact ⟨[], y, rfl, h.symm⟩
    | cons z t2 =>
      simp only [addToLast, Option.map_eq_some'] at h
      obtain ⟨r, hr, rfl⟩ := h
      obtain ⟨xs, x, h1, h2⟩ := ih hr
      exact ⟨y :: xs, x, by rw [h1]; rfl, by rw [h2]; rfl⟩

theorem addToLast_of_ne_nil {a : List GoString} (s : GoString) (h : a ≠ []) :
    ∃ b, addToLast a s = some b := by
  induction a with
  | nil => exact absurd rfl h
  | cons y t ih =>
    cases t with
    | nil => exact ⟨_, rfl⟩
    | cons z t2 =>
      obtain ⟨b, hb⟩ := ih (by simp)
      exact ⟨y :: b, by simp [addToLast, hb]⟩

/-- What one iteration of the loop of `Parse` does to the locals when it does not
return. -/
theorem assemble_next_cases {file : Option GoString} {res : Except GoError (token × GoString)}
    {l1 l2 : lexer} {v v2 : Locals} (h : assemble file res l1 v = .next l2 v2) :
    v2.args = v.args ∧ (v2.newLine = v.newLine ∨ v2.newLine = true)
      ∨ (∃ val, v.newLine = true ∧ v2 = ⟨v.args ++ [0x2D :: val], false, true, false⟩)
      ∨ (∃ val args1, v.newLine = false ∧
          addToLast v.args (sepOf v.firstOp v.addWhitespace) = some args1 ∧
          addToLast args1 val = some v2.args ∧ v2.newLine = false) := by
  cases res with
  | error e => simp [assemble] at h
  | ok tv =>
    obtain ⟨tk, val⟩ := tv
    cases tk with
    | tokenEOF => simp [assemble] at h
    | tokenComment =>
      simp only [assemble, Step.next.injEq] at h
      exact Or.inl ⟨by rw [← h.2], Or.inl (by rw [← h.2])⟩
    | tokenWhitespace =>
      simp only [assemble, Step.next.injEq] at h
      exact Or.inl ⟨by rw [← h.2], Or.inl (by rw [← h.2])⟩
    | tokenNewLine =>
      simp only [assemble, Step.next.injEq] at h
      exact Or.inl ⟨by rw [← h.2], Or.inr (by rw [← h.2])⟩
    | tokenWord =>
      by_cases hd : val = [0x2D]
      · subst hd
        rw [assemble_dash] at h
        cases h
      by_cases hn : v.newLine = true
      · right
        left
        refine ⟨val, hn, ?_⟩
        simp only [assemble, hd, hn, if_false, if_true, Step.next.injEq] at h
        exact h.2.symm
      · right
        right
        have hn2 : v.newLine = false := by simpa using hn
        simp only [assemble, hd, hn2, if_false, Bool.false_eq_true] at h
        rw [← sepOf] at h
        cases h1 : addToLast v.args (sepOf v.firstOp v.addWhitespace) with
        | none =>
          rw [h1] at h
          cases h
        | some args1 =>
          rw [h1] at h
          dsimp only at h
          cases h2 : addToLast args1 val with
          | none =>
            rw [h2] at h
            cases h
          | some args2 =>
            rw [h2] at h
            simp only [Step.next.injEq] at h
            obtain ⟨-, rfl⟩ := h
            exact ⟨val, args1, hn2, rfl, h2, rfl⟩

/-- What the loop of `Parse` can return in one iteration. -/
theorem assemble_ret_cases {file : Option GoString} {res : Except GoError (token × GoString)}
    {l1 : lexer} {v : Locals} {r : ParseResult} (h : assemble file res l1 v = .ret r) :
    r = .ok v.args ∨ (∃ e, r = .fail e) ∨
      (r = .indexOutOfRange ∧ v.newLine = false ∧
        (addToLast v.args (sepOf v.firstOp v.addWhitespace) = none ∨
          ∃ val args1, addToLast v.args (sepOf v.firstOp v.addWhitespace) = some args1 ∧
            addToLast args1 val = none)) := by
  cases res with
  | error e =>
    simp only [assemble, Step.ret.injEq] at h
    exact Or.inr (Or.inl ⟨_, h.symm⟩)
  | ok tv =>
    obtain ⟨tk, val⟩ := tv
    cases tk with
    | tokenEOF =>
      simp only [assemble, Step.ret.injEq] at h
      exact Or.inl h.symm
    | tokenComment => simp [assemble] at h
    | tokenWhitespace => simp [assemble] at h
    | tokenNewLine => simp [assemble] at h
    | tokenWord =>
      by_cases hd : val = [0x2D]
      · subst hd
        rw [assemble_dash] at h
        simp only [Step.ret.injEq] at h
        exact Or.inr (Or.inl ⟨_, h.symm⟩)
      by_cases hn : v.newLine = true
      · simp [assemble, hd, hn] at h
      · have hn2 : v.newLine = false := by simpa using hn
        simp only [assemble, hd, hn2, if_false, Bool.false_eq_true] at h
        rw [← sepOf] at h
        cases h1 : addToLast v.args (sepOf v.firstOp v.addWhitespace) with
        | none =>
          rw [h1] at h
          simp only [Step.ret.injEq] at h
          exact Or.inr (Or.inr ⟨h.symm, hn2, Or.inl rfl⟩)
        | some args1 =>
          rw [h1] at h
          dsimp only at h
          cases h2 : addToLast args1 val with
          | none =>
            rw [h2] at h
            simp only [Step.ret.injEq] at h
            exact Or.inr (Or.inr ⟨h.symm, hn2, Or.inr ⟨val, args1, rfl, h2⟩⟩)
          | some args2 =>
            rw [h2] at h
            cases h

/-- A property of the locals that every iteration keeps, and that makes every return
satisfy `Q`, gives `Q` for the outcome of the loop. -/
theorem run_invariant (file : Option GoString) (I : Locals → Prop) (Q : ParseResult → Prop)
    (hnext : ∀ res l1 v l2 v2, I v → assemble file res l1 v = .next l2 v2 → I v2)
    (hret : ∀ res l1 v r, I v → assemble file res l1 v = .ret r → Q r)
    (l : lexer) (v : Locals) (hv : I v) : Q (run file l v) := by
  generalize hn : l.R.length = n
  induction n using Nat.strong_induction_on generalizing l v with
  | _ n ih =>
    subst hn
    rw [run_eq]
    cases hb : loopBody file l v with
    | ret r => exact hret _ _ _ _ hv hb
    | next l1 v1 => exact ih _ (loopBody_length hb) l1 v1 (hnext _ _ _ _ _ hv hb) rfl

/-- The invariant that keeps `args[len(args)-1]` in range: `newLine` is false only
when a flag has been appended. -/
theorem safe_next {file : Option GoString} {res : Except GoError (token × GoString)}
    {l1 l2 : lexer} {v v2 : Locals} (hv : v.newLine = false → v.args ≠ [])
    (h : assemble file res l1 v = .next l2 v2) : v2.newLine = false → v2.args ≠ [] := by
  rcases assemble_next_cases h with ⟨h1, h2⟩ | ⟨val, -, rfl⟩ | ⟨val, args1, -, -, h3, -⟩
  · intro hn
    rw [h1]
    rcases h2 with h2 | h2
    · exact hv (h2 ▸ hn)
    · rw [h2] at hn
      cases hn
  · intro _
    simp
  · intro _
    exact addToLast_ne_nil h3

theorem safe_ret {file : Option GoString} {res : Except GoError (token × GoString)}
    {l1 : lexer} {v : Locals} {r : ParseResult} (hv : v.newLine = false → v.args ≠ [])
    (h : assemble file res l1 v = .ret r) : r ≠ .indexOutOfRange := by
  rcases assemble_ret_cases h with rfl | ⟨e, rfl⟩ | ⟨-, hn, h1 | ⟨val, args1, h1, h2⟩⟩
  · simp
  · simp
  · obtain ⟨b, hb⟩ := addToLast_of_ne_nil (sepOf v.firstOp v.addWhitespace) (hv hn)
    rw [hb] at h1
    cases h1
  · obtain ⟨b, hb⟩ := addToLast_of_ne_nil val (addToLast_ne_nil h1)
    rw [hb] at h2
    cases h2

theorem stateAt_safe (file : Option GoString) (input : List Char) (k : Nat) (l : lexer)
    (v : Locals) (h : stateAt file input k = some (l, v)) : v.newLine = false → v.args ≠ [] := by
  induction k generalizing l v with
  | zero =>
    simp only [stateAt, Option.some.injEq, Prod.mk.injEq] at h
    rw [← h.2]
    intro hn
    cases hn
  | succ k ih =>
    rw [stateAt] at h
    cases hs : stateAt file input k with
    | none =>
      rw [hs] at h
      cases h
    | some p =>
      obtain ⟨l0, v0⟩ := p
      rw [hs] at h
      dsimp only at h
      cases hb : loopBody file l0 v0 with
      | ret r =>
        rw [hb] at h
        cases h
      | next l1 v1 =>
        rw [hb] at h
        simp only [Option.some.injEq, Prod.mk.injEq] at h
        rw [← h.2]
        exact safe_next (ih l0 v0 hs) hb

/-- Every flag in `args` begins with `-`. -/
theorem dashed_next {file : Option GoString} {res : Except GoError (token × GoString)}
    {l1 l2 : lexer} {v v2 : Locals} (hv : ∀ a ∈ v.args, a.head? = some 0x2D)
    (h : assemble file res l1 v = .next l2 v2) : ∀ a ∈ v2.args, a.head? = some 0x2D := by
  have key : ∀ (args b : List GoString) (s : GoString),
      (∀ a ∈ args, a.head? = some 0x2D) → addToLast args s = some b →
      ∀ a ∈ b, a.head? = some 0x2D := by
    intro args b s ha hb a hab
    obtain ⟨xs, x, rfl, rfl⟩ := addToLast_some hb
    rcases List.mem_append.1 hab with h1 | h1
    · exact ha a (List.mem_append_left _ h1)
    · simp only [List.mem_singleton] at h1
      subst h1
      have hx := ha x (by simp)
      cases x with
      | nil => simp at hx
      | cons y ys => simpa using hx
  rcases assemble_next_cases h with ⟨h1, -⟩ | ⟨val, -, rfl⟩ | ⟨val, args1, -, h2, h3, -⟩
  · rw [h1]
    exact hv
  · intro a ha
    rcases List.mem_append.1 ha with h1 | h1
    · exact hv a h1
    · simp only [List.mem_singleton] at h1
      subst h1
      rfl
  · exact key _ _ _ (key _ _ _ hv h2) h3

/-! ## Decimal numbers -/

theorem digitsLoop_spec (fuel n : Nat) (acc : GoString) (h : n < fuel) :
    ∃ ds, digitsLoop fuel n acc = ds ++ acc ∧ decimalValue ds = n ∧ ds ≠ [] ∧
      ∀ d ∈ ds, 0x30 ≤ d ∧ d ≤ 0x39 := by
  induction fuel generalizing n acc with
  | zero => omega
  | succ fuel ih =>
    rw [digitsLoop]
    by_cases h10 : n < 10
    · rw [if_pos h10]
      refine ⟨[0x30 + n], rfl, by simp [decimalValue], by simp, ?_⟩
      intro d hd
      simp only [List.mem_singleton] at hd
      omega
    · rw [if_neg h10]
      obtain ⟨ds, h1, h2, -, h4⟩ := ih (n / 10) ((0x30 + n % 10) :: acc) (by omega)
      refine ⟨ds ++ [0x30 + n % 10], by rw [h1]; simp, ?_, by simp, ?_⟩
      · unfold decimalValue at h2 ⊢
        rw [List.foldl_append, h2]
        simp only [List.foldl_cons, List.foldl_nil]
        omega
      · intro d hd
        rcases List.mem_append.1 hd with hd | hd
        · exact h4 d hd
        · simp only [List.mem_singleton] at hd
          omega

/-- The function `Itoa` writes a non-negative number as its decimal digits. -/
theorem Itoa_decimal (n : Nat) :
    decimalValue (Itoa n) = n ∧ Itoa n ≠ [] ∧ ∀ d ∈ Itoa n, 0x30 ≤ d ∧ d ≤ 0x39 := by
  have hn : ¬ ((n : Int) < 0) := by omega
  obtain ⟨ds, h1, h2, h3, h4⟩ := digitsLoop_spec (n + 1) n [] (Nat.lt_succ_self _)
  rw [List.append_nil] at h1
  simp only [Itoa, if_neg hn, Int.natAbs_ofNat, h1]
  exact ⟨h2, h3, h4⟩

/-! ## The lexer only moves forward -/

theorem skipLF_suffix (s : List Char) : skipLF s <:+ s := by
  cases s with
  | nil => exact List.suffix_refl _
  | cons c t =>
    simp only [skipLF]
    split_ifs
    · exact List.suffix_refl _
    · exact List.suffix_cons _ _

theorem commentLoop_suffix (s : List Char) (line col : Int) :
    (commentLoop s line col).R <:+ s := by
  induction s generalizing col with
  | nil => simp [commentLoop]
  | cons c t ih =>
    unfold commentLoop
    split_ifs with h1 h2
    · exact (skipLF_suffix t).trans (List.suffix_cons _ _)
    · exact List.suffix_cons _ _
    · exact (ih _).trans (List.suffix_cons _ _)

theorem whitespaceLoop_suffix (s : List Char) (line col : Int) :
    (whitespaceLoop s line col).R <:+ s := by
  induction s generalizing col with
  | nil => simp [whitespaceLoop]
  | cons c t ih =>
    unfold whitespaceLoop
    split_ifs with h1
    · exact List.suffix_refl _
    · exact (ih _).trans (List.suffix_cons _ _)

theorem wordLoop_suffix (s value : List Char) (line col : Int) :
    (wordLoop s value line col).2.R <:+ s := by
  induction s generalizing value col with
  | nil => simp [wordLoop]
  | cons c t ih =>
    unfold wordLoop
    split_ifs with h1
    · exact List.suffix_refl _
    · exact (ih _ _).trans (List.suffix_cons _ _)

theorem wordLoop_token (s value : List Char) (line col : Int) :
    (wordLoop s value line col).1.1 = .tokenWord := by
  induction s generalizing value col with
  | nil => simp [wordLoop]
  | cons c t ih =>
    unfold wordLoop
    split_ifs with h1
    · rfl
    · exact ih _ _

theorem quotedLoop_suffix (s value : List Char) (line col : Int) :
    (quotedLoop s value line col).2.R <:+ s := by
  generalize hn : s.length = n
  induction n using Nat.strong_induction_on generalizing s value line col with
  | _ n ih =>
    subst hn
    cases s with
    | nil => simp [quotedLoop_nil]
    | cons r rest =>
      rw [quotedLoop_cons]
      generalize (if r = '\n' then line + 1 else line) = line1
      generalize (if r = '\n' then 0 else col + 1) = col1
      by_cases h1 : r = '"'
      · rw [if_pos h1]
        split <;> exact List.suffix_cons _ _
      · rw [if_neg h1]
        by_cases h2 : r = '\\'
        · rw [if_pos h2]
          cases rest with
          | nil => simp [quotedLoop_nil]
          | cons r2 rest2 =>
            simp only
            by_cases h3 : r2 = '"'
            · rw [if_pos h3]
              exact ((ih rest2.length (by simp only [List.length_cons]; omega) rest2
                (value ++ ['"']) line1 (col1 + 1) rfl).trans (List.suffix_cons _ _)).trans
                (List.suffix_cons _ _)
            · rw [if_neg h3]
              exact (ih (r2 :: rest2).length (by simp only [List.length_cons]; omega)
                (r2 :: rest2) (value ++ [r]) line1 col1 rfl).trans (List.suffix_cons _ _)
        · rw [if_neg h2]
          exact (ih rest.length (by simp only [List.length_cons]; omega) rest (value ++ [r])
            line1 col1 rfl).trans (List.suffix_cons _ _)

theorem quotedLoop_token (s value : List Char) (line col : Int) (tk : token) (val : GoString)
    (h : (quotedLoop s value line col).1 = .ok (tk, val)) : tk = .tokenWord := by
  generalize hn : s.length = n at h
  induction n using Nat.strong_induction_on generalizing s value line col with
  | _ n ih =>
    subst hn
    cases s with
    | nil =>
      rw [quotedLoop_nil] at h
      cases h
    | cons r rest =>
      rw [quotedLoop_cons] at h
      generalize (if r = '\n' then line + 1 else line) = line1 at h
      generalize (if r = '\n' then 0 else col + 1) = col1 at h
      by_cases h1 : r = '"'
      · rw [if_pos h1] at h
        split at h
        · cases h
        · simp only [Except.ok.injEq, Prod.mk.injEq] at h
          exact h.1.symm
      · rw [if_neg h1] at h
        by_cases h2 : r = '\\'
        · rw [if_pos h2] at h
          cases rest with
          | nil =>
            simp only [quotedLoop_nil] at h
            cases h
          | cons r2 rest2 =>
            simp only at h
            by_cases h3 : r2 = '"'
            · rw [if_pos h3] at h
              exact ih rest2.length (by simp only [List.length_cons]; omega) rest2 _ _ _ h rfl
            · rw [if_neg h3] at h
              exact ih (r2 :: rest2).length (by simp only [List.length_cons]; omega)
                (r2 :: rest2) _ _ _ h rfl
        · rw [if_neg h2] at h
          exact ih rest.length (by simp only [List.length_cons]; omega) rest _ _ _ h rfl

/-- The input left by `Next` is a suffix of the input it was called on. -/
theorem Next_suffix (l : lexer) : l.Next.2.R <:+ l.R := by
  obtain ⟨R, line, col⟩ := l
  cases R with
  | nil => exact List.suffix_refl _
  | cons r rest =>
    rw [Next_cons]
    split_ifs with h1 h2 h3 h4 h5
    · exact (commentLoop_suffix _ _ _).trans (List.suffix_cons _ _)
    · exact (skipLF_suffix _).trans (List.suffix_cons _ _)
    · exact List.suffix_cons _ _
    · exact (quotedLoop_suffix _ _ _ _).trans (List.suffix_cons _ _)
    · exact wordLoop_suffix _ _ _ _
    · exact (whitespaceLoop_suffix _ _ _).trans (List.suffix_cons _ _)

/-- The token `tokenEOF` is returned at the end of the input and nowhere else. -/
theorem Next_eof (l : lexer) (val : GoString) (h : l.Next.1 = .ok (.tokenEOF, val)) :
    l.R = [] := by
  obtain ⟨R, line, col⟩ := l
  cases R with
  | nil => rfl
  | cons r rest =>
    exfalso
    rw [Next_cons] at h
    split_ifs at h with h1 h2 h3 h4 h5
    · cases h
    · cases h
    · cases h
    · have := quotedLoop_token _ _ _ _ _ _ h
      cases this
    · simp only [Except.ok.injEq] at h
      have := wordLoop_token (r :: rest) [] line col
      rw [h] at this
      cases this
    · cases h

theorem tokenStream_total (l : lexer) (fuel : Nat) (hf : l.R.length < fuel) :
    ∃ toks err, tokenStream fuel l = some (toks, err) ∧ toks.length ≤ l.R.length + 1 ∧
      (err = none → toks.getLast? = some .tokenEOF ∧ toks.count .tokenEOF = 1) ∧
      (err ≠ none → token.tokenEOF ∉ toks) := by
  generalize hn : l.R.length = n
  induction n using Nat.strong_induction_on generalizing l fuel with
  | _ n ih =>
    subst hn
    cases fuel with
    | zero => omega
    | succ fuel =>
      rw [tokenStream]
      rcases hN : l.Next with ⟨res, l1⟩
      cases res with
      | error e => exact ⟨[], some e, rfl, by simp, by simp, by simp⟩
      | ok tv =>
        obtain ⟨tk, val⟩ := tv
        dsimp only
        by_cases htk : tk = .tokenEOF
        · rw [if_pos htk]
          subst htk
          exact ⟨[.tokenEOF], none, rfl, by simp, by simp, by simp⟩
        · rw [if_neg htk]
          have hne : l.R ≠ [] := by
            intro hnil
            obtain ⟨R, line, col⟩ := l
            simp only at hnil
            subst hnil
            simp only [lexer.Next, Prod.mk.injEq, Except.ok.injEq] at hN
            exact htk hN.1.1.symm
          have hlt : l1.R.length < l.R.length := by
            have := Next_lt l hne
            rwa [hN] at this
          obtain ⟨toks, err, h1, h2, h3, h4⟩ := ih l1.R.length hlt l1 fuel (by omega) rfl
          rw [h1]
          refine ⟨tk :: toks, err, rfl, by simp only [List.length_cons]; omega, ?_, ?_⟩
          · intro he
            obtain ⟨h5, h6⟩ := h3 he
            constructor
            · cases toks with
              | nil => simp at h5
              | cons t ts => simpa using h5
            · rw [List.count_cons_of_ne (Ne.symm htk)]
              exact h6
          · intro he
            simp only [List.mem_cons, not_or]
            exact ⟨fun h => htk h.symm, h4 he⟩


/-! ## Values written between quotes with their content escaped -/

theorem escapeValue_cons_plain (x : Char) (t : List Char) (h1 : x ≠ '"') (h2 : x ≠ '\\') :
    escapeValue (x :: t) = x :: escapeValue t := by
  have h : ¬ (x = '"' ∨ x = '\\') := by
    rintro (h | h)
    · exact h1 h
    · exact h2 h
  rw [escapeValue, if_neg h]

theorem escapeValue_cons_backslash (t : List Char) :
    escapeValue ('\\' :: t) = '\\' :: '\\' :: escapeValue t := by
  rw [escapeValue, if_pos (Or.inr rfl)]

theorem escapeValue_plain (v : List Char) (hv : v.all plainRune = true) : escapeValue v = v := by
  induction v with
  | nil => rfl
  | cons x t ih =>
    simp only [List.all_cons, Bool.and_eq_true, plainRune, bne_iff_ne] at hv
    rw [escapeValue_cons_plain x t hv.1.1.1 hv.1.1.2, ih hv.2]

/-- The escaped content of a value without double quote begins with a rune that is
not a double quote. -/
theorem escapeValue_head (t : List Char) (ht : t ≠ []) (hq : '"' ∉ t) :
    ∃ r2 rest2, escapeValue t = r2 :: rest2 ∧ r2 ≠ '"' := by
  cases t with
  | nil => exact absurd rfl ht
  | cons y t2 =>
    have hy : y ≠ '"' := fun h => hq (h ▸ List.mem_cons_self _ _)
    by_cases hb : y = '\\'
    · subst hb
      exact ⟨'\\', _, escapeValue_cons_backslash t2, by decide⟩
    · exact ⟨y, _, escapeValue_cons_plain y t2 hy hb, hy⟩

theorem getLast?_tail {x : Char} {t : List Char} (ht : t ≠ [])
    (h : (x :: t).getLast? ≠ some '\\') : t.getLast? ≠ some '\\' := by
  cases t with
  | nil => exact absurd rfl ht
  | cons y t2 => simpa [List.getLast?_cons_cons] using h

/-- The loop of `NextQuotedWord` on the escaped content of a value without double
quote and line feed that does not end in a backslash: it reads up to the closing
quote and hands the content as written to `strconv.Unquote`. -/
theorem quotedLoop_escaped (v rest value : List Char) (line col : Int)
    (hq : '"' ∉ v) (hl : '\n' ∉ v) (he : v.getLast? ≠ some '\\') :
    quotedLoop (escapeValue v ++ '"' :: rest) value line col =
      match Unquote (value ++ escapeValue v ++ ['"']) with
      | .error err => (.error err, ⟨rest, line, col + (escapeValue v).length + 1⟩)
      | .ok final => (.ok (.tokenWord, final), ⟨rest, line, col + (escapeValue v).length + 1⟩) := by
  induction v generalizing value col with
  | nil =>
    simp only [escapeValue, List.nil_append, List.append_nil, List.length_nil, Nat.cast_zero,
      add_zero]
    rw [quotedLoop_cons, if_pos rfl]
    cases Unquote (value ++ ['"']) <;> simp
  | cons x t ih =>
    have hx1 : x ≠ '"' := fun h => hq (h ▸ List.mem_cons_self _ _)
    have hx3 : x ≠ '\n' := fun h => hl (h ▸ List.mem_cons_self _ _)
    have hq2 : '"' ∉ t := fun h => hq (List.mem_cons_of_mem _ h)
    have hl2 : '\n' ∉ t := fun h => hl (List.mem_cons_of_mem _ h)
    by_cases hx2 : x = '\\'
    · subst hx2
      have ht : t ≠ [] := by
        rintro rfl
        exact he rfl
      obtain ⟨r2, rest2, hr, hr2⟩ := escapeValue_head t ht hq2
      have ih2 := ih (value ++ ['\\'] ++ ['\\']) (col + 1 + 1) hq2 hl2 (getLast?_tail ht he)
      rw [hr] at ih2
      rw [escapeValue_cons_backslash, hr, List.cons_append, List.cons_append, List.cons_append,
        quotedLoop_cons, if_neg (by decide), if_pos rfl]
      dsimp only
      rw [if_neg (by decide), if_neg (by decide), if_neg (by decide), quotedLoop_cons,
        if_neg (by decide), if_pos rfl]
      dsimp only
      rw [if_neg hr2, if_neg (by decide), if_neg (by decide)]
      rw [List.cons_append] at ih2
      rw [ih2]
      simp only [List.append_assoc, List.singleton_append, List.cons_append, List.nil_append,
        List.length_cons, Nat.cast_add, Nat.cast_one]
      have e : col + 1 + 1 + ((rest2.length : Int) + 1) + 1
          = col + ((rest2.length : Int) + 1 + 1 + 1) + 1 := by omega
      rw [e]
    · have ht2 : t.getLast? ≠ some '\\' := by
        cases t with
        | nil => simp
        | cons y t2 => exact getLast?_tail (by simp) he
      rw [escapeValue_cons_plain x t hx1 hx2, List.cons_append, quotedLoop_cons, if_neg hx1,
        if_neg hx2, if_neg hx3, if_neg hx3, ih _ _ hq2 hl2 ht2]
      simp only [List.append_assoc, List.singleton_append, List.length_cons, Nat.cast_add,
        Nat.cast_one]
      have e : col + 1 + ((escapeValue t).length : Int) + 1
          = col + (((escapeValue t).length : Int) + 1) + 1 := by omega
      rw [e]

theorem UnquoteChar_backslash (s : List Char) :
    UnquoteChar ('\\' :: '\\' :: s) '"' = .ok (0x5C, false, s) := rfl

/-- The loop of `strconv.unquote` on the escaped content of a value without double
quote and line feed: it decodes the value and stops at the closing quote. -/
theorem unquoteLoop_escaped (v rest : List Char) (fuel : Nat) (buf : GoString)
    (hq : '"' ∉ v) (hl : '\n' ∉ v) (hf : (escapeValue v).length < fuel) :
    unquoteLoop fuel (escapeValue v ++ '"' :: rest) buf
      = some (.ok (buf ++ goStr v, '"' :: rest)) := by
  induction v generalizing fuel buf with
  | nil =>
    cases fuel with
    | zero => omega
    | succ f =>
      rw [escapeValue, List.nil_append, unquoteLoop_cons, if_pos rfl]
      simp [goStr]
  | cons x t ih =>
    have hx1 : x ≠ '"' := fun h => hq (h ▸ List.mem_cons_self _ _)
    have hx3 : x ≠ '\n' := fun h => hl (h ▸ List.mem_cons_self _ _)
    have hq2 : '"' ∉ t := fun h => hq (List.mem_cons_of_mem _ h)
    have hl2 : '\n' ∉ t := fun h => hl (List.mem_cons_of_mem _ h)
    cases fuel with
    | zero => omega
    | succ f =>
      by_cases hx2 : x = '\\'
      · subst hx2
        rw [escapeValue_cons_backslash] at hf ⊢
        simp only [List.length_cons] at hf
        rw [List.cons_append, List.cons_append, unquoteLoop_cons, if_neg (by decide),
          UnquoteChar_backslash]
        dsimp only
        rw [if_neg (by decide), ih f _ hq2 hl2 (by omega)]
        have e : goStr ('\\' :: t) = [0x5C] ++ goStr t := rfl
        rw [e]
        simp
      · rw [escapeValue_cons_plain x t hx1 hx2] at hf ⊢
        simp only [List.length_cons] at hf
        have hp : plainRune x = true := by simp [plainRune, hx1, hx2, hx3]
        rw [List.cons_append, unquoteLoop_step_plain f x _ _ hp, ih f _ hq2 hl2 (by omega)]
        simp [goStr]

theorem takeWhile_escaped (v rest : List Char) (hq : '"' ∉ v) :
    (escapeValue v ++ '"' :: rest).takeWhile (fun c => c != '"') = escapeValue v := by
  induction v with
  | nil => simp [escapeValue, List.takeWhile_cons]
  | cons x t ih =>
    have hx1 : x ≠ '"' := fun h => hq (h ▸ List.mem_cons_self _ _)
    have hq2 : '"' ∉ t := fun h => hq (List.mem_cons_of_mem _ h)
    have hx : (x != '"') = true := by simp [hx1]
    by_cases hx2 : x = '\\'
    · subst hx2
      rw [escapeValue_cons_backslash]
      simp only [List.cons_append, List.takeWhile_cons, hx, if_true]
      rw [ih hq2]
    · rw [escapeValue_cons_plain x t hx1 hx2]
      simp only [List.cons_append, List.takeWhile_cons, hx, if_true]
      rw [ih hq2]

theorem mem_escapeValue (v : List Char) (h : '\\' ∈ v) : '\\' ∈ escapeValue v := by
  induction v with
  | nil => simp at h
  | cons x t ih =>
    rw [escapeValue]
    split_ifs with hx
    · exact List.mem_cons_self _ _
    · rcases List.mem_cons.1 h with h1 | h1
      · exact absurd h1.symm (fun h2 => hx (Or.inr h2))
      · exact List.mem_cons_of_mem _ (ih h1)

/-- What `strconv.Unquote` returns for the written form of a value without double
quote and line feed: the value. -/
theorem Unquote_escaped (v : List Char) (hq : '"' ∉ v) (hl : '\n' ∉ v) :
    Unquote ('"' :: escapeValue v ++ ['"']) = .ok (goStr v) := by
  by_cases hp : v.all plainRune = true
  · rw [escapeValue_plain v hp]
    exact Unquote_plain v hp
  · have hb : '\\' ∈ v := by
      by_contra hb
      apply hp
      rw [List.all_eq_true]
      intro c hc
      have h1 : c ≠ '"' := fun h => hq (h ▸ hc)
      have h2 : c ≠ '\\' := fun h => hb (h ▸ hc)
      have h3 : c ≠ '\n' := fun h => hl (h ▸ hc)
      simp [plainRune, h1, h2, h3]
    obtain ⟨y, t, hyt⟩ : ∃ y t, escapeValue v ++ ['"'] = y :: t := by
      cases escapeValue v with
      | nil => exact ⟨_, _, rfl⟩
      | cons y t => exact ⟨_, _, rfl⟩
    have hmem : '\\' ∈ (escapeValue v ++ ['"']).takeWhile (fun c => c != '"') := by
      rw [takeWhile_escaped v [] hq]
      exact mem_escapeValue v hb
    have hloop : unquoteLoop ((escapeValue v ++ ['"']).length + 1) (escapeValue v ++ ['"']) []
        = some (.ok (goStr v, ['"'])) := by
      have := unquoteLoop_escaped v [] ((escapeValue v ++ ['"']).length + 1) [] hq hl
        (by simp only [List.length_append, List.length_singleton]; omega)
      rw [this]
      simp
    rw [hyt] at hmem hloop
    unfold Unquote
    rw [List.cons_append, hyt, unquote_cons_cons, if_neg (by simp)]
    have hc : ¬ ((y :: t).contains '"' = false) := by
      rw [← hyt]
      simp
    have hb2 : ¬ (((y :: t).takeWhile (fun c => c != '"')).contains '\\' = false ∧
        ((y :: t).takeWhile (fun c => c != '"')).contains '\n' = false) := by
      rintro ⟨h1, -⟩
      simp only [List.contains_eq_any_beq, List.any_eq_false, beq_iff_eq] at h1
      exact h1 _ hmem rfl
    rw [if_neg hc, if_neg hb2, hloop]
    rfl


theorem plainValue_iff (v : List Char) :
    plainValue v = true ↔ v ≠ [] ∧ v ≠ ['-'] ∧ '"' ∉ v ∧ '\n' ∉ v ∧
      (needsQuotes v = true → v.getLast? ≠ some '\\') := by
  cases v with
  | nil => simp [plainValue]
  | cons c t =>
    simp only [plainValue, List.isEmpty_cons, Bool.not_false, Bool.true_and, Bool.and_eq_true,
      bne_iff_ne, Bool.not_eq_true', List.contains_eq_any_beq, List.any_eq_false, beq_iff_eq,
      Bool.and_eq_false_iff, beq_eq_false_iff_ne, ne_eq, not_false_eq_true, true_and,
      reduceCtorEq]
    constructor
    · rintro ⟨⟨⟨h1, h2⟩, h3⟩, h4⟩
      refine ⟨h1, fun h => h2 _ h rfl, fun h => h3 _ h rfl, fun hn => ?_⟩
      rcases h4 with h4 | h4
      · rw [hn] at h4
        cases h4
      · exact h4
    · rintro ⟨h1, h2, h3, h4⟩
      refine ⟨⟨⟨h1, fun x hx hxe => h2 (hxe ▸ hx)⟩, fun x hx hxe => h3 (hxe ▸ hx)⟩, ?_⟩
      by_cases hn : needsQuotes (c :: t) = true
      · exact Or.inr (h4 hn)
      · exact Or.inl (by simpa using hn)

theorem wordRune_of_bare {v : List Char} (h : needsQuotes v = false) :
    v.all wordRune = true := by
  simp only [needsQuotes, List.any_eq_false, Bool.or_eq_true, beq_iff_eq, not_or] at h
  rw [List.all_eq_true]
  intro c hc
  have := h c hc
  simp [wordRune, this.1, this.2]

/-- The tokenizer on the written form of a value: one word whose text is the
value. -/
theorem Next_renderValue (v rest : List Char) (line col : Int) (hv : plainValue v = true)
    (hc : col ≠ 0) (hr : wordStop rest = true) :
    lexer.Next ⟨renderValue v ++ rest, line, col⟩
      = (.ok (.tokenWord, goStr v), ⟨rest, line, col + (renderValue v).length⟩) := by
  obtain ⟨h1, -, h3, h4, h5⟩ := (plainValue_iff v).1 hv
  by_cases hn : needsQuotes v = true
  · have hu := Unquote_escaped v h3 h4
    rw [renderValue, if_pos hn]
    simp only [List.cons_append, List.append_assoc, List.singleton_append, List.nil_append,
      List.length_cons, List.length_append, List.length_nil, Nat.cast_add, Nat.cast_one,
      Nat.cast_zero, zero_add]
    rw [Next_quote, quotedLoop_escaped v rest _ line _ h3 h4 (h5 hn), List.singleton_append, hu]
    have e : col + 1 + ((escapeValue v).length : Int) + 1
        = col + (((escapeValue v).length : Int) + 1 + 1) := by omega
    rw [e]
  · have hn2 : needsQuotes v = false := by simpa using hn
    rw [renderValue, if_neg hn]
    exact Next_word v rest line col h1 (wordRune_of_bare hn2) (Or.inl hc) hr

theorem blankStop_renderValue (v rest : List Char) (hv : plainValue v = true) :
    blankStop (renderValue v ++ rest) = true := by
  obtain ⟨h1, -, -, -, -⟩ := (plainValue_iff v).1 hv
  by_cases hn : needsQuotes v = true
  · rw [renderValue, if_pos hn]
    rfl
  · have hn2 : needsQuotes v = false := by simpa using hn
    rw [renderValue, if_neg hn]
    have hw := wordRune_of_bare hn2
    cases v with
    | nil => exact absurd rfl h1
    | cons c t =>
      simp only [List.all_cons, Bool.and_eq_true, wordRune, Bool.not_eq_true',
        bne_iff_ne] at hw
      simp [blankStop, blankRune, hw.1.1]

theorem wordStop_renderValues (vs : List (List Char)) (rest : List Char)
    (hr : wordStop rest = true) : wordStop (renderValues vs ++ rest) = true := by
  cases vs with
  | nil => exact hr
  | cons v vs => rfl

/-- The written values of a flag, each after one space, extend the current flag:
`=` before the first value of the flag, one space before every other one. -/
theorem run_renderValues (file : Option GoString) (vs : List (List Char)) (rest : List Char)
    (line col : Int) (xs : List GoString) (a : GoString) (fo aw : Bool)
    (hvs : ∀ v ∈ vs, plainValue v = true) (hcol : 0 < col) (hr : wordStop rest = true) :
    ∃ col1 fo1 aw1, 0 < col1 ∧
      run file ⟨renderValues vs ++ rest, line, col⟩ ⟨xs ++ [a], false, fo, aw⟩
        = run file ⟨rest, line, col1⟩
            ⟨xs ++ [a ++ goStr (appendValues fo vs)], false, fo1, aw1⟩ := by
  induction vs generalizing col a fo aw with
  | nil => exact ⟨col, fo, aw, hcol, by simp [renderValues, appendValues, goStr]⟩
  | cons v vs ih =>
    have hv := hvs v (List.mem_cons_self _ _)
    have hd : goStr v ≠ [0x2D] := fun h =>
      ((plainValue_iff v).1 hv).2.1 ((goStr_eq_dash v).1 h)
    obtain ⟨col1, fo1, aw1, hc1, h1⟩ :=
      ih (col + 1 - 1 + (renderValue v).length) (a ++ sepOf fo true ++ goStr v) false false
        (fun q hq => hvs q (List.mem_cons_of_mem _ hq)) (by omega)
    refine ⟨col1, fo1, aw1, hc1, ?_⟩
    have e : renderValues (v :: vs) ++ rest
        = [' '] ++ (renderValue v ++ (renderValues vs ++ rest)) := by
      simp [renderValues]
    rw [e, run_blank file [' '] _ line col _ rfl (blankStop_renderValue v _ hv)]
    have hN := Next_renderValue v (renderValues vs ++ rest) line
      (col + (([' '] : List Char).length : Int) - 1) hv
      (by simp only [List.length_singleton, Nat.cast_one]; omega)
      (wordStop_renderValues vs rest hr)
    rw [run_value_tok file _ _ _ xs a fo true hN hd]
    simp only [List.length_singleton, Nat.cast_one] at h1 ⊢
    rw [h1, goStr_appendValues]
    simp only [List.append_assoc]

/-- The line of a flag gives one entry and leaves the assembler at the start of the
next line. -/
theorem run_renderFlag (file : Option GoString) (f : List Char × List (List Char))
    (rest : List Char) (line : Int) (args : List GoString) (fo aw : Bool)
    (hn : flagName f.1 = true) (hvs : ∀ v ∈ f.2, plainValue v = true) :
    ∃ fo1 aw1,
      run file ⟨renderFlag f ++ rest, line, 0⟩ ⟨args, true, fo, aw⟩
        = run file ⟨rest, line + 1, 0⟩ ⟨args ++ [entry (f.1 :: f.2)], true, fo1, aw1⟩ := by
  obtain ⟨n, vs⟩ := f
  simp only [flagName, Bool.and_eq_true, bne_iff_ne] at hn
  have hlen : 0 < n.length := List.length_pos.2 ((bareWord_iff n).1 hn.1).1
  have e : renderFlag (n, vs) ++ rest = n ++ (renderValues vs ++ '\n' :: rest) := by
    simp [renderFlag]
  have hlf : wordStop ('\n' :: rest) = true := rfl
  obtain ⟨col1, fo1, aw1, -, h1⟩ :=
    run_renderValues file vs ('\n' :: rest) line (0 + n.length) args (0x2D :: goStr n)
      true false hvs (by omega) hlf
  refine ⟨fo1, aw1, ?_⟩
  rw [e, run_word_first file n _ line 0 args fo aw hn.1 (Or.inr hn.2)
    (wordStop_renderValues vs _ hlf), h1, run_lf, entry_eq]

theorem run_renderFlags (file : Option GoString) (flags : List (List Char × List (List Char)))
    (line : Int) (args : List GoString) (fo aw : Bool)
    (h : ∀ f ∈ flags, flagName f.1 = true ∧ ∀ v ∈ f.2, plainValue v = true) :
    run file ⟨renderFlags flags, line, 0⟩ ⟨args, true, fo, aw⟩
      = .ok (args ++ flags.map (fun f => entry (f.1 :: f.2))) := by
  induction flags generalizing line args fo aw with
  | nil => simp [renderFlags, run_nil]
  | cons f fs ih =>
    have hf := h f (List.mem_cons_self _ _)
    obtain ⟨fo1, aw1, h1⟩ := run_renderFlag file f (renderFlags fs) line args fo aw hf.1 hf.2
    rw [renderFlags, h1, ih _ _ _ _ (fun g hg => h g (List.mem_cons_of_mem _ hg))]
    simp

/-! ## Adjacent words -/

/-- The loop of `NextQuotedWord` on a content without double quote and line feed that
does not end in a backslash: it reads up to the closing quote and hands the content
as written to `strconv.Unquote`. -/
theorem quotedLoop_verbatim (c rest value : List Char) (line col : Int)
    (hq : '"' ∉ c) (hl : '\n' ∉ c) (he : c.getLast? ≠ some '\\') :
    quotedLoop (c ++ '"' :: rest) value line col =
      match Unquote (value ++ c ++ ['"']) with
      | .error err => (.error err, ⟨rest, line, col + c.length + 1⟩)
      | .ok final => (.ok (.tokenWord, final), ⟨rest, line, col + c.length + 1⟩) := by
  induction c generalizing value col with
  | nil =>
    simp only [List.nil_append, List.append_nil, List.length_nil, Nat.cast_zero, add_zero]
    rw [quotedLoop_cons, if_pos rfl]
    cases Unquote (value ++ ['"']) <;> simp
  | cons x t ih =>
    have hx1 : x ≠ '"' := fun h => hq (h ▸ List.mem_cons_self _ _)
    have hx3 : x ≠ '\n' := fun h => hl (h ▸ List.mem_cons_self _ _)
    have hq2 : '"' ∉ t := fun h => hq (List.mem_cons_of_mem _ h)
    have hl2 : '\n' ∉ t := fun h => hl (List.mem_cons_of_mem _ h)
    have e : col + 1 + (t.length : Int) + 1 = col + ((t.length : Int) + 1) + 1 := by omega
    by_cases hx2 : x = '\\'
    · subst hx2
      cases t with
      | nil => exact absurd rfl he
      | cons y t2 =>
        have hy : y ≠ '"' := fun h => hq2 (h ▸ List.mem_cons_self _ _)
        have ih2 := ih (value ++ ['\\']) (col + 1) hq2 hl2 (getLast?_tail (by simp) he)
        rw [List.cons_append, List.cons_append, quotedLoop_cons, if_neg (by decide),
          if_pos rfl]
        dsimp only
        rw [if_neg hy, if_neg (by decide), if_neg (by decide)]
        rw [List.cons_append] at ih2
        rw [ih2]
        simp only [List.append_assoc, List.singleton_append, List.cons_append,
          List.nil_append, List.length_cons, Nat.cast_add, Nat.cast_one]
        have e2 : col + 1 + ((t2.length : Int) + 1) + 1
            = col + ((t2.length : Int) + 1 + 1) + 1 := by omega
        rw [e2]
    · have ht2 : t.getLast? ≠ some '\\' := by
        cases t with
        | nil => simp
        | cons y t2 => exact getLast?_tail (by simp) he
      rw [List.cons_append, quotedLoop_cons, if_neg hx1, if_neg hx2, if_neg hx3, if_neg hx3,
        ih _ _ hq2 hl2 ht2]
      simp only [List.append_assoc, List.singleton_append, List.length_cons, Nat.cast_add,
        Nat.cast_one]
      rw [e]

/-- Where the tokenizer agrees with the decoding of string literals: a bare word, a
quoted word and a bare word written next to each other give one value, for every
quoted word that `strconv.Unquote` decodes and in which no double quote stands between
the delimiters and no backslash stands right before the closing one. -/
theorem adjacent_words_concatenate (file : Option GoString) (n a c b : List Char)
    (v : GoString) (hn : flagName n = true) (ha : bareWord a = true)
    (hb : bareWord b = true) (hq : '"' ∉ c) (he : c.getLast? ≠ some '\\')
    (hu : Unquote ('"' :: c ++ ['"']) = .ok v) (hv : v ≠ [0x2D]) :
    Parse file (n ++ ' ' :: a ++ ('"' :: c ++ ['"']) ++ b)
      = .ok [goStr ('-' :: n ++ '=' :: a) ++ v ++ goStr b] := by
  simp only [flagName, Bool.and_eq_true, bne_iff_ne] at hn
  have hlen : 0 < n.length := List.length_pos.2 ((bareWord_iff n).1 hn.1).1
  have hl : '\n' ∉ c := by
    intro hm
    have := Unquote_lf ('"' :: c ++ ['"']) (by simp [hm])
    rw [hu] at this
    cases this
  have hN : ∀ col : Int, lexer.Next ⟨'"' :: (c ++ '"' :: b), 0, col⟩
      = (.ok (.tokenWord, v), ⟨b, 0, col + 1 + c.length + 1⟩) := by
    intro col
    rw [Next_quote, quotedLoop_verbatim c b _ 0 _ hq hl he, List.singleton_append, hu]
  have e1 : n ++ ' ' :: a ++ ('"' :: c ++ ['"']) ++ b
      = n ++ ([' '] ++ (a ++ ('"' :: (c ++ '"' :: b)))) := by
    simp
  rw [Parse_eq_run, e1,
    run_word_first file n ([' '] ++ (a ++ ('"' :: (c ++ '"' :: b)))) 0 0 [] true false hn.1
      (Or.inr hn.2) rfl,
    run_blank file [' '] _ 0 _ _ rfl (blankStop_word ha),
    run_word_value file a _ 0 _ [] _ true true ha
      (by simp only [List.length_singleton, Nat.cast_one]; omega) (by simp [wordStop]),
    run_value_tok file _ _ v [] _ false false (hN _) hv]
  have e2 : b = b ++ [] := by simp
  rw [e2, run_word_value file b [] _ _ [] _ false false hb
    (by simp only [List.length_singleton, Nat.cast_one]; omega) rfl, run_nil]
  simp only [List.nil_append, sepOf, if_true, List.append_assoc, List.singleton_append,
    List.append_nil, Bool.false_eq_true, if_false, List.cons_append]
  rw [← flag_eq_goStr]
  simp

/-- The line of the test: `message hello"\t"world` gives `-message=hello<TAB>world`. -/
theorem adjacent_words_test_line :
    Parse none "message hello\"\\t\"world".toList
      = .ok [goStr "-message=hello".toList ++ [9] ++ goStr "world".toList] :=
  adjacent_words_concatenate none "message".toList "hello".toList "\\t".toList
    "world".toList [9] (by decide) (by decide) (by decide) (by decide) (by decide)
    rfl (by decide)

/-! ## The claims -/

/-- C1: the text of a list of flag lines (a bare flag name followed by bare value words,
joined by one space, each line ended by a line feed) parses to exactly one entry per
line, in order: `-w0` for a one-word line, `-w0=w1 .. wk` otherwise; equal flag names
give separate entries. -/
theorem C1_one_entry_per_line (file : Option GoString) (lns : List (List (List Char)))
    (h : ∀ ln ∈ lns, flagLine ln = true) :
    Parse file (renderLines lns) = .ok (lns.map entry) := by
  rw [Parse_eq_run, run_renderLines file lns 0 [] true false h]
  rfl

theorem C1_one_entry_per_line_witness :
    Parse none "enable-video\nuser tim cooper\nuser dave\nsize 3\n".toList
      = .ok [goStr "-enable-video".toList, goStr "-user=tim cooper".toList,
          goStr "-user=dave".toList, goStr "-size=3".toList] :=
  C1_one_entry_per_line none
    [["enable-video".toList], ["user".toList, "tim".toList, "cooper".toList],
      ["user".toList, "dave".toList], ["size".toList, "3".toList]] (by decide)

/-- C2 (the code at the failing input): value words written next to each other are not
always concatenated: the quoted word `"a\"b"` is a string literal that decodes to
`a"b`, and the line `m x"a\"b"y` does not give `-m=xa"by`; the tokenizer writes the
escaped quote into its buffer without the backslash and `strconv.Unquote` rejects the
buffer `"a"b"`. -/
theorem C2_adjacent_escaped_quote_rejected :
    Unquote "\"a\\\"b\"".toList = .ok (goStr "a\"b".toList) ∧
      Parse none "m x\"a\\\"b\"y".toList = .fail ⟨[], 1, 9, some .syntaxErr⟩ :=
  ⟨rfl, by decide⟩

/-- C3: between value words, any non-empty run of whitespace other than CR and LF
collapses to exactly one space: the outcome does not depend on the separators. -/
theorem C3_whitespace_collapses (file : Option GoString) (n : List Char)
    (ps : List (List Char × List Char)) (hn : flagName n = true) (hne : ps ≠ [])
    (hp : ∀ p ∈ ps, blankRun p.1 = true ∧ bareWord p.2 = true) :
    Parse file (n ++ joinSep ps)
      = .ok [goStr ('-' :: n ++ '=' :: spaceJoin (ps.map Prod.snd))] := by
  simp only [flagName, Bool.and_eq_true, bne_iff_ne] at hn
  have hlen : 0 < n.length := List.length_pos.2 ((bareWord_iff n).1 hn.1).1
  have hstop : wordStop (joinSep ps) = true := by
    cases ps with
    | nil => exact absurd rfl hne
    | cons q qs =>
      simp only [joinSep, List.append_assoc]
      exact wordStop_blank (hp q (List.mem_cons_self _ _)).1
  obtain ⟨col1, fo1, aw1, -, h1⟩ :=
    run_values file ps [] 0 (0 + n.length) [] (0x2D :: goStr n) true false hp (by omega) rfl
  rw [List.append_nil] at h1
  rw [Parse_eq_run, run_word_first file n _ 0 0 [] true false hn.1 (Or.inr hn.2) hstop, h1,
    run_nil]
  cases ps with
  | nil => exact absurd rfl hne
  | cons q qs => rw [List.map_cons, appendValues_true_cons, dash_goStr, List.nil_append]

theorem C3_whitespace_collapses_witness :
    Parse none "size \t 3    4".toList = .ok [goStr "-size=3 4".toList] :=
  C3_whitespace_collapses none "size".toList
    [(" \t ".toList, "3".toList), ("    ".toList, "4".toList)]
    (by decide) (by decide) (by decide)

/-- C4: a quoted word without double quote, backslash or line feed inside has its
content as value, whitespace inside kept as written; an empty quoted word gives `-n=`. -/
theorem C4_quoted_content_verbatim (file : Option GoString) (n c : List Char)
    (hn : flagName n = true) (hc : c.all plainRune = true) (hd : c ≠ ['-']) :
    Parse file (n ++ ' ' :: '"' :: c ++ ['"']) = .ok [goStr ('-' :: n ++ '=' :: c)] := by
  simp only [flagName, Bool.and_eq_true, bne_iff_ne] at hn
  have hlen : 0 < n.length := List.length_pos.2 ((bareWord_iff n).1 hn.1).1
  have hv : goStr c ≠ [0x2D] := fun h => hd ((goStr_eq_dash c).1 h)
  have e1 : n ++ ' ' :: '"' :: c ++ ['"'] = n ++ ([' '] ++ ('"' :: c ++ '"' :: [])) := by simp
  rw [Parse_eq_run, e1,
    run_word_first file n ([' '] ++ ('"' :: c ++ '"' :: [])) 0 0 [] true false hn.1
      (Or.inr hn.2) rfl,
    run_blank file [' '] ('"' :: c ++ '"' :: []) 0 _ _ rfl rfl,
    run_value_tok file _ _ _ [] _ true true (Next_quoted_plain c [] 0 _ hc) hv, run_nil]
  simp only [List.nil_append, sepOf, if_true, List.append_assoc, List.singleton_append,
    List.cons_append]
  rw [flag_eq_goStr]

theorem C4_quoted_content_verbatim_witness :
    Parse none "msg \"a   b \t c\"".toList = .ok [goStr "-msg=a   b \t c".toList] :=
  C4_quoted_content_verbatim none "msg".toList "a   b \t c".toList
    (by decide) (by decide) (by decide)

/-- C5: a bare word that is exactly `-` is a parse error wherever it stands: after any
text `P` that is empty or ends with a line feed and parses successfully, at the start
of the line or after a bare flag name and a run of spaces and tabs, and before the
end of input or a line break, `Parse` fails with an `InvalidTokenError` with token `-`. -/
theorem C5_lone_dash_is_rejected (file : Option GoString) (P pre S : List Char)
    (hP : P = [] ∨ endsLF P = true) (hok : ∃ args, Parse file P = .ok args)
    (hpre : pre = [] ∨ ∃ n ws, flagName n = true ∧ ws ≠ [] ∧ ws.all spaceTab = true ∧
      pre = n ++ ws)
    (hS : startsWithBreak S = true) :
    ∃ e, Parse file (P ++ pre ++ '-' :: S) = .fail e ∧
      e.Err = some (.invalidToken ⟨[0x2D]⟩) := by
  have hstop := startsWithBreak_wordStop hS
  rcases prefix_sync file P hP 0 0 (le_refl _) ⟨[], true, true, false⟩ with
    ⟨line1, col1, v1, hz1, hz2, hS1, hX⟩ | hB
  · have hcol : col1 = 0 := by
      by_cases hp : P = []
      · exact hz1 hp
      · exact hz2 hp
    subst hcol
    have hnl : v1.newLine = true := by
      rcases hS1 (Or.inl rfl) with h | h
      · exact h
      · exact absurd h.1 (lt_irrefl _)
    obtain ⟨args, nl, fo, aw⟩ := v1
    simp only at hnl
    subst hnl
    rw [Parse_eq_run, List.append_assoc, hX]
    rcases hpre with rfl | ⟨n, ws, hn, hne, hws, rfl⟩
    · rw [List.nil_append, run_dash file S _ _ _ hstop]
      exact ⟨_, rfl, rfl⟩
    · simp only [flagName, Bool.and_eq_true, bne_iff_ne] at hn
      rw [List.append_assoc,
        run_word_first file n _ line1 0 args fo aw hn.1 (Or.inr hn.2)
          (wordStop_blank (spaceTab_blankRun hne hws)),
        run_blank file ws ('-' :: S) line1 _ _ (spaceTab_blankRun hne hws) rfl,
        run_dash file S _ _ _ hstop]
      exact ⟨_, rfl, rfl⟩
  · exfalso
    obtain ⟨args, hargs⟩ := hok
    have := hB []
    rw [List.append_nil, ← Parse_eq_run, hargs] at this
    cases this

theorem C5_lone_dash_is_rejected_witness :
    ∃ e, Parse none "user tim\n# note\nsize  \t-\r\nmore".toList = .fail e ∧
      e.Err = some (.invalidToken ⟨[0x2D]⟩) :=
  C5_lone_dash_is_rejected none "user tim\n# note\n".toList "size  \t".toList "\r\nmore".toList
    (Or.inr (by decide)) ⟨[goStr "-user=tim".toList], by decide⟩
    (Or.inr ⟨"size".toList, "  \t".toList, by decide, by decide, by decide, by decide⟩)
    (by decide)

/-- C6 (the code at the failing input): the quoted word `"a\"b"` is not decoded to
`a"b`; the tokenizer writes the escaped quote into its buffer without the backslash
and `strconv.Unquote` rejects the buffer `"a"b"`. -/
theorem C6_escaped_quote_rejected :
    Parse none "x \"a\\\"b\"".toList = .fail ⟨[], 1, 8, some .syntaxErr⟩ := by
  decide

/-- C7 (the code at the failing input): after exactly one blank at the start of a
line the column counter is still 0, and `#` starts a comment instead of a word. -/
theorem C7_hash_after_one_blank : Parse none " #foo".toList = .ok [] := by
  decide

/-- C8: a text made only of comment lines and blank lines, with lines terminated by
LF, CR LF or CR and a last line that may lack its terminator, parses to the empty
list; this includes the empty input. -/
theorem C8_comments_and_blanks_give_nothing (file : Option GoString)
    (ls : List (List Char × List Char)) (last : List Char)
    (h : ∀ p ∈ ls, idleLine p.1 = true ∧ lineBreak p.2 = true)
    (hl : idleLine last = true) :
    Parse file (linesText ls last) = .ok [] := by
  rw [Parse_eq_run, run_idle file last hl ls.length ls (le_refl _) h]

theorem C8_comments_and_blanks_give_nothing_witness :
    Parse none "# a \"comment\"\r\n  \t\r\n\n#x\r#".toList = .ok [] :=
  C8_comments_and_blanks_give_nothing none
    [("# a \"comment\"".toList, "\r\n".toList), ("  \t".toList, "\r".toList),
      ([], "\n".toList), ([], "\n".toList), ("#x".toList, "\r".toList)]
    "#".toList (by decide) (by decide)

/-- C9: a comment line contributes nothing and neither starts nor ends a flag: with
`L1` empty or ending with a line feed, inserting the line `#c` between `L1` and `L2`
changes neither whether `Parse` succeeds nor the flag list it returns. -/
theorem C9_comment_line_is_transparent (file : Option GoString) (L1 c L2 : List Char)
    (hL : L1 = [] ∨ endsLF L1 = true) (hc : c.all inlineRune = true) :
    (Parse file (L1 ++ '#' :: c ++ '\n' :: L2)).args? = (Parse file (L1 ++ L2)).args? := by
  rw [Parse_eq_run, Parse_eq_run]
  rcases prefix_sync file L1 hL 0 0 (le_refl _) ⟨[], true, true, false⟩ with
    ⟨line1, col1, v1, hz1, hz2, -, hX⟩ | hB
  · have hcol : col1 = 0 := by
      by_cases hp : L1 = []
      · exact hz1 hp
      · exact hz2 hp
    subst hcol
    have e1 : L1 ++ '#' :: c ++ '\n' :: L2 = L1 ++ ('#' :: c ++ ['\n'] ++ L2) := by simp
    rw [e1, hX, hX, run_comment file c ['\n'] L2 line1 v1 hc rfl]
    exact run_line_indep file L2 _ _ 0 v1
  · have e1 : L1 ++ '#' :: c ++ '\n' :: L2 = L1 ++ ('#' :: c ++ '\n' :: L2) := by simp
    rw [e1, hB, hB]

theorem C9_comment_line_is_transparent_witness :
    (Parse none "user tim\n# a \"note\n size 3\n".toList).args?
      = (Parse none "user tim\n size 3\n".toList).args? :=
  C9_comment_line_is_transparent none "user tim\n".toList " a \"note".toList
    " size 3\n".toList (Or.inr (by decide)) (by decide)

/-- C10: each of CR LF, a lone CR and a lone LF counts as exactly one line break:
after `k` lines of one bare word each, a lone `-` is reported on line `k + 1`. -/
theorem C10_each_break_counts_once (file : Option GoString)
    (ls : List (List Char × List Char))
    (h : ∀ p ∈ ls, bareWord p.1 = true ∧ lineBreak p.2 = true) :
    ∃ e, Parse file (linesText ls ['-']) = .fail e ∧ e.Line = (ls.length : Int) + 1 := by
  refine ⟨⟨fileName file, 0 + ls.length + 1, 1, some (.invalidToken ⟨[0x2D]⟩)⟩, ?_, ?_⟩
  · rw [Parse_eq_run]
    exact run_wordLines file ls h 0 [] true false
  · simp

theorem C10_each_break_counts_once_witness :
    ∃ e, Parse none "a\r\nb\rc\n#d\r-".toList = .fail e ∧ e.Line = 5 :=
  C10_each_break_counts_once none
    [("a".toList, "\r\n".toList), ("b".toList, "\r".toList), ("c".toList, "\n".toList),
      ("#d".toList, "\r".toList)] (by decide)

/-- C11: an unterminated quoted word fails the whole parse: after any text `P` that is
empty or ends with a line feed and parses successfully, a flag name and a quoted word
that is opened but never closed (every double quote after the opening one follows a
backslash) make `Parse` return no flag list but an `Error` whose cause is
`io.ErrUnexpectedEOF`. -/
theorem C11_unterminated_quote_fails (file : Option GoString) (P n c : List Char)
    (hP : P = [] ∨ endsLF P = true) (hok : ∃ args, Parse file P = .ok args)
    (hn : flagName n = true) (hc : quotesEscaped none c = true) :
    ∃ e, Parse file (P ++ n ++ ' ' :: '"' :: c) = .fail e ∧
      e.Err = some .unexpectedEOF := by
  simp only [flagName, Bool.and_eq_true, bne_iff_ne] at hn
  obtain ⟨line1, args, fo, aw, hX⟩ := after_ok_prefix file P hP hok
  obtain ⟨l1, hl1⟩ := quotedLoop_open c ['"'] line1
    (0 + (n.length : Int) + (([' '] : List Char).length : Int) - 1 + 1) hc
  have e1 : P ++ n ++ ' ' :: '"' :: c = P ++ (n ++ ([' '] ++ ('"' :: c))) := by simp
  rw [Parse_eq_run, e1, hX,
    run_word_first file n ([' '] ++ ('"' :: c)) line1 0 args fo aw hn.1 (Or.inr hn.2) rfl,
    run_blank file [' '] ('"' :: c) line1 _ _ rfl rfl,
    run_step file _ _ _ _ ((Next_quote c line1 _).trans hl1)]
  exact ⟨_, rfl, rfl⟩

theorem C11_unterminated_quote_fails_witness :
    ∃ e, Parse none "user tim\nmsg \"a \\\" b\nsize 3\n".toList = .fail e ∧
      e.Err = some .unexpectedEOF :=
  C11_unterminated_quote_fails none "user tim\n".toList "msg".toList
    "a \\\" b\nsize 3\n".toList (Or.inr (by decide)) ⟨[goStr "-user=tim".toList], by decide⟩
    (by decide) (by decide)

/-- C12: inside a quoted word, a backslash in front of a rune that is no escape
character of a double-quoted string literal is a decode error: `Parse` fails with an
`Error` whose cause is `strconv.ErrSyntax`. -/
theorem C12_unsupported_escape_fails (file : Option GoString) (n a b : List Char) (x : Char)
    (hn : flagName n = true) (ha : a.all plainRune = true) (hb : b.all plainRune = true)
    (hx : escapeRune x = false) :
    ∃ e, Parse file (n ++ ' ' :: '"' :: a ++ '\\' :: x :: b ++ ['"']) = .fail e ∧
      e.Err = some .syntaxErr := by
  simp only [flagName, Bool.and_eq_true, bne_iff_ne] at hn
  obtain ⟨l1, hl1⟩ := Next_bad_escape a b [] x 0
    (0 + (n.length : Int) + (([' '] : List Char).length : Int) - 1) ha hb hx
  have e1 : n ++ ' ' :: '"' :: a ++ '\\' :: x :: b ++ ['"']
      = n ++ ([' '] ++ ('"' :: (a ++ '\\' :: x :: (b ++ '"' :: [])))) := by simp
  rw [Parse_eq_run, e1,
    run_word_first file n ([' '] ++ ('"' :: (a ++ '\\' :: x :: (b ++ '"' :: [])))) 0 0 []
      true false hn.1 (Or.inr hn.2) rfl,
    run_blank file [' '] ('"' :: (a ++ '\\' :: x :: (b ++ '"' :: []))) 0 _ _ rfl rfl,
    run_step file _ _ _ _ hl1]
  exact ⟨_, rfl, rfl⟩

theorem C12_unsupported_escape_fails_witness :
    ∃ e, Parse none "msg \"\\q\"".toList = .fail e ∧ e.Err = some .syntaxErr :=
  C12_unsupported_escape_fails none "msg".toList [] [] 'q' (by decide) (by decide)
    (by decide) (by decide)

/-- C13 (counterexample): the quoted word with a raw line feed inside is not accepted:
`Parse` of the line `x "a<LF>b"` fails on line 2 with `strconv.ErrSyntax`. -/
theorem C13_line_feed_in_quotes_counterexample :
    Parse none "x \"a\nb\"".toList = .fail ⟨[], 2, 3, some .syntaxErr⟩ ∧
      Parse none "x \"a\nb\"".toList ≠ .ok [goStr "-x=a\nb".toList] := by
  decide

/-- C13 (amended): a line feed inside a quoted word does not end the word and counts
one line, but the word is rejected when it is decoded: `Parse` fails with an `Error`
whose cause is `strconv.ErrSyntax`, reported on line 2 just after the closing quote. -/
theorem C13_line_feed_in_quotes_rejected (file : Option GoString) (n a b : List Char)
    (hn : flagName n = true) (ha : a.all plainRune = true) (hb : b.all plainRune = true) :
    Parse file (n ++ ' ' :: '"' :: a ++ '\n' :: b ++ ['"'])
      = .fail ⟨fileName file, 2, (b.length : Int) + 2, some .syntaxErr⟩ := by
  simp only [flagName, Bool.and_eq_true, bne_iff_ne] at hn
  have e1 : n ++ ' ' :: '"' :: a ++ '\n' :: b ++ ['"']
      = n ++ ([' '] ++ ('"' :: (a ++ '\n' :: (b ++ '"' :: [])))) := by simp
  rw [Parse_eq_run, e1,
    run_word_first file n ([' '] ++ ('"' :: (a ++ '\n' :: (b ++ '"' :: [])))) 0 0 []
      true false hn.1 (Or.inr hn.2) rfl,
    run_blank file [' '] ('"' :: (a ++ '\n' :: (b ++ '"' :: []))) 0 _ _ rfl rfl,
    run_step file _ _ _ _ (Next_quoted_lf a b [] 0 _ ha hb)]
  simp only [assemble, zero_add, ParseResult.fail.injEq, Error.mk.injEq, true_and, and_true]
  constructor
  · rfl
  · omega

theorem C13_line_feed_in_quotes_rejected_witness :
    Parse none "msg \"two\nlines\"".toList = .fail ⟨[], 2, 7, some .syntaxErr⟩ :=
  C13_line_feed_in_quotes_rejected none "msg".toList "two".toList "lines".toList
    (by decide) (by decide) (by decide)

/-- C14 (the code at the failing input): for `a -` the reported column is 2, not 3: the
blank between the two words is not counted. -/
theorem C14_column_after_blank :
    Parse none "a -".toList = .fail ⟨[], 1, 2, some (.invalidToken ⟨[0x2D]⟩)⟩ := by
  decide

/-- C15 (counterexample): the round trip fails for admitted flags: a value with a
double quote and a value with a line feed are rejected with `strconv.ErrSyntax`, and
a value with a blank that ends in a backslash makes the quoted word run to the end of
the input. -/
theorem C15_round_trip_counterexample :
    (namedFlag ("msg".toList, ["a\"b".toList]) = true ∧
        Parse none (renderFlags [("msg".toList, ["a\"b".toList])])
          = .fail ⟨[], 1, 10, some .syntaxErr⟩) ∧
      (namedFlag ("msg".toList, ["a\nb".toList]) = true ∧
        Parse none (renderFlags [("msg".toList, ["a\nb".toList])])
          = .fail ⟨[], 2, 3, some .syntaxErr⟩) ∧
      (namedFlag ("msg".toList, ["a b\\".toList]) = true ∧
        Parse none (renderFlags [("msg".toList, ["a b\\".toList])])
          = .fail ⟨[], 2, 1, some .unexpectedEOF⟩) := by
  decide

/-- C15 (amended): the round trip holds for values without double quote and without
line feed of which those written between quotes do not end in a backslash: the text
of such a flag list parses to `-name` for a flag without values and to
`-name=v1 .. vk` (the values joined by one space) otherwise, in order. -/
theorem C15_round_trip (file : Option GoString) (flags : List (List Char × List (List Char)))
    (h : ∀ f ∈ flags, flagName f.1 = true ∧ ∀ v ∈ f.2, plainValue v = true) :
    Parse file (renderFlags flags) = .ok (flags.map (fun f => entry (f.1 :: f.2))) := by
  rw [Parse_eq_run, run_renderFlags file flags 0 [] true false h]
  rfl

theorem C15_round_trip_witness :
    Parse none "user \"tim cooper\" x\\\npath \"C:\\\\my dir\\\\f\tg\"\nv\n".toList
      = .ok [goStr "-user=tim cooper x\\".toList, goStr "-path=C:\\my dir\\f\tg".toList,
          goStr "-v".toList] :=
  C15_round_trip none
    [("user".toList, ["tim cooper".toList, "x\\".toList]),
      ("path".toList, ["C:\\my dir\\f\tg".toList]), ("v".toList, [])]
    (by decide)

/-- C16: on every input on which `Parse` succeeds, every element of the returned list
begins with `-` (the list may be empty). -/
theorem C16_every_flag_begins_with_dash (file : Option GoString) (input : List Char)
    (args : List GoString) (h : Parse file input = .ok args) :
    ∀ a ∈ args, a.head? = some 0x2D := by
  have := run_invariant file (fun v => ∀ a ∈ v.args, a.head? = some 0x2D)
    (fun r => ∀ args, r = .ok args → ∀ a ∈ args, a.head? = some 0x2D)
    (fun _ _ _ _ _ hv hs => dashed_next hv hs)
    (fun _ _ v r hv hr => by
      intro args hargs
      subst hargs
      rcases assemble_ret_cases hr with h1 | ⟨e, h1⟩ | ⟨h1, -⟩
      · simp only [ParseResult.ok.injEq] at h1
        rw [h1]
        exact hv
      · cases h1
      · cases h1)
    ⟨input, 0, 0⟩ ⟨[], true, true, false⟩ (by simp)
  exact this args h

theorem C16_every_flag_begins_with_dash_witness :
    Parse none "user tim  cooper\n  #x\nq \"\"".toList
        = .ok [goStr "-user=tim cooper".toList, goStr "-#x".toList, goStr "-q=".toList] ∧
      (goStr "-q=".toList).head? = some 0x2D :=
  ⟨by decide,
    C16_every_flag_begins_with_dash none "user tim  cooper\n  #x\nq \"\"".toList
      [goStr "-user=tim cooper".toList, goStr "-#x".toList, goStr "-q=".toList] (by decide)
      (goStr "-q=".toList) (by simp)⟩

/-- C17: the method `Error` renders every `Error` as the text `flagfile: parsing error`,
then ` in ` and the file when the file is not empty, then ` (line L, column C)` with
the numbers in decimal, then `: ` and the text of the cause when there is one; an
`InvalidTokenError` renders as `invalid token "t"`; and the error that `Parse` returns
for a bare `-` alone in an anonymous stream renders as
`flagfile: parsing error (line 1, column 1): invalid token "-"`. -/
theorem C17_error_rendering :
    (∀ e : Error, e.Error =
        goStr "flagfile: parsing error".toList
          ++ (if e.File = [] then [] else goStr " in ".toList ++ e.File)
          ++ goStr " (line ".toList ++ Itoa e.Line ++ goStr ", column ".toList
          ++ Itoa e.Column ++ goStr ")".toList
          ++ (match e.Err with
              | some err => goStr ": ".toList ++ err.Error
              | none => [])) ∧
      (∀ t : GoString,
        GoError.Error (.invalidToken ⟨t⟩) = goStr "invalid token \"".toList ++ t ++ [0x22]) ∧
      (∃ e, Parse none "-".toList = .fail e ∧
        e.Error
          = goStr "flagfile: parsing error (line 1, column 1): invalid token \"-\"".toList) := by
  refine ⟨?_, fun t => rfl,
    ⟨⟨[], 1, 1, some (.invalidToken ⟨[0x2D]⟩)⟩, by decide, by decide⟩⟩
  intro e
  obtain ⟨file, line, col, err⟩ := e
  by_cases hf : file = []
  · cases err <;> simp [Error.Error, WriteString, hf]
  · cases err <;> simp [Error.Error, WriteString, hf]

/-- C18: `Parse` terminates on every finite input.  A call of `Next` that returns a
token other than `tokenEOF` leaves strictly less input than it found, and what it
leaves is a suffix of what it found; `tokenEOF` is returned exactly at the end of the
input; the token stream of every text is finite and ends in exactly one `tokenEOF` or
in an error; and the loop of `Parse` never reaches its iteration bound, whatever bound
above the length of the input is chosen. -/
theorem C18_parse_terminates :
    (∀ (l l1 : lexer) (tk : token) (val : GoString), l.Next = (.ok (tk, val), l1) →
        tk ≠ .tokenEOF → l1.R.length < l.R.length ∧ l1.R <:+ l.R) ∧
      (∀ l : lexer, l.R = [] ↔ ∃ val, l.Next.1 = .ok (.tokenEOF, val)) ∧
      (∀ input : List Char, ∃ toks err,
        tokenStream (input.length + 1) ⟨input, 0, 0⟩ = some (toks, err) ∧
          toks.length ≤ input.length + 1 ∧
          (err = none → toks.getLast? = some .tokenEOF ∧ toks.count .tokenEOF = 1) ∧
          (err ≠ none → token.tokenEOF ∉ toks)) ∧
      (∀ (file : Option GoString) (input : List Char), Parse file input ≠ .outOfFuel ∧
        ∀ fuel, input.length < fuel →
          parseLoop file fuel ⟨input, 0, 0⟩ ⟨[], true, true, false⟩ = Parse file input) := by
  refine ⟨?_, ?_, ?_, ?_⟩
  · intro l l1 tk val h htk
    have hne : l.R ≠ [] := by
      intro hnil
      obtain ⟨R, line, col⟩ := l
      simp only at hnil
      subst hnil
      simp only [lexer.Next, Prod.mk.injEq, Except.ok.injEq] at h
      exact htk h.1.1.symm
    have h1 := Next_lt l hne
    have h2 := Next_suffix l
    rw [h] at h1 h2
    exact ⟨h1, h2⟩
  · intro l
    constructor
    · intro hnil
      obtain ⟨R, line, col⟩ := l
      simp only at hnil
      subst hnil
      exact ⟨[], rfl⟩
    · rintro ⟨val, h⟩
      exact Next_eof l val h
  · intro input
    exact tokenStream_total ⟨input, 0, 0⟩ (input.length + 1) (Nat.lt_succ_self _)
  · intro file input
    refine ⟨?_, fun fuel hf => ?_⟩
    · rw [Parse_eq_run]
      exact run_ne_outOfFuel file _ _
    · exact parseLoop_fuel file _ _ _ _ hf (Nat.lt_succ_self _)

/-- C19: `Parse` never indexes an empty list: in every state in which an iteration of
its loop starts, `newLine` is false only if `args` is not empty, and so the panic of
`args[len(args)-1]` does not occur on any input. -/
theorem C19_last_flag_always_exists (file : Option GoString) (input : List Char) :
    (∀ k l v, stateAt file input k = some (l, v) → v.newLine = false → v.args ≠ []) ∧
      Parse file input ≠ .indexOutOfRange :=
  ⟨fun k l v h => stateAt_safe file input k l v h,
    run_invariant file (fun v => v.newLine = false → v.args ≠ [])
      (fun r => r ≠ .indexOutOfRange) (fun _ _ _ _ _ hv hs => safe_next hv hs)
      (fun _ _ _ _ hv hr => safe_ret hv hr) ⟨input, 0, 0⟩ ⟨[], true, true, false⟩
      (fun h => by cases h)⟩

/-- C20: the rejection of `-` is decided on the decoded value of a word: a quoted word
whose content is a single hyphen is an invalid token both as the value of a bare flag
name `n` and as the first word of the input, reported on line 1 at the column of the
closing quote. -/
theorem C20_quoted_dash_is_rejected (file : Option GoString) (n : List Char)
    (hn : flagName n = true) :
    Parse file (n ++ " \"-\"".toList)
        = .fail ⟨fileName file, 1, (n.length : Int) + 3, some (.invalidToken ⟨[0x2D]⟩)⟩ ∧
      Parse file "\"-\"".toList
        = .fail ⟨fileName file, 1, 3, some (.invalidToken ⟨[0x2D]⟩)⟩ := by
  simp only [flagName, Bool.and_eq_true, bne_iff_ne] at hn
  have hg : goStr ['-'] = [0x2D] := by decide
  have hN : ∀ (line col : Int), lexer.Next ⟨'"' :: ['-'] ++ '"' :: [], line, col⟩
      = (.ok (.tokenWord, [0x2D]), ⟨[], line, col + 1 + 1 + 1⟩) := by
    intro line col
    have := Next_quoted_plain ['-'] [] line col (by decide)
    rw [hg] at this
    exact this
  constructor
  · have e1 : n ++ " \"-\"".toList = n ++ ([' '] ++ ('"' :: ['-'] ++ '"' :: [])) := rfl
    rw [Parse_eq_run, e1,
      run_word_first file n ([' '] ++ ('"' :: ['-'] ++ '"' :: [])) 0 0 [] true false hn.1
        (Or.inr hn.2) rfl,
      run_blank file [' '] ('"' :: ['-'] ++ '"' :: []) 0 _ _ rfl rfl,
      run_step file _ _ _ _ (hN _ _), assemble_dash]
    simp only [List.length_singleton, Nat.cast_one, zero_add, ParseResult.fail.injEq,
      Error.mk.injEq, true_and, and_true]
    omega
  · have e2 : "\"-\"".toList = '"' :: ['-'] ++ '"' :: [] := rfl
    rw [Parse_eq_run, e2, run_step file _ _ _ _ (hN 0 0), assemble_dash]
    rfl

theorem C20_quoted_dash_is_rejected_witness :
    Parse none "opt \"-\"".toList = .fail ⟨[], 1, 6, some (.invalidToken ⟨[0x2D]⟩)⟩ ∧
      Parse none "\"-\"".toList = .fail ⟨[], 1, 3, some (.invalidToken ⟨[0x2D]⟩)⟩ :=
  C20_quoted_dash_is_rejected none "opt".toList (by decide)

end flagfile
